import Mathlib

/-!
# ParsingTree: expression tokenizer, shunting-yard converter, tree builder and evaluator

A shallow embedding of `ExpressionEvaluator.cpp`, `Node.hpp`/`Node.cpp` and
`ExpressionTree.hpp`.

* `std::string` is `String`; scanning works on its character list.
* `std::vector` is `List` (`push_back x` is `· ++ [x]`), `std::stack` is `List`
  with the top at the head.
* A thrown `ExpressionError` is `Except.error (Fault.ExpressionError msg)`.
* `double` is IEEE-754 binary64, modelled exactly by `Double` below (sign,
  odd mantissa and binary exponent, with round-to-nearest-even); `std::pow` is
  not given by IEEE-754 and is a parameter of the evaluator's constructor.
* `std::stod` follows the C standard's `strtod` grammar in the "C" locale and
  throws on a range error.
-/

namespace ParsingTree

/-! ## IEEE-754 binary64 values -/

/-- A `double`: NaN, a signed infinity, or the finite value `(-1)^neg * m * 2^e`.
Finite values are kept canonical: `m` is odd, or `m = 0` and `e = 0`. -/
inductive Double where
  | nan : Double
  | inf (neg : Bool) : Double
  | fin (neg : Bool) (m : Nat) (e : Int) : Double
deriving DecidableEq, Repr

namespace Double

/-- Divide out factors of two, raising the exponent. -/
def stripTwos : Nat → Nat → Int → Nat × Int
  | 0, m, e => (m, e)
  | fuel + 1, m, e =>
    if m % 2 = 0 ∧ m ≠ 0 then stripTwos fuel (m / 2) (e + 1) else (m, e)

/-- The canonical finite value `(-1)^neg * m * 2^e` (exact, no rounding). -/
def mkFinite (neg : Bool) (m : Nat) (e : Int) : Double :=
  if m = 0 then fin neg 0 0
  else
    let r := stripTwos m m e
    fin neg r.1 r.2

/-- `floor (log2 n)` for positive `n`, by repeated halving (at most `fuel` times). -/
def log2Fuel : Nat → Nat → Nat
  | 0, _ => 0
  | fuel + 1, n => if n < 2 then 0 else log2Fuel fuel (n / 2) + 1

/-- `floor (log2 (n / d))` for positive `n` and `d`. -/
def floorLog2 (n d : Nat) : Int :=
  let l : Int := (log2Fuel n n : Int) - (log2Fuel d d : Int)
  if 0 ≤ l then (if d * 2 ^ l.toNat ≤ n then l else l - 1)
  else (if d ≤ n * 2 ^ (-l).toNat then l else l - 1)

/-- Outcome of rounding an exact value to binary64. -/
structure Rounded where
  value : Double
  inexact : Bool
  overflow : Bool
  tiny : Bool
deriving DecidableEq, Repr

/-- Round the exact non-negative rational `n / d` (with `d > 0`), carrying sign
`neg`, to the nearest binary64 value, ties to even; magnitudes that round to
`2^1024` or more overflow to infinity. `tiny` records a non-zero exact value
below the smallest normal number `2^-1022`. -/
def roundInfo (neg : Bool) (n d : Nat) : Rounded :=
  if n = 0 then ⟨fin neg 0 0, false, false, false⟩
  else
    let fl := floorLog2 n d
    if 1024 ≤ fl then ⟨inf neg, true, true, false⟩
    else
      let e : Int := max (fl - 52) (-1074)
      let num := if 0 ≤ e then n else n * 2 ^ (-e).toNat
      let den := if 0 ≤ e then d * 2 ^ e.toNat else d
      let q := num / den
      let r := num % den
      let q1 := if den < 2 * r ∨ (2 * r = den ∧ q % 2 = 1) then q + 1 else q
      if q1 = 2 ^ 53 ∧ e = 971 then ⟨inf neg, true, true, false⟩
      else ⟨mkFinite neg q1 e, decide (r ≠ 0), false, decide (fl < -1022)⟩

/-- Round `n / d` with sign `neg` to binary64. -/
def round (neg : Bool) (n d : Nat) : Double := (roundInfo neg n d).value

/-- Round the exact value `(-1)^neg * m * 2^e` to binary64. -/
def roundDyadic (neg : Bool) (m : Nat) (e : Int) : Double :=
  if 0 ≤ e then round neg (m * 2 ^ e.toNat) 1 else round neg m (2 ^ (-e).toNat)

/-- The `double` nearest to an `int` (exact for every 32-bit value). -/
def ofInt (i : Int) : Double := roundDyadic (decide (i < 0)) i.natAbs 0

/-- The `double` of a natural number literal. -/
def ofNat (n : Nat) : Double := roundDyadic false n 0

/-- Unary minus: flips the sign bit. -/
def neg : Double → Double
  | nan => nan
  | inf s => inf (!s)
  | fin s m e => fin (!s) m e

/-- IEEE-754 addition, round to nearest even. -/
def add : Double → Double → Double
  | nan, _ => nan
  | _, nan => nan
  | inf s, inf t => if s = t then inf s else nan
  | inf s, fin _ _ _ => inf s
  | fin _ _ _, inf t => inf t
  | fin s m e, fin t k f =>
    let g := min e f
    let a : Int := (if s then -1 else 1) * ((m * 2 ^ (e - g).toNat : Nat) : Int)
    let b : Int := (if t then -1 else 1) * ((k * 2 ^ (f - g).toNat : Nat) : Int)
    let c := a + b
    if c = 0 then fin (s && t) 0 0 else roundDyadic (decide (c < 0)) c.natAbs g

/-- IEEE-754 subtraction. -/
def sub (a b : Double) : Double := add a (neg b)

/-- IEEE-754 multiplication, round to nearest even. -/
def mul : Double → Double → Double
  | nan, _ => nan
  | _, nan => nan
  | inf s, inf t => inf (xor s t)
  | inf s, fin t k _ => if k = 0 then nan else inf (xor s t)
  | fin s m _, inf t => if m = 0 then nan else inf (xor s t)
  | fin s m e, fin t k f => roundDyadic (xor s t) (m * k) (e + f)

/-- IEEE-754 division, round to nearest even. -/
def div : Double → Double → Double
  | nan, _ => nan
  | _, nan => nan
  | inf _, inf _ => nan
  | inf s, fin t _ _ => inf (xor s t)
  | fin s _ _, inf t => fin (xor s t) 0 0
  | fin s m e, fin t k f =>
    if k = 0 then (if m = 0 then nan else inf (xor s t))
    else round (xor s t) (m * 2 ^ (e - f).toNat) (k * 2 ^ (f - e).toNat)

/-- `std::fmod`: the remainder of the division truncated toward zero; it is
exact and carries the sign of the dividend. -/
def fmod : Double → Double → Double
  | nan, _ => nan
  | _, nan => nan
  | inf _, _ => nan
  | fin s m e, inf _ => fin s m e
  | fin s m e, fin _ k f =>
    if k = 0 then nan
    else
      let g := min e f
      mkFinite s ((m * 2 ^ (e - g).toNat) % (k * 2 ^ (f - g).toNat)) g

/-- The comparison `a == b` of two doubles (NaN equals nothing, `-0 == +0`). -/
def eq : Double → Double → Bool
  | nan, _ => false
  | _, nan => false
  | inf s, inf t => s == t
  | inf _, fin _ _ _ => false
  | fin _ _ _, inf _ => false
  | fin s m e, fin t k f => (m == 0 && k == 0) || (s == t && m == k && e == f)

/-- The comparison `a < b` of two doubles (false when either is NaN). -/
def lt : Double → Double → Bool
  | nan, _ => false
  | _, nan => false
  | inf s, inf t => s && !t
  | inf s, fin _ _ _ => s
  | fin _ _ _, inf t => !t
  | fin s m e, fin t k f =>
    let g := min e f
    let a : Int := (if s then -1 else 1) * ((m * 2 ^ (e - g).toNat : Nat) : Int)
    let b : Int := (if t then -1 else 1) * ((k * 2 ^ (f - g).toNat : Nat) : Int)
    decide (a < b)

/-- The comparison `a <= b` of two doubles. -/
def le (a b : Double) : Bool := lt a b || eq a b

/-- The test `a == 0` (true for both zeros). -/
def isZero (a : Double) : Bool := eq a (fin false 0 0)

/-- The truncation of `a` toward zero when it is representable in a 32-bit `int`;
`none` for NaN, an infinity and a truncation outside the range of `int`. -/
def toInt : Double → Option Int
  | nan => none
  | inf _ => none
  | fin s m e =>
    let mag : Nat := if 0 ≤ e then m * 2 ^ e.toNat else m / 2 ^ (-e).toNat
    let i : Int := if s then -(mag : Int) else (mag : Int)
    if -2147483648 ≤ i ∧ i ≤ 2147483647 then some i else none

/-- The conversion `static_cast<int>(a)` as the operator lambdas perform it: the
truncation toward zero. The conversion raises nothing; for NaN, an infinity and a
truncation outside the range of `int`, where C++ does not fix the resulting `int`,
the value is `INT_MIN`, which the conversion instruction of x86-64 gives. -/
def castInt (a : Double) : Int := (toInt a).getD (-2147483648)

end Double

/-! ## Character classes of `<cctype>` in the "C" locale -/

/-- The predicate `std::isspace`: space, `\t`, `\n`, `\v`, `\f`, `\r`. -/
def isspace (c : Char) : Bool :=
  c.toNat == 32 || (9 ≤ c.toNat && c.toNat ≤ 13)

/-- The predicate `std::isdigit`. -/
def isdigit (c : Char) : Bool := 48 ≤ c.toNat && c.toNat ≤ 57

/-- The predicate `std::isalpha`. -/
def isalpha (c : Char) : Bool :=
  (65 ≤ c.toNat && c.toNat ≤ 90) || (97 ≤ c.toNat && c.toNat ≤ 122)

/-- The predicate `std::isalnum`. -/
def isalnum (c : Char) : Bool := isalpha c || isdigit c

/-- The predicate `std::isxdigit`. -/
def isxdigit (c : Char) : Bool :=
  isdigit c || (65 ≤ c.toNat && c.toNat ≤ 70) || (97 ≤ c.toNat && c.toNat ≤ 102)

/-- Lower-case form of an ASCII letter (`std::tolower`). -/
def tolower (c : Char) : Char :=
  if 65 ≤ c.toNat && c.toNat ≤ 90 then Char.ofNat (c.toNat + 32) else c

/-! ## `std::stod` -/

/-- Value of a run of decimal digits. -/
def decimalValue (ds : List Char) : Nat :=
  ds.foldl (fun acc c => 10 * acc + (c.toNat - 48)) 0

/-- Value of one hexadecimal digit. -/
def hexDigit (c : Char) : Nat :=
  if isdigit c then c.toNat - 48
  else if 97 ≤ c.toNat then c.toNat - 87 else c.toNat - 55

/-- Value of a run of hexadecimal digits. -/
def hexValue (ds : List Char) : Nat :=
  ds.foldl (fun acc c => 16 * acc + hexDigit c) 0

/-- An exact scanned magnitude `num / den` and the number of characters it took. -/
structure Scanned where
  num : Nat
  den : Nat
  len : Nat
deriving DecidableEq, Repr

/-- An optional sign: whether it is `-`, the characters after it, and the
number of characters it took. -/
def scanSign (cs : List Char) : Bool × List Char × Nat :=
  match cs with
  | '+' :: t => (false, t, 1)
  | '-' :: t => (true, t, 1)
  | _ => (false, cs, 0)

/-- An optional exponent part: the marker has already been matched; returns the
signed exponent and the characters used (marker included), or `none` when no
digit follows. -/
def scanExponent (cs : List Char) : Option (Int × Nat) :=
  let signed := scanSign cs
  let ds := signed.2.1.takeWhile isdigit
  if ds = [] then none
  else
    let v : Int := (decimalValue ds : Nat)
    some (if signed.1 then -v else v, 1 + signed.2.2 + ds.length)

/-- Scale `num / den` by `base ^ k` for a signed `k`. -/
def scalePow (base : Nat) (num den : Nat) (k : Int) : Nat × Nat :=
  if 0 ≤ k then (num * base ^ k.toNat, den) else (num, den * base ^ (-k).toNat)

/-- A decimal floating constant of `strtod`: a non-empty digit sequence
optionally containing a radix character, then an optional exponent part. -/
def scanDecimal (cs : List Char) : Option Scanned :=
  let ip := cs.takeWhile isdigit
  let r1 := cs.dropWhile isdigit
  let frac : List Char × List Char × Nat :=
    match r1 with
    | '.' :: t => (t.takeWhile isdigit, t.dropWhile isdigit, 1)
    | _ => ([], r1, 0)
  if ip = [] ∧ frac.1 = [] then none
  else
    let mant := decimalValue (ip ++ frac.1)
    let len := ip.length + frac.2.2 + frac.1.length
    let ex : Int × Nat :=
      match frac.2.1 with
      | c :: t => if c == 'e' || c == 'E' then (scanExponent t).getD (0, 0) else (0, 0)
      | [] => (0, 0)
    let v := scalePow 10 mant 1 (ex.1 - (frac.1.length : Int))
    some ⟨v.1, v.2, len + ex.2⟩

/-- A hexadecimal floating constant of `strtod`, after its `0x` prefix: a
non-empty sequence of hexadecimal digits optionally containing a radix
character, then an optional binary exponent part. The length returned counts
the prefix. -/
def scanHex (cs : List Char) : Option Scanned :=
  let ip := cs.takeWhile isxdigit
  let r1 := cs.dropWhile isxdigit
  let frac : List Char × List Char × Nat :=
    match r1 with
    | '.' :: t => (t.takeWhile isxdigit, t.dropWhile isxdigit, 1)
    | _ => ([], r1, 0)
  if ip = [] ∧ frac.1 = [] then none
  else
    let mant := hexValue (ip ++ frac.1)
    let len := 2 + ip.length + frac.2.2 + frac.1.length
    let ex : Int × Nat :=
      match frac.2.1 with
      | c :: t => if c == 'p' || c == 'P' then (scanExponent t).getD (0, 0) else (0, 0)
      | [] => (0, 0)
    let v := scalePow 2 mant 1 (ex.1 - 4 * (frac.1.length : Int))
    some ⟨v.1, v.2, len + ex.2⟩

/-- A hexadecimal floating constant with its `0x` or `0X` prefix. -/
def scanHexPrefixed (cs : List Char) : Option Scanned :=
  match cs with
  | '0' :: x :: t => if x == 'x' || x == 'X' then scanHex t else none
  | _ => none

/-- The magnitude of a finite constant: hexadecimal when the prefix and at least
one hexadecimal digit are there, decimal otherwise (so `0x` alone reads as `0`). -/
def scanMagnitude (cs : List Char) : Option Scanned :=
  if (scanHexPrefixed cs).isSome then scanHexPrefixed cs else scanDecimal cs

/-- The characters of `cs` start with `word`, ignoring case (`word` lower-case). -/
def startsWithNoCase (word cs : List Char) : Bool :=
  word.isPrefixOf (cs.map tolower)

/-- The optional `(n-char-sequence)` after `nan`: its length, or `0` if absent. -/
def scanNanPayload (cs : List Char) : Nat :=
  match cs with
  | '(' :: t =>
    let body := t.takeWhile (fun c => isalnum c || c == '_')
    match t.dropWhile (fun c => isalnum c || c == '_') with
    | ')' :: _ => body.length + 2
    | _ => 0
  | _ => 0

/-- The library call `std::stod(str, &pos)`: skips leading white space, reads an
optional sign and the longest prefix that is `inf`/`infinity`, `nan` with an
optional payload, a hexadecimal or a decimal floating constant, and returns
the value, correctly rounded, with the number of characters processed.
`none` stands for a thrown `std::invalid_argument` (no conversion) or
`std::out_of_range` (`ERANGE`: overflow, or underflow, that is, a non-zero
constant whose exact value lies below the least normal number `2^-1022` and is
not representable exactly). -/
def stod (str : String) : Option (Double × Nat) :=
  let ws := (str.data.takeWhile isspace).length
  let signed := scanSign (str.data.dropWhile isspace)
  let neg := signed.1
  let cs := signed.2.1
  let pre := ws + signed.2.2
  if startsWithNoCase ['i', 'n', 'f', 'i', 'n', 'i', 't', 'y'] cs then
    some (Double.inf neg, pre + 8)
  else if startsWithNoCase ['i', 'n', 'f'] cs then
    some (Double.inf neg, pre + 3)
  else if startsWithNoCase ['n', 'a', 'n'] cs then
    some (Double.nan, pre + 3 + scanNanPayload (cs.drop 3))
  else
    match scanMagnitude cs with
    | none => none
    | some sc =>
      let r := Double.roundInfo neg sc.num sc.den
      if r.overflow || (r.tiny && r.inexact) then none
      else some (r.value, pre + sc.len)

/-! ## Operator table -/

/-- The method `ExpressionEvaluator::isNumber`. -/
def isNumber (token : String) : Bool :=
  if token.isEmpty then false
  else
    match stod token with
    | some (_, pos) => pos == token.length
    | none => false

/-- The method `ExpressionEvaluator::getPrecedence`. -/
def getPrecedence (op : String) : Int :=
  if op == "u-" || op == "~" || op == "not" then 8
  else if op == "^" then 7
  else if op == "*" || op == "/" || op == "%" then 6
  else if op == "+" || op == "-" then 5
  else if op == "<<" || op == ">>" then 4
  else if op == "<" || op == ">" || op == "<=" || op == ">=" then 3
  else if op == "==" || op == "!=" then 2
  else if op == "&" || op == "xor" || op == "|" || op == "&&" || op == "||" ||
      op == "and" || op == "or" then 1
  else 0

/-- The static list inside `ExpressionEvaluator::isOperator`. -/
def operators : List String :=
  ["+", "-", "*", "/", "%", "^",
   "==", "!=", "<", ">", "<=", ">=",
   "&&", "||", "&", "|", "xor", "<<", ">>", "~",
   "u-", "not", "and", "or"]

/-- The method `ExpressionEvaluator::isOperator`. -/
def isOperator (token : String) : Bool := operators.contains token

/-- The method `ExpressionEvaluator::isUnaryOperator`. -/
def isUnaryOperator (token : String) : Bool := ["u-", "~", "not"].contains token

/-- The method `ExpressionEvaluator::isRightAssociative`. -/
def isRightAssociative (op : String) : Bool := ["^", "u-", "~", "not"].contains op

/-! ## Errors, nodes and trees -/

/-- Equality of results is decidable when it is for errors and values. -/
instance instDecidableEqExcept {ε α : Type} [DecidableEq ε] [DecidableEq α] :
    DecidableEq (Except ε α) := fun x y =>
  match x, y with
  | Except.ok a, Except.ok b =>
    if h : a = b then isTrue (by rw [h]) else isFalse (fun h1 => h (Except.ok.inj h1))
  | Except.error a, Except.error b =>
    if h : a = b then isTrue (by rw [h]) else isFalse (fun h1 => h (Except.error.inj h1))
  | Except.ok _, Except.error _ => isFalse (fun h => Except.noConfusion h)
  | Except.error _, Except.ok _ => isFalse (fun h => Except.noConfusion h)

/-- How a call can fail: a thrown `ExpressionError` carrying its message. -/
inductive Fault where
  | ExpressionError (what : String) : Fault
deriving DecidableEq, Repr

/-- The enumeration `Node::NodeType`. -/
inductive NodeType where
  | OPERAND
  | OPERATOR
  | UNARY_OP
deriving DecidableEq, Repr

/-- A `NodePtr` (`std::shared_ptr<Node>`): `nullptr`, or a `Node` with its five
fields `type`, `value`, `op`, `left`, `right`. -/
inductive NodePtr where
  | null : NodePtr
  | node (type : NodeType) (value : Double) (op : String) (left right : NodePtr) : NodePtr
deriving DecidableEq, Repr

/-- The value `0` that the operator constructors store in `value`. -/
def Double.zero : Double := Double.fin false 0 0

/-- The constructor `Node::Node(double value)`, behind `std::make_shared`. -/
def Node.operand (value : Double) : NodePtr :=
  NodePtr.node NodeType.OPERAND value "" NodePtr.null NodePtr.null

/-- The constructor `Node::Node(const std::string& op, NodePtr left, NodePtr right)`. -/
def Node.binaryOp (op : String) (left right : NodePtr) : NodePtr :=
  NodePtr.node NodeType.OPERATOR Double.zero op left right

/-- The constructor `Node::Node(const std::string& op, NodePtr right)`. -/
def Node.unaryOp (op : String) (right : NodePtr) : NodePtr :=
  NodePtr.node NodeType.UNARY_OP Double.zero op NodePtr.null right

/-! ## `ExpressionEvaluator::tokenize` -/

/-- A word character of the regular expression escape `\b`. -/
def isWordChar (c : Char) : Bool := isalnum c || c == '_'

/-- The call `std::regex_replace(expr, std::regex("\\b" + word + "\\b"), rep)`:
every occurrence of `word` that has no word character right before or right
after it is replaced, scanning left to right. `skip` counts characters of a
match still to be passed over and `prev` is the character before the current
position. -/
def regexReplaceWord (word rep : List Char) : Nat → Option Char → List Char → List Char
  | _, _, [] => []
  | skip + 1, _, c :: rest => regexReplaceWord word rep skip (some c) rest
  | 0, prev, c :: rest =>
    if word.isPrefixOf (c :: rest) && !(prev.any isWordChar) &&
        !(((c :: rest).drop word.length).head?.any isWordChar) then
      rep ++ regexReplaceWord word rep (word.length - 1) (some c) rest
    else c :: regexReplaceWord word rep 0 (some c) rest

/-- The keyword replacement at the head of `tokenize`; the `std::map` is
traversed in key order, `and` before `or`. -/
def replaceKeywords (expr : List Char) : List Char :=
  regexReplaceWord ['o', 'r'] ['|', '|'] 0 none
    (regexReplaceWord ['a', 'n', 'd'] ['&', '&'] 0 none expr)

/-- The local list `multiCharOps` of `tokenize`. -/
def multiCharOps : List String := ["==", "!=", "<=", ">=", "&&", "||", "<<", ">>"]

/-- The characters accepted by the single-character operator branch. -/
def isSingleCharOp (c : Char) : Bool :=
  c == '+' || c == '-' || c == '*' || c == '/' || c == '%' || c == '^' ||
  c == '<' || c == '>' || c == '=' || c == '!' ||
  c == '&' || c == '|' || c == '~'

/-- The scanning loop of `tokenize`, on the characters from position `i` on;
`fuel` bounds the number of iterations. -/
def tokenizeLoop : Nat → List Char → List String → List String
  | _, [], tokens => tokens
  | 0, _ :: _, tokens => tokens
  | fuel + 1, c :: rest, tokens =>
    if isspace c then tokenizeLoop fuel rest tokens
    else if isdigit c || c == '.' then
      tokenizeLoop fuel ((c :: rest).dropWhile (fun x => isdigit x || x == '.'))
        (tokens ++ [String.mk ((c :: rest).takeWhile (fun x => isdigit x || x == '.'))])
    else if c == '(' || c == ')' then
      tokenizeLoop fuel rest (tokens ++ [String.singleton c])
    else
      match multiCharOps.find? (fun op => op.data.isPrefixOf (c :: rest)) with
      | some op => tokenizeLoop fuel ((c :: rest).drop op.length) (tokens ++ [op])
      | none =>
        if isSingleCharOp c then
          if (c == '-' || c == '+' || c == '~' || c == '!') &&
              (tokens.isEmpty || tokens.getLast? == some "(" ||
                (tokens.getLast?.any isOperator)) then
            if c == '+' then tokenizeLoop fuel rest tokens
            else if c == '-' then tokenizeLoop fuel rest (tokens ++ ["u-"])
            else if c == '~' then tokenizeLoop fuel rest (tokens ++ ["~"])
            else if c == '!' then tokenizeLoop fuel rest (tokens ++ ["not"])
            else tokenizeLoop fuel rest tokens
          else tokenizeLoop fuel rest (tokens ++ [String.singleton c])
        else if isalpha c then
          let token := String.mk ((c :: rest).takeWhile (fun x => isalnum x || x == '_'))
          tokenizeLoop fuel ((c :: rest).dropWhile (fun x => isalnum x || x == '_'))
            (tokens ++ [if token == "not" then "not" else token])
        else tokenizeLoop fuel rest tokens

/-- The method `ExpressionEvaluator::tokenize`. Every iteration of the loop
consumes at least one character, so the length of the text is enough fuel. -/
def tokenize (expression : String) : List String :=
  let expr := replaceKeywords expression.data
  tokenizeLoop expr.length expr []

/-! ## `ExpressionEvaluator::infixToPostfix` -/

/-- The message of the parenthesis error. -/
def mismatched : Fault := Fault.ExpressionError "Error: Mismatched parentheses"

/-- The loop run at a `)`: pops operators to the output down to the nearest `(`.
Returns the remaining stack and the output. -/
def popToParen : List String → List String → List String × List String
  | [], output => ([], output)
  | top :: ops, output =>
    if top != "(" then popToParen ops (output ++ [top]) else (top :: ops, output)

/-- The loop run at a binary operator `token`: pops the operators that bind at
least as tightly. Returns the remaining stack and the output. -/
def popOperators (token : String) : List String → List String → List String × List String
  | [], output => ([], output)
  | top :: ops, output =>
    if top != "(" &&
        ((isRightAssociative token && getPrecedence token < getPrecedence top) ||
         (!isRightAssociative token && getPrecedence token ≤ getPrecedence top)) then
      popOperators token ops (output ++ [top])
    else (top :: ops, output)

/-- The final loop: moves the remaining operators to the output, failing on `(`. -/
def drainOperators : List String → List String → Except Fault (List String)
  | [], output => Except.ok output
  | top :: ops, output =>
    if top == "(" then Except.error mismatched
    else drainOperators ops (output ++ [top])

/-- The main loop of `infixToPostfix` over the remaining tokens, with the
operator stack (top first) and the output so far. -/
def infixLoop : List String → List String → List String → Except Fault (List String)
  | [], operators, output => drainOperators operators output
  | token :: rest, operators, output =>
    if isNumber token then infixLoop rest operators (output ++ [token])
    else if token == "(" then infixLoop rest (token :: operators) output
    else if token == ")" then
      match popToParen operators output with
      | (top :: ops, out) =>
        if top == "(" then infixLoop rest ops out else Except.error mismatched
      | ([], _) => Except.error mismatched
    else if isOperator token then
      if token == "u-" || token == "~" || token == "not" then
        infixLoop rest (token :: operators) output
      else
        let r := popOperators token operators output
        infixLoop rest (token :: r.1) r.2
    else infixLoop rest operators (output ++ [token])

/-- The method `ExpressionEvaluator::infixToPostfix` (shunting yard). -/
def infixToPostfix (tokens : List String) : Except Fault (List String) :=
  infixLoop tokens [] []

/-! ## `ExpressionEvaluator::buildTreeFromPostfix` -/

/-- The value `std::stod(token)` that `buildTreeFromPostfix` stores in an operand
node. The call is made only after `isNumber token`, which guarantees that
`stod` does not throw; the other case is never reached. -/
def literalValue (token : String) : Double :=
  match stod token with
  | some (value, _) => value
  | none => Double.zero

/-- The body of the loop of `buildTreeFromPostfix`: the effect of one token on the
node stack (top first). A token that is neither a number nor an operator falls
through every branch and leaves the stack unchanged. -/
def buildStep (token : String) (nodeStack : List NodePtr) : Except Fault (List NodePtr) :=
  if isNumber token then
    Except.ok (Node.operand (literalValue token) :: nodeStack)
  else if isUnaryOperator token then
    match nodeStack with
    | [] => Except.error
        (Fault.ExpressionError "Error: Invalid expression syntax for unary operator")
    | right :: below =>
      let opStr := if token == "u-" then "-" else token
      Except.ok (Node.unaryOp opStr right :: below)
  else if isOperator token then
    match nodeStack with
    | right :: left :: below => Except.ok (Node.binaryOp token left right :: below)
    | _ => Except.error
        (Fault.ExpressionError "Error: Invalid expression syntax for binary operator")
  else Except.ok nodeStack

/-- The loop of `buildTreeFromPostfix` over the remaining tokens; a thrown error
ends it. -/
def buildLoop : List String → List NodePtr → Except Fault (List NodePtr)
  | [], nodeStack => Except.ok nodeStack
  | token :: rest, nodeStack =>
    match buildStep token nodeStack with
    | Except.error e => Except.error e
    | Except.ok nodeStack1 => buildLoop rest nodeStack1

/-- The method `ExpressionEvaluator::buildTreeFromPostfix`. -/
def buildTreeFromPostfix (tokens : List String) : Except Fault NodePtr :=
  match buildLoop tokens [] with
  | Except.error e => Except.error e
  | Except.ok [root] => Except.ok root
  | Except.ok _ => Except.error (Fault.ExpressionError "Error: Invalid expression")

/-! ## The operator maps and `ExpressionEvaluator::evaluateNode` -/

/-- Reduce an integer to the 32-bit two's-complement range of `int`. -/
def wrapInt (i : Int) : Int := (i + 2147483648) % 4294967296 - 2147483648

/-- Apply an `int` operation to the truncations of two doubles and convert the
result back: `static_cast<double>(static_cast<int>(a) op static_cast<int>(b))`.
Nothing is thrown. -/
def intBinary (f : Int → Int → Int) (a b : Double) : Except Fault Double :=
  Except.ok (Double.ofInt (f a.castInt b.castInt))

/-- The shift `x << y` on `int`: `x * 2^y` reduced to 32 bits, for a count in
`0..31`. The shift raises nothing; for a count outside `0..31`, where C++ does not
fix the result, the count is taken modulo 32, as the shift instruction does. -/
def shiftLeftInt (x y : Int) : Int := wrapInt (x * 2 ^ (y % 32).toNat)

/-- The shift `x >> y` on `int`: the arithmetic shift `floor (x / 2^y)`, for a count
in `0..31`; a count outside `0..31` is taken modulo 32, as for `shiftLeftInt`. -/
def shiftRightInt (x y : Int) : Int := Int.fdiv x (2 ^ (y % 32).toNat)

/-- The value `1.0` or `0.0` of a condition. -/
def boolValue (b : Bool) : Double := if b then Double.ofNat 1 else Double.ofNat 0

/-- The class `ExpressionEvaluator`: its two `std::map` members, as association
lists searched by key. -/
structure ExpressionEvaluator where
  binaryOps : List (String × (Double → Double → Except Fault Double))
  unaryOps : List (String × (Double → Except Fault Double))

/-- The constructor `ExpressionEvaluator::ExpressionEvaluator()`. The library
function `std::pow` is the parameter `pow`. -/
def ExpressionEvaluator.new (pow : Double → Double → Double) : ExpressionEvaluator where
  binaryOps :=
    [("+", fun a b => Except.ok (Double.add a b)),
     ("-", fun a b => Except.ok (Double.sub a b)),
     ("*", fun a b => Except.ok (Double.mul a b)),
     ("/", fun a b =>
        if Double.isZero b then Except.error (Fault.ExpressionError "Error: Division by zero")
        else Except.ok (Double.div a b)),
     ("%", fun a b =>
        if Double.isZero b then Except.error (Fault.ExpressionError "Error: Modulo by zero")
        else Except.ok (Double.fmod a b)),
     ("^", fun a b => Except.ok (pow a b)),
     ("==", fun a b => Except.ok (boolValue (Double.eq a b))),
     ("!=", fun a b => Except.ok (boolValue (!Double.eq a b))),
     ("<", fun a b => Except.ok (boolValue (Double.lt a b))),
     (">", fun a b => Except.ok (boolValue (Double.lt b a))),
     ("<=", fun a b => Except.ok (boolValue (Double.le a b))),
     (">=", fun a b => Except.ok (boolValue (Double.le b a))),
     ("&&", fun a b => Except.ok (boolValue (!Double.isZero a && !Double.isZero b))),
     ("||", fun a b => Except.ok (boolValue (!Double.isZero a || !Double.isZero b))),
     ("&", intBinary Int.land),
     ("|", intBinary Int.lor),
     ("xor", intBinary Int.xor),
     ("<<", intBinary shiftLeftInt),
     (">>", intBinary shiftRightInt),
     ("and", fun a b => Except.ok (boolValue (!Double.isZero a && !Double.isZero b))),
     ("or", fun a b => Except.ok (boolValue (!Double.isZero a || !Double.isZero b)))]
  unaryOps :=
    [("-", fun a => Except.ok (Double.neg a)),
     ("~", fun a => Except.ok (Double.ofInt (-a.castInt - 1))),
     ("not", fun a => Except.ok (boolValue (Double.isZero a)))]

/-- The method `ExpressionEvaluator::evaluateNode`. -/
def ExpressionEvaluator.evaluateNode (ev : ExpressionEvaluator) :
    NodePtr → Except Fault Double
  | NodePtr.null =>
    Except.error (Fault.ExpressionError "Error: Null node encountered during evaluation")
  | NodePtr.node type value op left right =>
    if type = NodeType.OPERAND then Except.ok value
    else if type = NodeType.UNARY_OP then
      match ev.evaluateNode right with
      | Except.error e => Except.error e
      | Except.ok rightValue =>
        match ev.unaryOps.lookup op with
        | some f => f rightValue
        | none =>
          Except.error (Fault.ExpressionError ("Error: Unknown unary operator '" ++ op ++ "'"))
    else
      match ev.evaluateNode left with
      | Except.error e => Except.error e
      | Except.ok leftValue =>
        match ev.evaluateNode right with
        | Except.error e => Except.error e
        | Except.ok rightValue =>
          match ev.binaryOps.lookup op with
          | some f => f leftValue rightValue
          | none =>
            Except.error
              (Fault.ExpressionError ("Error: Unknown binary operator '" ++ op ++ "'"))

/-- The class `ExpressionTree`: a root pointer. -/
structure ExpressionTree where
  root : NodePtr
deriving DecidableEq, Repr

/-- The method `ExpressionEvaluator::buildExpressionTree`. -/
def buildExpressionTree (expression : String) : Except Fault ExpressionTree :=
  match infixToPostfix (tokenize expression) with
  | Except.error e => Except.error e
  | Except.ok pf =>
    match buildTreeFromPostfix pf with
    | Except.error e => Except.error e
    | Except.ok root => Except.ok ⟨root⟩

/-- The method `ExpressionEvaluator::evaluate(const ExpressionTree&)`. -/
def ExpressionEvaluator.evaluateTree (ev : ExpressionEvaluator) (tree : ExpressionTree) :
    Except Fault Double :=
  ev.evaluateNode tree.root

/-- The method `ExpressionEvaluator::evaluate(const std::string&)`. -/
def ExpressionEvaluator.evaluate (ev : ExpressionEvaluator) (expression : String) :
    Except Fault Double :=
  match buildExpressionTree expression with
  | Except.error e => Except.error e
  | Except.ok tree => ev.evaluateTree tree

/-- A stand-in for `std::pow` on the arguments used in examples: the exact power
for a non-negative integral exponent of a finite base, rounded to binary64;
NaN elsewhere. -/
def powIntegral : Double → Double → Double
  | Double.fin s m e, Double.fin false k f =>
    if 0 ≤ f then
      let n := k * 2 ^ f.toNat
      Double.roundDyadic (s && n % 2 = 1) (m ^ n) (e * n)
    else Double.nan
  | _, _ => Double.nan

/-! ## Token classes used in the statements -/

/-- A binary operator token: an operator symbol that is not unary, which is how
`buildTreeFromPostfix` tells the two arities apart. -/
def isBinaryOperator (token : String) : Bool :=
  isOperator token && !isUnaryOperator token

/-- The parentheses of a token sequence are unbalanced: some prefix holds more `)`
than `(` tokens, or the whole sequence holds more `(` than `)` tokens. -/
def unbalanced (tokens : List String) : Prop :=
  (∃ k, (tokens.take k).count "(" < (tokens.take k).count ")") ∨
    tokens.count ")" < tokens.count "("

/-- A left-to-right check of the parentheses with a counter of the `(` still open:
`true` when no `)` arrives at depth zero and the depth ends at zero. -/
def parenScan : Nat → List String → Bool
  | depth, [] => depth == 0
  | depth, token :: rest =>
    if token == "(" then parenScan (depth + 1) rest
    else if token == ")" then (0 < depth) && parenScan (depth - 1) rest
    else parenScan depth rest

/-- The message thrown when a unary operator finds no operand. -/
def unarySyntax : Fault :=
  Fault.ExpressionError "Error: Invalid expression syntax for unary operator"

/-- The message thrown when a binary operator finds fewer than two operands. -/
def binarySyntax : Fault :=
  Fault.ExpressionError "Error: Invalid expression syntax for binary operator"

/-- The message thrown when the final node count is not one. -/
def invalidExpression : Fault := Fault.ExpressionError "Error: Invalid expression"

/-- The node counter of a postfix sequence of numbers and operators, scanned left
to right: a number adds one; a unary operator needs at least one node; any other
token, a binary operator, needs at least two and removes one. An operator that
lacks operands stops the scan with its syntax error. -/
def countScan : List String → Nat → Except Fault Nat
  | [], count => Except.ok count
  | token :: rest, count =>
    if isNumber token then countScan rest (count + 1)
    else if isUnaryOperator token then
      if 1 ≤ count then countScan rest count else Except.error unarySyntax
    else
      if 2 ≤ count then countScan rest (count - 1) else Except.error binarySyntax

/-- The text of a numeric literal: the digits `ip`, followed, when `frac` is
`some fp`, by a decimal point and the digits `fp`. -/
def decimalLiteral (ip : List Char) (frac : Option (List Char)) : List Char :=
  ip ++ (match frac with
    | some fp => '.' :: fp
    | none => [])

/-- The digits after the decimal point of a literal, if any. -/
def fractionDigits (frac : Option (List Char)) : List Char := frac.getD []

/-- The rounding of the exact value of the literal `ip.fp`, namely
`decimalValue (ip ++ fp) / 10 ^ fp.length`, with its range flags. -/
def literalRounding (ip : List Char) (frac : Option (List Char)) : Double.Rounded :=
  Double.roundInfo false (decimalValue (ip ++ fractionDigits frac))
    (10 ^ (fractionDigits frac).length)

/-- A unary position of the tokenizer: no token has been emitted yet, or the last
token emitted is `(` or an operator symbol. -/
def unaryPosition (tokens : List String) : Prop :=
  tokens = [] ∨ ∃ t, tokens.getLast? = some t ∧ (t = "(" ∨ isOperator t = true)

/-- The converter with unary operators handled by the generic rule: the loop of
`infixToPostfix` in which every operator token, unary ones included, first pops
the stack by the precedence and associativity comparison and is then pushed. -/
def infixLoopGeneric : List String → List String → List String → Except Fault (List String)
  | [], operators, output => drainOperators operators output
  | token :: rest, operators, output =>
    if isNumber token then infixLoopGeneric rest operators (output ++ [token])
    else if token == "(" then infixLoopGeneric rest (token :: operators) output
    else if token == ")" then
      match popToParen operators output with
      | (top :: ops, out) =>
        if top == "(" then infixLoopGeneric rest ops out else Except.error mismatched
      | ([], _) => Except.error mismatched
    else if isOperator token then
      let r := popOperators token operators output
      infixLoopGeneric rest (token :: r.1) r.2
    else infixLoopGeneric rest operators (output ++ [token])

/-- The variant of `infixToPostfix` built on `infixLoopGeneric`. -/
def infixToPostfixGeneric (tokens : List String) : Except Fault (List String) :=
  infixLoopGeneric tokens [] []

/-- A well-formed tree: an operand node has no children, a unary node has no left
child and a well-formed right child, a binary node has two well-formed children;
a null pointer is not a tree. -/
def WellFormed : NodePtr → Prop
  | NodePtr.null => False
  | NodePtr.node type _ _ left right =>
    match type with
    | NodeType.OPERAND => left = NodePtr.null ∧ right = NodePtr.null
    | NodeType.UNARY_OP => left = NodePtr.null ∧ right ≠ NodePtr.null ∧ WellFormed right
    | NodeType.OPERATOR =>
      left ≠ NodePtr.null ∧ right ≠ NodePtr.null ∧ WellFormed left ∧ WellFormed right

/-- The shape of an expression tree: a number, a unary operator on a subtree, or
a binary operator on two subtrees. -/
inductive Expr where
  | num (value : Double) : Expr
  | unary (op : String) (arg : Expr) : Expr
  | binary (op : String) (left right : Expr) : Expr
deriving DecidableEq, Repr

/-- The node structure of an expression, made with the three `Node` constructors. -/
def Expr.toNode : Expr → NodePtr
  | Expr.num value => Node.operand value
  | Expr.unary op arg => Node.unaryOp op arg.toNode
  | Expr.binary op left right => Node.binaryOp op left.toNode right.toNode

/-- The operand values of an expression, left to right. -/
def Expr.leaves : Expr → List Double
  | Expr.num value => [value]
  | Expr.unary _ arg => arg.leaves
  | Expr.binary _ left right => left.leaves ++ right.leaves

/-- The operators of an expression are known: unary ones among `-`, `~`, `not`,
binary ones among the binary symbols of the table. -/
def Expr.knownOps : Expr → Prop
  | Expr.num _ => True
  | Expr.unary op arg => (op = "-" ∨ op = "~" ∨ op = "not") ∧ arg.knownOps
  | Expr.binary op left right => isBinaryOperator op = true ∧ left.knownOps ∧ right.knownOps

/-- The post-order token list of an expression: left subtree, right subtree, then
the node; unary minus is written `u-` and an operand `v` is written `render v`. -/
def Expr.postOrderTokens (render : Double → String) : Expr → List String
  | Expr.num value => [render value]
  | Expr.unary op arg => arg.postOrderTokens render ++ [if op == "-" then "u-" else op]
  | Expr.binary op left right =>
    left.postOrderTokens render ++ right.postOrderTokens render ++ [op]

/-! ## Stream output of a `double` and the traversals of `ExpressionTree` -/

/-- The character of a decimal digit `0..9`. -/
def digitChar (d : Nat) : Char := Char.ofNat (48 + d)

/-- The decimal digits of `n`, most significant first (`fuel` bounds their number). -/
def decimalDigits : Nat → Nat → List Char
  | 0, _ => []
  | fuel + 1, n =>
    if n < 10 then [digitChar n] else decimalDigits fuel (n / 10) ++ [digitChar (n % 10)]

/-- The decimal numeral of a natural number. -/
def natDigits (n : Nat) : List Char := decimalDigits (n + 1) n

/-- The last `k` decimal digits of `v`, zero-padded to exactly `k` characters. -/
def fixedDigits : Nat → Nat → List Char
  | 0, _ => []
  | k + 1, v => fixedDigits k (v / 10) ++ [digitChar (v % 10)]

/-- Remove the zeros at the end of a digit string. -/
def stripTrailingZeros (ds : List Char) : List Char :=
  (ds.reverse.dropWhile (fun c => c == '0')).reverse

/-- `floor (log10 q)` for a natural number `q ≥ 1`, by repeated division. -/
def log10Fuel : Nat → Nat → Nat
  | 0, _ => 0
  | fuel + 1, q => if q < 10 then 0 else log10Fuel fuel (q / 10) + 1

/-- The least `k ≥ start` with `d ≤ n * 10 ^ k`, searched for at most `fuel` steps. -/
def scaleUp : Nat → Nat → Nat → Nat → Nat
  | 0, _, _, k => k
  | fuel + 1, n, d, k => if d ≤ n * 10 ^ k then k else scaleUp fuel n d (k + 1)

/-- `floor (log10 (n / d))` for positive `n` and `d`. -/
def floorLog10 (n d : Nat) : Int :=
  if d ≤ n then (log10Fuel (n / d) (n / d) : Int) else -(scaleUp d n d 1 : Int)

/-- Round `num / den` to the nearest integer, ties to even. -/
def roundHalfEven (num den : Nat) : Nat :=
  let q := num / den
  let r := num % den
  if den < 2 * r ∨ (2 * r = den ∧ q % 2 = 1) then q + 1 else q

/-- The text of the positive value `n / d` under `printf`'s `%g` with precision 6,
which is what `operator<<` does for a `double` on a default stream: six significant
digits, correctly rounded; fixed notation when the decimal exponent `X` satisfies
`-4 ≤ X < 6`, otherwise `d.ddddde±XX`; zeros at the end of the fraction, and a
decimal point left bare, are removed. -/
def formatMagnitude (n d : Nat) : List Char :=
  let x0 := floorLog10 n d
  let scaled : Nat × Nat :=
    if x0 ≤ 5 then (n * 10 ^ (5 - x0).toNat, d) else (n, d * 10 ^ (x0 - 5).toNat)
  let d0 := roundHalfEven scaled.1 scaled.2
  let x : Int := if d0 = 1000000 then x0 + 1 else x0
  let digits : Nat := if d0 = 1000000 then 100000 else d0
  if 0 ≤ x ∧ x < 6 then
    let k := (5 - x).toNat
    let frac := stripTrailingZeros (fixedDigits k (digits % 10 ^ k))
    natDigits (digits / 10 ^ k) ++ (if frac = [] then [] else '.' :: frac)
  else if -4 ≤ x ∧ x < 0 then
    '0' :: '.' :: (List.replicate ((-x).toNat - 1) '0' ++
      stripTrailingZeros (fixedDigits 6 digits))
  else
    let frac := stripTrailingZeros (fixedDigits 5 (digits % 100000))
    let ex := natDigits x.natAbs
    natDigits (digits / 100000) ++ (if frac = [] then [] else '.' :: frac) ++
      ['e', if x < 0 then '-' else '+'] ++ (if ex.length < 2 then '0' :: ex else ex)

/-- The text that `ss << value` writes for a `double` on a fresh `std::ostringstream`. -/
def formatDouble : Double → List Char
  | Double.nan => ['n', 'a', 'n']
  | Double.inf neg => (if neg then ['-'] else []) ++ ['i', 'n', 'f']
  | Double.fin neg m e =>
    (if neg then ['-'] else []) ++
      (if m = 0 then ['0']
       else if 0 ≤ e then formatMagnitude (m * 2 ^ e.toNat) 1
       else formatMagnitude m (2 ^ (-e).toNat))

/-- The method `ExpressionTree::inOrderHelper`; the text accumulated in `result` is
passed through. Only binary operator nodes (`isOperator()`) are parenthesised. -/
def inOrderHelper : NodePtr → String → String
  | NodePtr.null, result => result
  | NodePtr.node type value op left right, result =>
    let needParentheses :=
      decide (type = NodeType.OPERATOR) && (left != NodePtr.null || right != NodePtr.null)
    let r1 := if needParentheses then result ++ "(" else result
    let r2 := if left != NodePtr.null then inOrderHelper left r1 else r1
    let r3 :=
      if type = NodeType.OPERAND then r2 ++ String.mk (formatDouble value)
      else r2 ++ (" " ++ op ++ " ")
    let r4 := if right != NodePtr.null then inOrderHelper right r3 else r3
    if needParentheses then r4 ++ ")" else r4

/-- The method `ExpressionTree::inOrderTraversal`. -/
def ExpressionTree.inOrderTraversal (tree : ExpressionTree) : String :=
  inOrderHelper tree.root ""

/-! ## The in-order text of an expression -/

/-- A value that the stream prints in plain decimal notation and that `std::stod`
reads back unchanged: the text consists of digits and decimal points only, is a
number for `isNumber`, and converts to the value itself. -/
def printsExactly (v : Double) : Prop :=
  (∀ c ∈ formatDouble v, isdigit c = true ∨ c = '.') ∧
    isNumber (String.mk (formatDouble v)) = true ∧
    literalValue (String.mk (formatDouble v)) = v

instance printsExactly.decidable (v : Double) : Decidable (printsExactly v) := by
  unfold printsExactly
  infer_instance

/-- The operators of an expression are known and symbolic: as in `knownOps`, and
no binary operator is one of the words `and`, `or`. -/
def Expr.symbolicOps : Expr → Prop
  | Expr.num _ => True
  | Expr.unary op arg => (op = "-" ∨ op = "~" ∨ op = "not") ∧ arg.symbolicOps
  | Expr.binary op left right =>
    (isBinaryOperator op = true ∧ op ≠ "and" ∧ op ≠ "or") ∧
      left.symbolicOps ∧ right.symbolicOps

/-- The in-order text of an expression, as `inOrderHelper` writes it. -/
def Expr.inOrderText : Expr → List Char
  | Expr.num value => formatDouble value
  | Expr.unary op arg => ' ' :: (op.data ++ ' ' :: arg.inOrderText)
  | Expr.binary op left right =>
    '(' :: (left.inOrderText ++ ' ' :: (op.data ++ ' ' :: (right.inOrderText ++ [')'])))

/-- The token of a unary operator: `u-` for minus, the operator itself otherwise. -/
def unaryToken (op : String) : String := if op == "-" then "u-" else op

/-- The infix token sequence of the in-order text of an expression. -/
def Expr.inOrderTokens : Expr → List String
  | Expr.num value => [String.mk (formatDouble value)]
  | Expr.unary op arg => unaryToken op :: arg.inOrderTokens
  | Expr.binary op left right =>
    "(" :: (left.inOrderTokens ++ op :: (right.inOrderTokens ++ [")"]))

/-- The number of iterations the scanning loop spends on the in-order text. -/
def Expr.scanCost : Expr → Nat
  | Expr.num _ => 1
  | Expr.unary _ arg => 3 + arg.scanCost
  | Expr.binary _ left right => 1 + left.scanCost + 3 + right.scanCost + 1

/-- The unary operators left pending on the operator stack (top first) once the
converter has read the tokens of an expression. -/
def Expr.pendingUnary : Expr → List String
  | Expr.num _ => []
  | Expr.unary op arg => arg.pendingUnary ++ [unaryToken op]
  | Expr.binary _ _ _ => []

/-- The output the converter has produced once it has read the tokens of an
expression; the pending unary operators follow it later. -/
def Expr.convertedCore : Expr → List String
  | Expr.num value => [String.mk (formatDouble value)]
  | Expr.unary _ arg => arg.convertedCore
  | Expr.binary op left right =>
    left.convertedCore ++ left.pendingUnary ++ (right.convertedCore ++ right.pendingUnary) ++ [op]

/-- No `o` in the text can start a match of the pattern `\bor\b`: each `o` has a
word character right before it (`prev` is the character before the text). -/
def orSafe : Option Char → List Char → Bool
  | _, [] => true
  | prev, c :: rest => (c != 'o' || prev.any isWordChar) && orSafe (some c) rest

/-- The values of the operand nodes of a tree, left to right. -/
def NodePtr.operands : NodePtr → List Double
  | NodePtr.null => []
  | NodePtr.node type value _ left right =>
    left.operands ++ (if type = NodeType.OPERAND then [value] else []) ++ right.operands

/-- The symbol that the keyword replacement of `tokenize` leaves in place of an
operator written as a word: `&&` for `and`, `||` for `or`. -/
def symbolOf (op : String) : String :=
  if op == "and" then "&&" else if op == "or" then "||" else op

/-- Rename the binary operators of an expression. -/
def Expr.mapBinary (f : String → String) : Expr → Expr
  | Expr.num value => Expr.num value
  | Expr.unary op arg => Expr.unary op (arg.mapBinary f)
  | Expr.binary op left right => Expr.binary (f op) (left.mapBinary f) (right.mapBinary f)

/-- The first keyword replacement on an operator: `&&` for `and`. -/
def andSymbol (op : String) : String := if op == "and" then "&&" else op

/-! ## One iteration of the scanning loop -/

/-- The body of the scanning loop of `tokenize` at the character `c` followed by
`rest`: the text still to scan and the tokens after this iteration. -/
def tokenizeStep (c : Char) (rest : List Char) (tokens : List String) :
    List Char × List String :=
  if isspace c then (rest, tokens)
  else if isdigit c || c == '.' then
    ((c :: rest).dropWhile (fun x => isdigit x || x == '.'),
      tokens ++ [String.mk ((c :: rest).takeWhile (fun x => isdigit x || x == '.'))])
  else if c == '(' || c == ')' then (rest, tokens ++ [String.singleton c])
  else
    match multiCharOps.find? (fun op => op.data.isPrefixOf (c :: rest)) with
    | some op => ((c :: rest).drop op.length, tokens ++ [op])
    | none =>
      if isSingleCharOp c then
        if (c == '-' || c == '+' || c == '~' || c == '!') &&
            (tokens.isEmpty || tokens.getLast? == some "(" ||
              (tokens.getLast?.any isOperator)) then
          if c == '+' then (rest, tokens)
          else if c == '-' then (rest, tokens ++ ["u-"])
          else if c == '~' then (rest, tokens ++ ["~"])
          else if c == '!' then (rest, tokens ++ ["not"])
          else (rest, tokens)
        else (rest, tokens ++ [String.singleton c])
      else if isalpha c then
        let token := String.mk ((c :: rest).takeWhile (fun x => isalnum x || x == '_'))
        ((c :: rest).dropWhile (fun x => isalnum x || x == '_'),
          tokens ++ [if token == "not" then "not" else token])
      else (rest, tokens)

/-- The scanning loop of `tokenize` run for at most `bound` iterations: `none` when
text is left after the last of them, otherwise the tokens. -/
def tokenizeSteps : Nat → List Char → List String → Option (List String)
  | _, [], tokens => some tokens
  | 0, _ :: _, _ => none
  | bound + 1, c :: rest, tokens =>
    tokenizeSteps bound (tokenizeStep c rest tokens).1 (tokenizeStep c rest tokens).2

/-- A character of a numeric run: a decimal digit or the decimal point. -/
def isNumberChar (c : Char) : Bool := isdigit c || c == '.'

/-- A character that no branch of the scanning loop of `tokenize` handles: it is
not white space, a letter, a digit, `_`, `.`, a parenthesis or an operator character. -/
def isUnrecognised (c : Char) : Bool :=
  !(isspace c || isalpha c || isdigit c || c == '_' || c == '.' || c == '(' || c == ')' ||
    isSingleCharOp c)

/-- Replace an unrecognised character by a space. -/
def blankUnrecognised (c : Char) : Char := if isUnrecognised c then ' ' else c

/-- A parenthesis token. -/
def isParen (token : String) : Bool := token == "(" || token == ")"

/-! ## Facts about the operator table -/

theorem binary_cases {p : String} (h : isBinaryOperator p = true) :
    p ∈ ["+", "-", "*", "/", "%", "^", "==", "!=", "<", ">", "<=", ">=",
         "&&", "||", "&", "|", "xor", "<<", ">>", "and", "or"] := by
  simp only [isBinaryOperator, isOperator, isUnaryOperator, operators, Bool.and_eq_true,
    Bool.not_eq_true', List.contains_iff_exists_mem_beq] at h
  simp at h
  simp
  tauto

/-- What the converter's branch tests see at a binary operator token. -/
theorem binary_facts {p : String} (h : isBinaryOperator p = true) :
    isNumber p = false ∧ (p == "(") = false ∧ (p == ")") = false ∧ isOperator p = true ∧
      (p == "u-" || p == "~" || p == "not") = false := by
  have hc := binary_cases h
  simp only [List.mem_cons, List.mem_singleton, List.mem_nil_iff, or_false] at hc
  rcases hc with h | h | h | h | h | h | h | h | h | h | h | h | h | h | h | h | h | h |
    h | h | h <;> subst h <;> decide

theorem binary_prec {p : String} (h : isBinaryOperator p = true) :
    1 ≤ getPrecedence p ∧ getPrecedence p ≤ 7 ∧
      (isRightAssociative p = true ↔ p = "^") ∧ (getPrecedence p = 7 ↔ p = "^") := by
  have hc := binary_cases h
  simp only [List.mem_cons, List.mem_singleton, List.mem_nil_iff, or_false] at hc
  rcases hc with h | h | h | h | h | h | h | h | h | h | h | h | h | h | h | h | h | h |
    h | h | h <;> subst h <;> decide

theorem infixLoop_number {t : String} (h : isNumber t = true) (rest ops out : List String) :
    infixLoop (t :: rest) ops out = infixLoop rest ops (out ++ [t]) := by
  simp [infixLoop, h]

theorem infixLoop_binary {t : String} (h : isBinaryOperator t = true)
    (rest ops out : List String) :
    infixLoop (t :: rest) ops out =
      infixLoop rest (t :: (popOperators t ops out).1) (popOperators t ops out).2 := by
  obtain ⟨h1, h2, h3, h4, h5⟩ := binary_facts h
  rw [infixLoop]
  simp only [h1, h2, h3, h4, h5]
  simp

/-! ## Step equations of the converter -/

theorem infixLoop_nil (ops out : List String) :
    infixLoop [] ops out = drainOperators ops out := by
  rw [infixLoop]

theorem drainOperators_nil (out : List String) : drainOperators [] out = Except.ok out := rfl

theorem popOperators_nil (t : String) (out : List String) :
    popOperators t [] out = ([], out) := rfl

/-- One pending binary operator `p` below an incoming binary operator `q`: it is
popped exactly when `getPrecedence q ≤ getPrecedence p` and `q` is not `^`, or
`q` is `^` and `p` binds tighter (which no binary operator does). -/
theorem popOperators_single {p q : String} (hp : isBinaryOperator p = true)
    (hq : isBinaryOperator q = true) (out : List String) :
    popOperators q [p] out =
      if q ≠ "^" ∧ getPrecedence q ≤ getPrecedence p then ([], out ++ [p]) else ([p], out) := by
  have hpne : p ≠ "(" := by simpa using (binary_facts hp).2.1
  obtain ⟨-, -, hqr, -⟩ := binary_prec hq
  obtain ⟨-, hp7, -, -⟩ := binary_prec hp
  rw [popOperators]
  by_cases hqc : q = "^"
  · subst hqc
    have e1 : isRightAssociative "^" = true := by decide
    have e2 : getPrecedence "^" = 7 := by decide
    have : ¬ ((7 : Int) < getPrecedence p) := by omega
    simp [e1, e2, this]
  · have hr : isRightAssociative q = false := by
      cases h : isRightAssociative q
      · rfl
      · exact absurd (hqr.1 h) hqc
    by_cases hle : getPrecedence q ≤ getPrecedence p
    · simp [hr, hle, hqc, hpne, popOperators]
    · simp [hr, hle, hqc]

theorem drainOperators_binary {p : String} (hp : isBinaryOperator p = true)
    (ops out : List String) :
    drainOperators (p :: ops) out = drainOperators ops (out ++ [p]) := by
  obtain ⟨-, h2, -, -, -⟩ := binary_facts hp
  simp [drainOperators, h2]

theorem unary_cases {u : String} (h : isUnaryOperator u = true) :
    u = "u-" ∨ u = "~" ∨ u = "not" := by
  simpa [isUnaryOperator] using h

theorem infixLoop_lparen (rest ops out : List String) :
    infixLoop ("(" :: rest) ops out = infixLoop rest ("(" :: ops) out := by
  rw [infixLoop]
  have h1 : isNumber "(" = false := by decide
  simp [h1]

theorem infixLoop_rparen (rest ops out : List String) :
    infixLoop (")" :: rest) ops out =
      match popToParen ops out with
      | (top :: ops1, out1) =>
        if top == "(" then infixLoop rest ops1 out1 else Except.error mismatched
      | ([], _) => Except.error mismatched := by
  rw [infixLoop]
  have h1 : isNumber ")" = false := by decide
  have h2 : (")" == "(") = false := by decide
  simp [h1, h2]

theorem infixLoop_unary {u : String} (h : isUnaryOperator u = true)
    (rest ops out : List String) :
    infixLoop (u :: rest) ops out = infixLoop rest (u :: ops) out := by
  rw [infixLoop]
  rcases unary_cases h with h | h | h <;> subst h
  · have h1 : isNumber "u-" = false := by decide
    have h2 : isOperator "u-" = true := by decide
    simp [h1, h2]
  · have h1 : isNumber "~" = false := by decide
    have h2 : isOperator "~" = true := by decide
    simp [h1, h2]
  · have h1 : isNumber "not" = false := by decide
    have h2 : isOperator "not" = true := by decide
    simp [h1, h2]

theorem popOperators_lparen (t : String) (ops out : List String) :
    popOperators t ("(" :: ops) out = ("(" :: ops, out) := by
  rw [popOperators]
  simp

theorem popToParen_lparen (ops out : List String) :
    popToParen ("(" :: ops) out = ("(" :: ops, out) := by
  rw [popToParen]
  simp

theorem popToParen_binary {p : String} (hp : isBinaryOperator p = true)
    (ops out : List String) :
    popToParen (p :: ops) out = popToParen ops (out ++ [p]) := by
  have hpne : p ≠ "(" := by simpa using (binary_facts hp).2.1
  rw [popToParen]
  simp [hpne]

theorem popOperators_pow_unary {u : String} (h : isUnaryOperator u = true)
    (out : List String) :
    popOperators "^" [u] out = ([], out ++ [u]) := by
  rcases unary_cases h with h | h | h <;> subst h <;>
    simp [popOperators] <;> decide

theorem drainOperators_unary {u : String} (h : isUnaryOperator u = true)
    (ops out : List String) :
    drainOperators (u :: ops) out = drainOperators ops (out ++ [u]) := by
  rcases unary_cases h with h | h | h <;> subst h <;> rw [drainOperators] <;> simp

theorem buildLoop_number {t : String} (h : isNumber t = true) (rest : List String)
    (st : List NodePtr) :
    buildLoop (t :: rest) st = buildLoop rest (Node.operand (literalValue t) :: st) := by
  rw [buildLoop]
  simp [buildStep, h]

theorem buildLoop_binary {t : String} (h : isBinaryOperator t = true) (rest : List String)
    (right left : NodePtr) (below : List NodePtr) :
    buildLoop (t :: rest) (right :: left :: below) =
      buildLoop rest (Node.binaryOp t left right :: below) := by
  obtain ⟨h1, -, -, h4, -⟩ := binary_facts h
  have h5 : isUnaryOperator t = false := by
    simp only [isBinaryOperator, Bool.and_eq_true, Bool.not_eq_true'] at h
    exact h.2
  rw [buildLoop]
  simp [buildStep, h1, h4, h5]

theorem buildLoop_unary {u : String} (h : isUnaryOperator u = true) (rest : List String)
    (right : NodePtr) (below : List NodePtr) :
    buildLoop (u :: rest) (right :: below) =
      buildLoop rest (Node.unaryOp (if u == "u-" then "-" else u) right :: below) := by
  have h1 : isNumber u = false := by
    rcases unary_cases h with h | h | h <;> subst h <;> decide
  rw [buildLoop]
  simp [buildStep, h1, h]

theorem buildLoop_nil (st : List NodePtr) : buildLoop [] st = Except.ok st := rfl


/-- The tree built from the postfix form `x y o z r`: `r (o x y) z`. -/
theorem build_left_nested {x y z o r : String} (hx : isNumber x = true)
    (hy : isNumber y = true) (hz : isNumber z = true) (ho : isBinaryOperator o = true)
    (hr : isBinaryOperator r = true) :
    buildTreeFromPostfix [x, y, o, z, r] =
      Except.ok (Node.binaryOp r
        (Node.binaryOp o (Node.operand (literalValue x)) (Node.operand (literalValue y)))
        (Node.operand (literalValue z))) := by
  simp only [buildTreeFromPostfix, buildLoop_number hx, buildLoop_number hy,
    buildLoop_number hz, buildLoop_binary ho, buildLoop_binary hr, buildLoop_nil]

/-- The tree built from the postfix form `x y z o r`: `r x (o y z)`. -/
theorem build_right_nested {x y z o r : String} (hx : isNumber x = true)
    (hy : isNumber y = true) (hz : isNumber z = true) (ho : isBinaryOperator o = true)
    (hr : isBinaryOperator r = true) :
    buildTreeFromPostfix [x, y, z, o, r] =
      Except.ok (Node.binaryOp r (Node.operand (literalValue x))
        (Node.binaryOp o (Node.operand (literalValue y)) (Node.operand (literalValue z)))) := by
  simp only [buildTreeFromPostfix, buildLoop_number hx, buildLoop_number hy,
    buildLoop_number hz, buildLoop_binary ho, buildLoop_binary hr, buildLoop_nil]

/-! ## Parenthesis balance -/

theorem popToParen_none (ops out : List String) (h : ops.count "(" = 0) :
    (popToParen ops out).1 = [] := by
  induction ops generalizing out with
  | nil => rfl
  | cons top ops ih =>
    have hne : top ≠ "(" := by
      intro h1; subst h1; simp at h
    have hc : ops.count "(" = 0 := by
      rw [List.count_cons] at h; omega
    rw [popToParen]
    simp [hne, ih _ hc]

theorem popToParen_some (ops out : List String) (h : 0 < ops.count "(") :
    ∃ ops1 out1, popToParen ops out = ("(" :: ops1, out1) ∧
      ops1.count "(" + 1 = ops.count "(" := by
  induction ops generalizing out with
  | nil => simp at h
  | cons top ops ih =>
    by_cases htop : top = "("
    · subst htop
      exact ⟨ops, out, popToParen_lparen ops out, by simp⟩
    · have hc : (top :: ops).count "(" = ops.count "(" := by
        rw [List.count_cons]; simp [htop]
      rw [hc] at h ⊢
      obtain ⟨ops1, out1, h1, h2⟩ := ih (out ++ [top]) h
      refine ⟨ops1, out1, ?_, h2⟩
      rw [popToParen]
      simp [htop, h1]

theorem popOperators_count (t : String) (ops out : List String) :
    ((popOperators t ops out).1).count "(" = ops.count "(" := by
  induction ops generalizing out with
  | nil => rfl
  | cons top ops ih =>
    rw [popOperators]
    split
    · rename_i hcond
      have hne : top ≠ "(" := by
        intro h1; subst h1; simp at hcond
      rw [ih, List.count_cons]
      simp [hne]
    · rfl

theorem drainOperators_ok (ops out : List String) (h : ops.count "(" = 0) :
    ∃ o, drainOperators ops out = Except.ok o := by
  induction ops generalizing out with
  | nil => exact ⟨out, rfl⟩
  | cons top ops ih =>
    have hne : top ≠ "(" := by
      intro h1; subst h1; simp at h
    have hc : ops.count "(" = 0 := by
      rw [List.count_cons] at h; omega
    rw [drainOperators]
    simp only [beq_iff_eq, hne, if_false]
    exact ih _ hc

theorem drainOperators_error (ops out : List String) (h : 0 < ops.count "(") :
    drainOperators ops out = Except.error mismatched := by
  induction ops generalizing out with
  | nil => simp at h
  | cons top ops ih =>
    rw [drainOperators]
    by_cases htop : top = "("
    · simp [htop]
    · have hc : (top :: ops).count "(" = ops.count "(" := by
        rw [List.count_cons]; simp [htop]
      rw [hc] at h
      simp only [beq_iff_eq, htop, if_false]
      exact ih _ h

/-- The converter succeeds exactly when the depth-counting check passes, started
at the number of `(` on the operator stack; otherwise it throws the
parenthesis error. -/
theorem infixLoop_parenScan (tokens ops out : List String) :
    (parenScan (ops.count "(") tokens = true → ∃ o, infixLoop tokens ops out = Except.ok o) ∧
    (parenScan (ops.count "(") tokens = false →
      infixLoop tokens ops out = Except.error mismatched) := by
  induction tokens generalizing ops out with
  | nil =>
    rw [infixLoop_nil]
    simp only [parenScan, beq_iff_eq, decide_eq_true_eq, decide_eq_false_iff_not]
    constructor
    · intro h; exact drainOperators_ok ops out h
    · intro h; exact drainOperators_error ops out (by
        simp only [beq_eq_false_iff_ne, ne_eq] at h; omega)
  | cons token rest ih =>
    by_cases hl : token = "("
    · subst hl
      rw [infixLoop_lparen]
      have := ih ("(" :: ops) out
      simpa [parenScan] using this
    by_cases hr : token = ")"
    · subst hr
      rw [infixLoop_rparen]
      have hps : parenScan (ops.count "(") (")" :: rest) =
          (decide (0 < ops.count "(") && parenScan (ops.count "(" - 1) rest) := by
        rw [parenScan]; simp
      rw [hps]
      by_cases hd : 0 < ops.count "("
      · obtain ⟨ops1, out1, h1, h2⟩ := popToParen_some ops out hd
        have hd1 : ops.count "(" - 1 = ops1.count "(" := by omega
        rw [h1, hd1]
        simpa [hd] using ih ops1 out1
      · have h0 : ops.count "(" = 0 := by omega
        have hnil := popToParen_none ops out h0
        constructor
        · intro h; simp [hd] at h
        · intro _
          cases hp : popToParen ops out with
          | mk s o =>
            rw [hp] at hnil
            simp only at hnil
            subst hnil
            rfl
    · have hps : parenScan (ops.count "(") (token :: rest) = parenScan (ops.count "(") rest := by
        rw [parenScan]; simp [hl, hr]
      rw [hps, infixLoop]
      simp only [beq_iff_eq, hl, hr, if_false]
      split
      · exact ih ops _
      · split
        · split
          · have := ih (token :: ops) out
            rwa [List.count_cons_of_ne (Ne.symm hl)] at this
          · have := ih (token :: (popOperators token ops out).1) (popOperators token ops out).2
            rwa [List.count_cons_of_ne (Ne.symm hl), popOperators_count] at this
        · exact ih ops _

theorem parenScan_iff (tokens : List String) (d : Nat) :
    parenScan d tokens = true ↔
      (∀ k, (tokens.take k).count ")" ≤ (tokens.take k).count "(" + d) ∧
        tokens.count "(" + d = tokens.count ")" := by
  induction tokens generalizing d with
  | nil => simp [parenScan]
  | cons t rest ih =>
    have hne : (")" : String) ≠ "(" := by decide
    by_cases hl : t = "("
    · subst hl
      have hps : parenScan d ("(" :: rest) = parenScan (d + 1) rest := by
        rw [parenScan]; simp
      rw [hps, ih]
      simp only [List.count_cons_self, List.count_cons_of_ne hne]
      constructor
      · rintro ⟨h1, h2⟩
        refine ⟨?_, by omega⟩
        intro k
        cases k with
        | zero => simp
        | succ j =>
          have := h1 j
          simp only [List.take_succ_cons, List.count_cons_self, List.count_cons_of_ne hne]
          omega
      · rintro ⟨h1, h2⟩
        refine ⟨?_, by omega⟩
        intro k
        have := h1 (k + 1)
        simp only [List.take_succ_cons, List.count_cons_self, List.count_cons_of_ne hne] at this
        omega
    by_cases hr : t = ")"
    · subst hr
      have hps : parenScan d (")" :: rest) = (decide (0 < d) && parenScan (d - 1) rest) := by
        rw [parenScan]; simp
      rw [hps, Bool.and_eq_true, decide_eq_true_eq, ih]
      simp only [List.count_cons_self, List.count_cons_of_ne hne.symm]
      constructor
      · rintro ⟨h0, h1, h2⟩
        refine ⟨?_, by omega⟩
        intro k
        cases k with
        | zero => simp
        | succ j =>
          have := h1 j
          simp only [List.take_succ_cons, List.count_cons_self, List.count_cons_of_ne hne.symm]
          omega
      · rintro ⟨h1, h2⟩
        have h0 := h1 1
        simp only [List.take_succ_cons, List.take_zero, List.count_cons_self,
          List.count_cons_of_ne hne.symm, List.count_nil] at h0
        refine ⟨by omega, ?_, by omega⟩
        intro k
        have := h1 (k + 1)
        simp only [List.take_succ_cons, List.count_cons_self,
          List.count_cons_of_ne hne.symm] at this
        omega
    · have hps : parenScan d (t :: rest) = parenScan d rest := by
        rw [parenScan]; simp [hl, hr]
      rw [hps, ih]
      simp only [List.count_cons_of_ne (Ne.symm hl), List.count_cons_of_ne (Ne.symm hr)]
      constructor
      · rintro ⟨h1, h2⟩
        refine ⟨?_, h2⟩
        intro k
        cases k with
        | zero => simp
        | succ j =>
          simpa only [List.take_succ_cons, List.count_cons_of_ne (Ne.symm hl),
            List.count_cons_of_ne (Ne.symm hr)] using h1 j
      · rintro ⟨h1, h2⟩
        refine ⟨?_, h2⟩
        intro k
        simpa only [List.take_succ_cons, List.count_cons_of_ne (Ne.symm hl),
          List.count_cons_of_ne (Ne.symm hr)] using h1 (k + 1)

theorem unbalanced_iff (tokens : List String) :
    unbalanced tokens ↔ parenScan 0 tokens = false := by
  have h := parenScan_iff tokens 0
  rw [← Bool.not_eq_true, h]
  simp only [unbalanced, Nat.add_zero]
  constructor
  · rintro (⟨k, hk⟩ | h2) ⟨h3, h4⟩
    · have := h3 k; omega
    · omega
  · intro hn
    by_contra hc
    simp only [not_or, not_exists, not_lt] at hc
    apply hn
    refine ⟨hc.1, ?_⟩
    have := hc.1 tokens.length
    simp only [List.take_length] at this
    omega

/-! ## Evaluation of operator nodes -/

theorem isZero_iff (b : Double) : Double.isZero b = true ↔ ∃ s e, b = Double.fin s 0 e := by
  cases b with
  | nan => simp [Double.isZero, Double.eq]
  | inf s => simp [Double.isZero, Double.eq]
  | fin s m e =>
    constructor
    · intro h
      have hm : m = 0 := by
        simp only [Double.isZero, Double.eq, beq_self_eq_true, Bool.and_true, Bool.or_eq_true,
          beq_iff_eq, Bool.and_eq_true] at h
        rcases h with h | ⟨⟨-, h⟩, -⟩ <;> exact h
      exact ⟨s, e, by rw [hm]⟩
    · rintro ⟨s1, e1, h⟩
      injection h with _ hm _
      subst hm
      simp [Double.isZero, Double.eq]

theorem evaluateNode_binary (ev : ExpressionEvaluator) (v : Double) (op : String)
    (left right : NodePtr) (a b : Double)
    (hl : ev.evaluateNode left = Except.ok a) (hr : ev.evaluateNode right = Except.ok b) :
    ev.evaluateNode (NodePtr.node NodeType.OPERATOR v op left right) =
      match ev.binaryOps.lookup op with
      | some f => f a b
      | none => Except.error
          (Fault.ExpressionError ("Error: Unknown binary operator '" ++ op ++ "'")) := by
  rw [ExpressionEvaluator.evaluateNode]
  simp [hl, hr]

/-! ## The node stack of the tree builder -/

theorem buildLoop_countScan (tokens : List String) (st : List NodePtr)
    (hall : ∀ t ∈ tokens, isNumber t = true ∨ isOperator t = true) :
    (∀ n, countScan tokens st.length = Except.ok n →
      ∃ st1, buildLoop tokens st = Except.ok st1 ∧ st1.length = n) ∧
    (∀ e, countScan tokens st.length = Except.error e → buildLoop tokens st = Except.error e) := by
  induction tokens generalizing st with
  | nil =>
    constructor
    · intro n h
      simp only [countScan, Except.ok.injEq] at h
      exact ⟨st, rfl, h⟩
    · intro e h
      simp [countScan] at h
  | cons t rest ih =>
    have hrest : ∀ x ∈ rest, isNumber x = true ∨ isOperator x = true :=
      fun x hx => hall x (List.mem_cons_of_mem _ hx)
    rw [countScan, buildLoop]
    by_cases hn : isNumber t = true
    · have := ih (Node.operand (literalValue t) :: st) hrest
      simpa [buildStep, hn] using this
    · have hn' : isNumber t = false := by simpa using hn
      have hop : isOperator t = true := by
        rcases hall t (List.mem_cons_self _ _) with h | h
        · exact absurd h hn
        · exact h
      by_cases hu : isUnaryOperator t = true
      · cases st with
        | nil => simp [buildStep, hn', hu, unarySyntax]
        | cons right below =>
          have := ih (Node.unaryOp (if t == "u-" then "-" else t) right :: below) hrest
          simpa [buildStep, hn', hu] using this
      · have hu' : isUnaryOperator t = false := by simpa using hu
        match st with
        | [] => simp [buildStep, hn', hu', hop, binarySyntax]
        | [x] => simp [buildStep, hn', hu', hop, binarySyntax]
        | right :: left :: below =>
          have := ih (Node.binaryOp t left right :: below) hrest
          simpa [buildStep, hn', hu', hop] using this

/-! ## Scanning a numeric literal -/

theorem takeWhile_append_stop {α : Type} (p : α → Bool) (xs ys : List α)
    (h1 : ∀ x ∈ xs, p x = true) (h2 : ∀ y, ys.head? = some y → p y = false) :
    (xs ++ ys).takeWhile p = xs ∧ (xs ++ ys).dropWhile p = ys := by
  induction xs with
  | nil =>
    cases ys with
    | nil => simp
    | cons y t => simp [List.takeWhile, List.dropWhile, h2 y rfl]
  | cons x t ih =>
    have hx := h1 x (List.mem_cons_self _ _)
    have := ih (fun z hz => h1 z (List.mem_cons_of_mem _ hz))
    simp [List.takeWhile, List.dropWhile, hx, this]

theorem regexReplaceWord_id (w0 : Char) (w rep : List Char) (cs : List Char)
    (prev : Option Char) (h : ∀ c ∈ cs, c ≠ w0) :
    regexReplaceWord (w0 :: w) rep 0 prev cs = cs := by
  induction cs generalizing prev with
  | nil => rfl
  | cons c rest ih =>
    have hc : w0 ≠ c := fun e => h c (List.mem_cons_self _ _) e.symm
    rw [regexReplaceWord]
    simp [List.isPrefixOf, hc, ih _ (fun z hz => h z (List.mem_cons_of_mem _ hz))]

theorem tokenizeLoop_nil (fuel : Nat) (tokens : List String) :
    tokenizeLoop fuel [] tokens = tokens := by
  rw [tokenizeLoop]

theorem digit_facts {c : Char} (h : isdigit c = true) :
    isspace c = false ∧ c ≠ '+' ∧ c ≠ '-' ∧ tolower c = c ∧ c ≠ 'i' ∧ c ≠ 'n' ∧ c ≠ '.' ∧
      c ≠ 'x' ∧ c ≠ 'X' ∧ c ≠ 'e' ∧ c ≠ 'E' ∧ c ≠ 'a' ∧ c ≠ 'o' := by
  have hr : 48 ≤ c.toNat ∧ c.toNat ≤ 57 := by simpa [isdigit] using h
  refine ⟨?_, ?_, ?_, ?_, ?_, ?_, ?_, ?_, ?_, ?_, ?_, ?_, ?_⟩
  · simp only [isspace, Bool.or_eq_false_iff, beq_eq_false_iff_ne, ne_eq, Bool.and_eq_false_iff,
      decide_eq_false_iff_not]
    omega
  · rintro rfl; exact absurd h (by decide)
  · rintro rfl; exact absurd h (by decide)
  · have : ¬ (65 ≤ c.toNat ∧ c.toNat ≤ 90) := by omega
    simp [tolower, this]
  all_goals (rintro rfl; exact absurd h (by decide))

theorem scalePow_neg (mant k : Nat) :
    scalePow 10 mant 1 (-(k : Int)) = (mant, 10 ^ k) := by
  unfold scalePow
  cases k with
  | zero => simp
  | succ j =>
    have h : ¬ (0 : Int) ≤ -((j + 1 : Nat) : Int) := by omega
    have e : (- -((j + 1 : Nat) : Int)).toNat = j + 1 := by omega
    rw [if_neg h, e]
    simp

theorem scanDecimal_literal (ip : List Char) (frac : Option (List Char))
    (hip : ∀ c ∈ ip, isdigit c = true) (hfp : ∀ c ∈ fractionDigits frac, isdigit c = true)
    (hdig : ip ≠ [] ∨ fractionDigits frac ≠ []) :
    scanDecimal (decimalLiteral ip frac) =
      some ⟨decimalValue (ip ++ fractionDigits frac), 10 ^ (fractionDigits frac).length,
        (decimalLiteral ip frac).length⟩ := by
  cases frac with
  | none =>
    have hne : ip ≠ [] := by
      rcases hdig with h | h
      · exact h
      · exact absurd rfl h
    have h1 := takeWhile_append_stop isdigit ip [] hip (by simp)
    simp only [List.append_nil] at h1
    simp only [scanDecimal, decimalLiteral, fractionDigits, Option.getD_none, List.append_nil,
      h1.1, h1.2, hne, false_and, if_false, List.length_nil, Nat.add_zero]
    simp [scalePow]
  | some fp =>
    have hdot : ∀ y, ('.' :: fp).head? = some y → isdigit y = false := by
      intro y hy
      simp only [List.head?_cons, Option.some.injEq] at hy
      subst hy
      decide
    have h1 := takeWhile_append_stop isdigit ip ('.' :: fp) hip hdot
    have h2 := takeWhile_append_stop isdigit fp [] hfp (by simp)
    simp only [List.append_nil] at h2
    have hne : ¬ (ip = [] ∧ fp = []) := by
      rintro ⟨ha, hb⟩
      rcases hdig with h | h
      · exact h ha
      · exact h hb
    simp only [scanDecimal, decimalLiteral, fractionDigits, Option.getD_some, h1.1, h1.2,
      h2.1, h2.2, hne, if_false]
    have := scalePow_neg (decimalValue (ip ++ fp)) fp.length
    simp [this]
    omega

theorem literal_shape (ip : List Char) (frac : Option (List Char))
    (hip : ∀ c ∈ ip, isdigit c = true) (hfp : ∀ c ∈ fractionDigits frac, isdigit c = true)
    (hdig : ip ≠ [] ∨ fractionDigits frac ≠ []) :
    ∃ c tl, decimalLiteral ip frac = c :: tl ∧ (isdigit c = true ∨ c = '.') ∧
      ∀ x ∈ tl, isdigit x = true ∨ x = '.' := by
  have hall : ∀ x ∈ decimalLiteral ip frac, isdigit x = true ∨ x = '.' := by
    intro x hx
    cases frac with
    | none =>
      simp only [decimalLiteral, List.append_nil] at hx
      exact Or.inl (hip x hx)
    | some fp =>
      simp only [decimalLiteral, List.mem_append, List.mem_cons] at hx
      rcases hx with h | h | h
      · exact Or.inl (hip x h)
      · exact Or.inr h
      · exact Or.inl (hfp x h)
  cases hl : decimalLiteral ip frac with
  | nil =>
    cases frac with
    | none =>
      simp only [decimalLiteral, List.append_nil] at hl
      rcases hdig with h | h
      · exact absurd hl h
      · exact absurd rfl h
    | some fp => simp [decimalLiteral] at hl
  | cons c tl =>
    rw [hl] at hall
    exact ⟨c, tl, rfl, hall c (List.mem_cons_self _ _),
      fun x hx => hall x (List.mem_cons_of_mem _ hx)⟩

theorem numchar_facts {c : Char} (h : isdigit c = true ∨ c = '.') :
    isspace c = false ∧ c ≠ '+' ∧ c ≠ '-' ∧ tolower c ≠ 'i' ∧ tolower c ≠ 'n' ∧
      c ≠ 'x' ∧ c ≠ 'X' ∧ c ≠ 'a' ∧ c ≠ 'o' ∧ (isdigit c || c == '.') = true := by
  rcases h with h | h
  · obtain ⟨h1, h2, h3, h4, h5, h6, -, h8, h9, -, -, h12, h13⟩ := digit_facts h
    rw [h4]
    exact ⟨h1, h2, h3, h5, h6, h8, h9, h12, h13, by simp [h]⟩
  · subst h
    decide

theorem scanSign_plain {c : Char} (tl : List Char) (h1 : c ≠ '+') (h2 : c ≠ '-') :
    scanSign (c :: tl) = (false, c :: tl, 0) := by
  unfold scanSign
  split
  · rename_i t heq
    injection heq with hc _
    exact absurd hc h1
  · rename_i t heq
    injection heq with hc _
    exact absurd hc h2
  · rfl

theorem startsWithNoCase_head (w0 : Char) (w : List Char) {c : Char} (tl : List Char)
    (h : tolower c ≠ w0) : startsWithNoCase (w0 :: w) (c :: tl) = false := by
  have h1 : w0 ≠ tolower c := fun e => h e.symm
  simp [startsWithNoCase, List.isPrefixOf, h1]

theorem scanHexPrefixed_literal {c : Char} (tl : List Char)
    (htl : ∀ x ∈ tl, isdigit x = true ∨ x = '.') : scanHexPrefixed (c :: tl) = none := by
  unfold scanHexPrefixed
  split
  · rename_i x t heq
    injection heq with _ ht
    have hx := htl x (by rw [ht]; exact List.mem_cons_self _ _)
    obtain ⟨-, -, -, -, -, f6, f7, -, -, -⟩ := numchar_facts hx
    simp [f6, f7]
  · rfl

theorem stod_literal (ip : List Char) (frac : Option (List Char))
    (hip : ∀ c ∈ ip, isdigit c = true) (hfp : ∀ c ∈ fractionDigits frac, isdigit c = true)
    (hdig : ip ≠ [] ∨ fractionDigits frac ≠ [])
    (hover : (literalRounding ip frac).overflow = false)
    (hunder : ((literalRounding ip frac).tiny && (literalRounding ip frac).inexact) = false) :
    stod (String.mk (decimalLiteral ip frac)) =
      some ((literalRounding ip frac).value, (decimalLiteral ip frac).length) := by
  have hscan := scanDecimal_literal ip frac hip hfp hdig
  obtain ⟨c, tl, hl, hc, htl⟩ := literal_shape ip frac hip hfp hdig
  obtain ⟨f1, f2, f3, f4, f5, -, -, -, -, -⟩ := numchar_facts hc
  rw [hl] at hscan ⊢
  have hmag : scanMagnitude (c :: tl) = scanDecimal (c :: tl) := by
    simp [scanMagnitude, scanHexPrefixed_literal tl htl]
  unfold literalRounding at hover hunder ⊢
  unfold stod
  simp only [List.takeWhile, List.dropWhile, f1, scanSign_plain tl f2 f3,
    startsWithNoCase_head _ _ tl f4, startsWithNoCase_head _ _ tl f5, hmag, hscan]
  simp [hover, hunder]

theorem evaluateNode_operand (ev : ExpressionEvaluator) (value : Double) :
    ev.evaluateNode (Node.operand value) = Except.ok value := by
  rw [Node.operand, ExpressionEvaluator.evaluateNode]
  simp

theorem isNumber_literal (ip : List Char) (frac : Option (List Char))
    (hip : ∀ c ∈ ip, isdigit c = true) (hfp : ∀ c ∈ fractionDigits frac, isdigit c = true)
    (hdig : ip ≠ [] ∨ fractionDigits frac ≠ [])
    (hover : (literalRounding ip frac).overflow = false)
    (hunder : ((literalRounding ip frac).tiny && (literalRounding ip frac).inexact) = false) :
    isNumber (String.mk (decimalLiteral ip frac)) = true ∧
      literalValue (String.mk (decimalLiteral ip frac)) = (literalRounding ip frac).value := by
  have hs := stod_literal ip frac hip hfp hdig hover hunder
  obtain ⟨c, tl, hl, -, -⟩ := literal_shape ip frac hip hfp hdig
  have hne : (String.mk (decimalLiteral ip frac)).isEmpty = false := by
    cases h : (String.mk (decimalLiteral ip frac)).isEmpty
    · rfl
    · have := (String.isEmpty_iff _).1 h
      rw [hl] at this
      exact absurd (congrArg String.data this) (by simp)
  constructor
  · simp [isNumber, hne, hs]
  · simp [literalValue, hs]


theorem operator_cases {op : String} (h : isOperator op = true) :
    op ∈ operators := by
  simpa [isOperator] using h

theorem evaluateNode_unary (ev : ExpressionEvaluator) (v : Double) (op : String)
    (left right : NodePtr) (b : Double) (hr : ev.evaluateNode right = Except.ok b) :
    ev.evaluateNode (NodePtr.node NodeType.UNARY_OP v op left right) =
      match ev.unaryOps.lookup op with
      | some f => f b
      | none => Except.error
          (Fault.ExpressionError ("Error: Unknown unary operator '" ++ op ++ "'")) := by
  rw [ExpressionEvaluator.evaluateNode]
  simp [hr]

theorem intBinary_some (f : Int → Int → Int) (a b : Double) (x y : Int)
    (hx : a.toInt = some x) (hy : b.toInt = some y) :
    intBinary f a b = Except.ok (Double.ofInt (f x y)) := by
  simp [intBinary, Double.castInt, hx, hy]

theorem multiCharOps_data :
    multiCharOps.map String.data =
      [['=', '='], ['!', '='], ['<', '='], ['>', '='], ['&', '&'], ['|', '|'],
       ['<', '<'], ['>', '>']] := rfl

theorem find_multiChar_none (c : Char) (rest : List Char)
    (h : c ≠ '=' ∧ c ≠ '!' ∧ c ≠ '<' ∧ c ≠ '>' ∧ c ≠ '&' ∧ c ≠ '|') :
    multiCharOps.find? (fun op => op.data.isPrefixOf (c :: rest)) = none := by
  obtain ⟨h1, h2, h3, h4, h5, h6⟩ := h
  have e1 : "==".data = ['=', '='] := rfl
  have e2 : "!=".data = ['!', '='] := rfl
  have e3 : "<=".data = ['<', '='] := rfl
  have e4 : ">=".data = ['>', '='] := rfl
  have e5 : "&&".data = ['&', '&'] := rfl
  have e6 : "||".data = ['|', '|'] := rfl
  have e7 : "<<".data = ['<', '<'] := rfl
  have e8 : ">>".data = ['>', '>'] := rfl
  have b1 : ('=' == c) = false := beq_eq_false_iff_ne.2 (Ne.symm h1)
  have b2 : ('!' == c) = false := beq_eq_false_iff_ne.2 (Ne.symm h2)
  have b3 : ('<' == c) = false := beq_eq_false_iff_ne.2 (Ne.symm h3)
  have b4 : ('>' == c) = false := beq_eq_false_iff_ne.2 (Ne.symm h4)
  have b5 : ('&' == c) = false := beq_eq_false_iff_ne.2 (Ne.symm h5)
  have b6 : ('|' == c) = false := beq_eq_false_iff_ne.2 (Ne.symm h6)
  simp only [multiCharOps, List.find?, e1, e2, e3, e4, e5, e6, e7, e8, List.isPrefixOf,
    b1, b2, b3, b4, b5, b6, Bool.false_and]

theorem unaryPosition_iff (tokens : List String) :
    (tokens.isEmpty || tokens.getLast? == some "(" || (tokens.getLast?.any isOperator)) = true ↔
      unaryPosition tokens := by
  unfold unaryPosition
  cases hlast : tokens.getLast? with
  | none =>
    have : tokens = [] := by simpa using hlast
    simp [this]
  | some t =>
    have hne : tokens ≠ [] := by
      intro h; rw [h] at hlast; simp at hlast
    simp [hne, List.isEmpty_iff]

theorem tokenizeLoop_minus (fuel : Nat) (rest : List Char) (tokens : List String) :
    tokenizeLoop (fuel + 1) ('-' :: rest) tokens =
      if (tokens.isEmpty || tokens.getLast? == some "(" || (tokens.getLast?.any isOperator))
      then tokenizeLoop fuel rest (tokens ++ ["u-"])
      else tokenizeLoop fuel rest (tokens ++ ["-"]) := by
  rw [tokenizeLoop]
  have hs : isspace '-' = false := by decide
  have hd : (isdigit '-' || '-' == '.') = false := by decide
  have hp : ('-' == '(' || '-' == ')') = false := by decide
  have hm := find_multiChar_none '-' rest (by decide)
  have ho : isSingleCharOp '-' = true := by decide
  simp only [hs, hd, hp, hm, ho]
  simp
  rfl

theorem tokenizeLoop_plus (fuel : Nat) (rest : List Char) (tokens : List String) :
    tokenizeLoop (fuel + 1) ('+' :: rest) tokens =
      if (tokens.isEmpty || tokens.getLast? == some "(" || (tokens.getLast?.any isOperator))
      then tokenizeLoop fuel rest tokens
      else tokenizeLoop fuel rest (tokens ++ ["+"]) := by
  rw [tokenizeLoop]
  have hs : isspace '+' = false := by decide
  have hd : (isdigit '+' || '+' == '.') = false := by decide
  have hp : ('+' == '(' || '+' == ')') = false := by decide
  have hm := find_multiChar_none '+' rest (by decide)
  have ho : isSingleCharOp '+' = true := by decide
  simp only [hs, hd, hp, hm, ho]
  simp
  rfl

theorem getPrecedence_le_eight (op : String) : getPrecedence op ≤ 8 := by
  unfold getPrecedence
  split_ifs <;> omega

theorem popOperators_unary {u : String} (h : isUnaryOperator u = true)
    (ops out : List String) : popOperators u ops out = (ops, out) := by
  have hr : isRightAssociative u = true := by
    rcases unary_cases h with h | h | h <;> subst h <;> decide
  have hp : getPrecedence u = 8 := by
    rcases unary_cases h with h | h | h <;> subst h <;> decide
  cases ops with
  | nil => rfl
  | cons top rest =>
    have hle := getPrecedence_le_eight top
    have hlt : ¬ ((8 : Int) < getPrecedence top) := by omega
    rw [popOperators]
    simp [hr, hp, hlt]

theorem infixLoopGeneric_eq (tokens ops out : List String) :
    infixLoopGeneric tokens ops out = infixLoop tokens ops out := by
  induction tokens generalizing ops out with
  | nil => rw [infixLoopGeneric, infixLoop]
  | cons token rest ih =>
    rw [infixLoopGeneric, infixLoop]
    simp only [ih]
    by_cases hu : (token == "u-" || token == "~" || token == "not") = true
    · have hun : isUnaryOperator token = true := by
        simp only [Bool.or_eq_true, beq_iff_eq] at hu
        simp only [isUnaryOperator, List.contains_iff_exists_mem_beq, beq_iff_eq,
          exists_eq_right', List.mem_cons, List.mem_singleton, List.mem_nil_iff, or_false]
        tauto
      simp only [hu, if_true, popOperators_unary hun]
    · simp only [hu]
      rfl

theorem wellFormed_ne_null {n : NodePtr} (h : WellFormed n) : n ≠ NodePtr.null := by
  intro e
  rw [e] at h
  exact h

theorem buildStep_wellFormed (token : String) (st st1 : List NodePtr)
    (hst : ∀ n ∈ st, WellFormed n) (h : buildStep token st = Except.ok st1) :
    ∀ n ∈ st1, WellFormed n := by
  unfold buildStep at h
  by_cases h1 : isNumber token = true
  · simp only [h1, if_true, Except.ok.injEq] at h
    subst h
    intro n hn
    rcases List.mem_cons.1 hn with e | e
    · subst e
      simp [Node.operand, WellFormed]
    · exact hst n e
  · replace h1 : isNumber token = false := by simpa using h1
    by_cases h2 : isUnaryOperator token = true
    · simp only [h1, h2, if_true, Bool.false_eq_true, if_false] at h
      cases st with
      | nil => simp at h
      | cons right below =>
        simp only [Except.ok.injEq] at h
        subst h
        intro n hn
        rcases List.mem_cons.1 hn with e | e
        · subst e
          have hr := hst right (List.mem_cons_self _ _)
          simp [Node.unaryOp, WellFormed, hr, wellFormed_ne_null hr]
        · exact hst n (List.mem_cons_of_mem _ e)
    · replace h2 : isUnaryOperator token = false := by simpa using h2
      by_cases h3 : isOperator token = true
      · simp only [h1, h2, h3, if_true, Bool.false_eq_true, if_false] at h
        match st, hst, h with
        | [], _, h => simp at h
        | [x], _, h => simp at h
        | right :: left :: below, hst, h =>
          simp only [Except.ok.injEq] at h
          subst h
          intro n hn
          rcases List.mem_cons.1 hn with e | e
          · subst e
            have hr := hst right (List.mem_cons_self _ _)
            have hl := hst left (List.mem_cons_of_mem _ (List.mem_cons_self _ _))
            simp [Node.binaryOp, WellFormed, hr, hl, wellFormed_ne_null hr,
              wellFormed_ne_null hl]
          · exact hst n (List.mem_cons_of_mem _ (List.mem_cons_of_mem _ e))
      · replace h3 : isOperator token = false := by simpa using h3
        simp only [h1, h2, h3, Bool.false_eq_true, if_false, Except.ok.injEq] at h
        subst h
        exact hst

theorem buildLoop_wellFormed (tokens : List String) (st st1 : List NodePtr)
    (hst : ∀ n ∈ st, WellFormed n) (h : buildLoop tokens st = Except.ok st1) :
    ∀ n ∈ st1, WellFormed n := by
  induction tokens generalizing st with
  | nil =>
    simp only [buildLoop, Except.ok.injEq] at h
    subst h
    exact hst
  | cons token rest ih =>
    rw [buildLoop] at h
    cases hs : buildStep token st with
    | error e => simp [hs] at h
    | ok st2 =>
      simp only [hs] at h
      exact ih st2 (buildStep_wellFormed token st st2 hst hs) h

theorem toNode_wellFormed (t : Expr) : WellFormed t.toNode := by
  induction t with
  | num v => simp [Expr.toNode, Node.operand, WellFormed]
  | unary op arg ih =>
    simp [Expr.toNode, Node.unaryOp, WellFormed, ih, wellFormed_ne_null ih]
  | binary op l r ihl ihr =>
    simp [Expr.toNode, Node.binaryOp, WellFormed, ihl, ihr, wellFormed_ne_null ihl,
      wellFormed_ne_null ihr]

theorem buildLoop_postOrder (render : Double → String) (t : Expr) (hops : t.knownOps)
    (hrender : ∀ v ∈ t.leaves, isNumber (render v) = true ∧ literalValue (render v) = v)
    (rest : List String) (st : List NodePtr) :
    buildLoop (t.postOrderTokens render ++ rest) st = buildLoop rest (t.toNode :: st) := by
  induction t generalizing rest st with
  | num v =>
    obtain ⟨h1, h2⟩ := hrender v (by simp [Expr.leaves])
    simp only [Expr.postOrderTokens, List.cons_append, List.nil_append, buildLoop_number h1, h2,
      Expr.toNode]
  | unary op arg ih =>
    obtain ⟨hop, harg⟩ := hops
    have hr : ∀ v ∈ arg.leaves, isNumber (render v) = true ∧ literalValue (render v) = v :=
      fun v hv => hrender v (by simpa [Expr.leaves] using hv)
    simp only [Expr.postOrderTokens, List.append_assoc, List.cons_append, List.nil_append,
      ih harg hr, Expr.toNode]
    rcases hop with h | h | h <;> subst h
    · have hu : isUnaryOperator "u-" = true := by decide
      have e : (if ("-" : String) == "-" then "u-" else "-") = "u-" := by decide
      rw [e, buildLoop_unary hu]
      rfl
    · have hu : isUnaryOperator "~" = true := by decide
      have e : (if ("~" : String) == "-" then "u-" else "~") = "~" := by decide
      rw [e, buildLoop_unary hu]
      rfl
    · have hu : isUnaryOperator "not" = true := by decide
      have e : (if ("not" : String) == "-" then "u-" else "not") = "not" := by decide
      rw [e, buildLoop_unary hu]
      rfl
  | binary op l r ihl ihr =>
    obtain ⟨hop, hl, hr⟩ := hops
    have hrl : ∀ v ∈ l.leaves, isNumber (render v) = true ∧ literalValue (render v) = v :=
      fun v hv => hrender v (by simp [Expr.leaves, hv])
    have hrr : ∀ v ∈ r.leaves, isNumber (render v) = true ∧ literalValue (render v) = v :=
      fun v hv => hrender v (by simp [Expr.leaves, hv])
    simp only [Expr.postOrderTokens, List.append_assoc, List.cons_append, List.nil_append,
      ihl hl hrl, ihr hr hrr, buildLoop_binary hop, Expr.toNode]

/-! ## In-order rendering -/

theorem inOrderHelper_null (result : String) : inOrderHelper NodePtr.null result = result := by
  rw [inOrderHelper]

theorem inOrderHelper_node (type : NodeType) (value : Double) (op : String)
    (left right : NodePtr) (result : String) :
    inOrderHelper (NodePtr.node type value op left right) result =
      (inOrderHelper right
        ((inOrderHelper left
            (if (decide (type = NodeType.OPERATOR) &&
                (left != NodePtr.null || right != NodePtr.null)) then result ++ "(" else result)) ++
          (if type = NodeType.OPERAND then String.mk (formatDouble value)
            else " " ++ op ++ " "))) ++
        (if (decide (type = NodeType.OPERATOR) &&
            (left != NodePtr.null || right != NodePtr.null)) then ")" else "") := by
  rw [inOrderHelper]
  have hl : (if left != NodePtr.null then inOrderHelper left
      (if (decide (type = NodeType.OPERATOR) &&
        (left != NodePtr.null || right != NodePtr.null)) then result ++ "(" else result)
      else (if (decide (type = NodeType.OPERATOR) &&
        (left != NodePtr.null || right != NodePtr.null)) then result ++ "(" else result)) =
      inOrderHelper left (if (decide (type = NodeType.OPERATOR) &&
        (left != NodePtr.null || right != NodePtr.null)) then result ++ "(" else result) := by
    by_cases h : left = NodePtr.null
    · subst h; simp [inOrderHelper_null]
    · simp [h]
  by_cases hr : right = NodePtr.null
  · subst hr
    simp only [hl, inOrderHelper_null]
    split_ifs <;> simp
  · simp only [hl]
    split_ifs <;> simp_all

theorem inOrderHelper_append (n : NodePtr) (result : String) :
    inOrderHelper n result = result ++ inOrderHelper n "" := by
  induction n generalizing result with
  | null => simp [inOrderHelper_null]
  | node type value op left right ihl ihr =>
    rw [inOrderHelper_node, inOrderHelper_node type value op left right ""]
    rw [ihr, ihl]
    conv_rhs => rw [ihr, ihl]
    by_cases hp : (decide (type = NodeType.OPERATOR) &&
        (left != NodePtr.null || right != NodePtr.null)) = true
    · simp only [hp, if_true, String.append_assoc, String.empty_append]
    · simp only [hp, if_false, Bool.false_eq_true, String.append_assoc, String.empty_append,
        String.append_empty]

theorem inOrderHelper_binary (value : Double) (op : String) (left right : NodePtr)
    (h : left ≠ NodePtr.null ∨ right ≠ NodePtr.null) :
    inOrderHelper (NodePtr.node NodeType.OPERATOR value op left right) "" =
      "(" ++ (inOrderHelper left "" ++ (" " ++ op ++ " ") ++ inOrderHelper right "") ++ ")" := by
  have hp : (left != NodePtr.null || right != NodePtr.null) = true := by
    rcases h with h | h <;> simp [h]
  have hne : ¬ (NodeType.OPERATOR = NodeType.OPERAND) := by decide
  rw [inOrderHelper_node, inOrderHelper_append right, inOrderHelper_append left]
  simp only [decide_True, Bool.true_and, hp, if_true, hne, if_false, String.append_assoc,
    String.empty_append]

theorem inOrderHelper_unary (value : Double) (op : String) (left right : NodePtr) :
    inOrderHelper (NodePtr.node NodeType.UNARY_OP value op left right) "" =
      inOrderHelper left "" ++ (" " ++ op ++ " ") ++ inOrderHelper right "" := by
  rw [inOrderHelper_node]
  simp only [show decide (NodeType.UNARY_OP = NodeType.OPERATOR) = false by decide,
    Bool.false_and, Bool.false_eq_true, if_false,
    show ¬ (NodeType.UNARY_OP = NodeType.OPERAND) by decide]
  rw [inOrderHelper_append right]
  simp [String.append_assoc]

/-! ## Parsing the in-order text -/

theorem toNode_ne_null (t : Expr) : t.toNode ≠ NodePtr.null :=
  wellFormed_ne_null (toNode_wellFormed t)

theorem inOrderHelper_toNode (t : Expr) : (inOrderHelper t.toNode "").data = t.inOrderText := by
  induction t with
  | num v =>
    rw [Expr.toNode, Node.operand, inOrderHelper_node, inOrderHelper_null, inOrderHelper_null]
    simp [Expr.inOrderText]
  | unary op arg ih =>
    rw [Expr.toNode, Node.unaryOp, inOrderHelper_unary, inOrderHelper_null]
    simp [Expr.inOrderText, String.data_append, ih]
  | binary op l r ihl ihr =>
    rw [Expr.toNode, Node.binaryOp, inOrderHelper_binary _ _ _ _ (Or.inl (toNode_ne_null l))]
    simp [Expr.inOrderText, String.data_append, ihl, ihr]

theorem postOrderTokens_eq (t : Expr) :
    t.postOrderTokens (fun v => String.mk (formatDouble v)) = t.convertedCore ++ t.pendingUnary := by
  induction t with
  | num v => simp [Expr.postOrderTokens, Expr.convertedCore, Expr.pendingUnary]
  | unary op arg ih =>
    simp [Expr.postOrderTokens, Expr.convertedCore, Expr.pendingUnary, ih, unaryToken]
  | binary op l r ihl ihr =>
    simp [Expr.postOrderTokens, Expr.convertedCore, Expr.pendingUnary, ihl, ihr]

theorem unaryToken_isUnary {op : String} (h : op = "-" ∨ op = "~" ∨ op = "not") :
    isUnaryOperator (unaryToken op) = true := by
  rcases h with h | h | h <;> subst h <;> decide

theorem pendingUnary_isUnary (t : Expr) (h : t.symbolicOps) :
    ∀ u ∈ t.pendingUnary, isUnaryOperator u = true := by
  induction t with
  | num v => simp [Expr.pendingUnary]
  | unary op arg ih =>
    intro u hu
    simp only [Expr.pendingUnary, List.mem_append, List.mem_singleton] at hu
    rcases hu with hu | hu
    · exact ih h.2 u hu
    · subst hu; exact unaryToken_isUnary h.1
  | binary op l r _ _ => simp [Expr.pendingUnary]

theorem unary_ne_lparen {u : String} (h : isUnaryOperator u = true) : u ≠ "(" := by
  rcases unary_cases h with h | h | h <;> subst h <;> decide

theorem unary_prec {u : String} (h : isUnaryOperator u = true) : getPrecedence u = 8 := by
  rcases unary_cases h with h | h | h <;> subst h <;> decide

theorem popOperators_pending {op : String} (hop : isBinaryOperator op = true)
    (us : List String) (hus : ∀ u ∈ us, isUnaryOperator u = true) (S O : List String) :
    popOperators op (us ++ "(" :: S) O = ("(" :: S, O ++ us) := by
  induction us generalizing O with
  | nil => simp [popOperators_lparen]
  | cons u rest ih =>
    have hu := hus u (List.mem_cons_self _ _)
    have hne := unary_ne_lparen hu
    have hp := unary_prec hu
    obtain ⟨-, h7, -, -⟩ := binary_prec hop
    have h1 : getPrecedence op < 8 := by omega
    have h2 : getPrecedence op ≤ 8 := by omega
    rw [List.cons_append, popOperators]
    have hc : (u != "(" &&
        ((isRightAssociative op && decide (getPrecedence op < getPrecedence u)) ||
         (!isRightAssociative op && decide (getPrecedence op ≤ getPrecedence u)))) = true := by
      rw [hp]
      cases isRightAssociative op <;> simp [hne, h1, h2]
    rw [if_pos hc, ih (fun x hx => hus x (List.mem_cons_of_mem _ hx))]
    simp

theorem popToParen_all (us : List String) (hus : ∀ u ∈ us, u ≠ "(") (S O : List String) :
    popToParen (us ++ "(" :: S) O = ("(" :: S, O ++ us) := by
  induction us generalizing O with
  | nil => simp [popToParen_lparen]
  | cons u rest ih =>
    rw [List.cons_append, popToParen]
    simp only [bne_iff_ne, ne_eq, hus u (List.mem_cons_self _ _), not_false_eq_true, if_true]
    rw [ih (fun x hx => hus x (List.mem_cons_of_mem _ hx))]
    simp

theorem popToParen_through (us : List String) (x : String)
    (hus : ∀ u ∈ us, isUnaryOperator u = true) (hx : x ≠ "(") (S O : List String) :
    popToParen (us ++ x :: "(" :: S) O = ("(" :: S, O ++ (us ++ [x])) := by
  have hall : ∀ u ∈ us ++ [x], u ≠ "(" := by
    intro u hu
    rcases List.mem_append.1 hu with h | h
    · exact unary_ne_lparen (hus u h)
    · have : u = x := by simpa using h
      subst this
      exact hx
  have := popToParen_all (us ++ [x]) hall S O
  simpa [List.append_assoc] using this

theorem drainOperators_pending (us : List String) (hus : ∀ u ∈ us, isUnaryOperator u = true)
    (O : List String) : drainOperators us O = Except.ok (O ++ us) := by
  induction us generalizing O with
  | nil => simp [drainOperators_nil]
  | cons u rest ih =>
    rw [drainOperators_unary (hus u (List.mem_cons_self _ _)),
      ih (fun x hx => hus x (List.mem_cons_of_mem _ hx))]
    simp

theorem infixLoop_inOrderTokens (t : Expr) (hops : t.symbolicOps)
    (hleaves : ∀ v ∈ t.leaves, printsExactly v) (rest S O : List String) :
    infixLoop (t.inOrderTokens ++ rest) S O =
      infixLoop rest (t.pendingUnary ++ S) (O ++ t.convertedCore) := by
  induction t generalizing rest S O with
  | num v =>
    have hn := (hleaves v (by simp [Expr.leaves])).2.1
    simp only [Expr.inOrderTokens, List.cons_append, List.nil_append, infixLoop_number hn,
      Expr.pendingUnary, Expr.convertedCore]
  | unary op arg ih =>
    have hu := unaryToken_isUnary hops.1
    have hl : ∀ v ∈ arg.leaves, printsExactly v :=
      fun v hv => hleaves v (by simpa [Expr.leaves] using hv)
    simp only [Expr.inOrderTokens, List.cons_append, infixLoop_unary hu, ih hops.2 hl,
      Expr.pendingUnary, Expr.convertedCore, List.append_assoc, List.nil_append]
  | binary op l r ihl ihr =>
    obtain ⟨⟨hop, -, -⟩, hl, hr⟩ := hops
    have hll : ∀ v ∈ l.leaves, printsExactly v :=
      fun v hv => hleaves v (by simp [Expr.leaves, hv])
    have hlr : ∀ v ∈ r.leaves, printsExactly v :=
      fun v hv => hleaves v (by simp [Expr.leaves, hv])
    have hpr := pendingUnary_isUnary r hr
    have hpl := pendingUnary_isUnary l hl
    have hopne : op ≠ "(" := by simpa using (binary_facts hop).2.1
    simp only [Expr.inOrderTokens, List.cons_append, List.append_assoc, infixLoop_lparen,
      ihl hl hll, infixLoop_binary hop, popOperators_pending hop _ hpl, ihr hr hlr,
      infixLoop_rparen, popToParen_through _ _ hpr hopne]
    simp [Expr.pendingUnary, Expr.convertedCore, List.append_assoc]

theorem infixToPostfix_inOrderTokens (t : Expr) (hops : t.symbolicOps)
    (hleaves : ∀ v ∈ t.leaves, printsExactly v) :
    infixToPostfix t.inOrderTokens =
      Except.ok (t.postOrderTokens (fun v => String.mk (formatDouble v))) := by
  have h := infixLoop_inOrderTokens t hops hleaves [] [] []
  simp only [List.append_nil, List.nil_append] at h
  rw [infixToPostfix, h, infixLoop_nil, drainOperators_pending _ (pendingUnary_isUnary t hops),
    postOrderTokens_eq]

theorem tokenizeLoop_space (fuel : Nat) (rest : List Char) (tokens : List String) :
    tokenizeLoop (fuel + 1) (' ' :: rest) tokens = tokenizeLoop fuel rest tokens := by
  rw [tokenizeLoop]
  simp [show isspace ' ' = true by decide]

theorem tokenizeLoop_lparen (fuel : Nat) (rest : List Char) (tokens : List String) :
    tokenizeLoop (fuel + 1) ('(' :: rest) tokens = tokenizeLoop fuel rest (tokens ++ ["("]) := by
  rw [tokenizeLoop]
  simp [show isspace '(' = false by decide, show isdigit '(' = false by decide]
  rfl

theorem tokenizeLoop_rparen (fuel : Nat) (rest : List Char) (tokens : List String) :
    tokenizeLoop (fuel + 1) (')' :: rest) tokens = tokenizeLoop fuel rest (tokens ++ [")"]) := by
  rw [tokenizeLoop]
  simp [show isspace ')' = false by decide, show isdigit ')' = false by decide]
  rfl

theorem tokenizeLoop_number (fuel : Nat) (run rest : List Char) (tokens : List String)
    (hne : run ≠ []) (hrun : ∀ c ∈ run, isdigit c = true ∨ c = '.')
    (hrest : ∀ y, rest.head? = some y → (isdigit y || y == '.') = false) :
    tokenizeLoop (fuel + 1) (run ++ rest) tokens =
      tokenizeLoop fuel rest (tokens ++ [String.mk run]) := by
  cases run with
  | nil => exact absurd rfl hne
  | cons c tl =>
    have hc := hrun c (List.mem_cons_self _ _)
    have hnum : ∀ x ∈ c :: tl, (isdigit x || x == '.') = true :=
      fun x hx => (numchar_facts (hrun x hx)).2.2.2.2.2.2.2.2.2
    have hsplit := takeWhile_append_stop (fun x => isdigit x || x == '.') (c :: tl) rest hnum hrest
    have hc1 : isspace c = false := (numchar_facts hc).1
    have hc2 : (isdigit c || c == '.') = true := hnum c (List.mem_cons_self _ _)
    rw [List.cons_append, tokenizeLoop]
    simp only [hc1, hc2, if_true, Bool.false_eq_true, if_false]
    rw [← List.cons_append, hsplit.1, hsplit.2]

theorem tokenizeLoop_tilde (fuel : Nat) (rest : List Char) (tokens : List String) :
    tokenizeLoop (fuel + 1) ('~' :: rest) tokens = tokenizeLoop fuel rest (tokens ++ ["~"]) := by
  rw [tokenizeLoop]
  have hs : isspace '~' = false := by decide
  have hd : (isdigit '~' || '~' == '.') = false := by decide
  have hp : ('~' == '(' || '~' == ')') = false := by decide
  have hm := find_multiChar_none '~' rest (by decide)
  have ho : isSingleCharOp '~' = true := by decide
  simp only [hs, hd, hp, hm, ho]
  simp
  intros
  rfl

theorem tokenizeLoop_word (fuel : Nat) (word rest : List Char) (tokens : List String)
    (hne : word ≠ []) (hhead : ∀ c, word.head? = some c → isalpha c = true)
    (hword : ∀ c ∈ word, (isalnum c || c == '_') = true)
    (hrest : ∀ y, rest.head? = some y → (isalnum y || y == '_') = false) :
    tokenizeLoop (fuel + 1) (word ++ rest) tokens =
      tokenizeLoop fuel rest
        (tokens ++ [if String.mk word == "not" then "not" else String.mk word]) := by
  cases word with
  | nil => exact absurd rfl hne
  | cons c tl =>
    have hc : isalpha c = true := hhead c rfl
    have hr : (65 ≤ c.toNat ∧ c.toNat ≤ 90) ∨ (97 ≤ c.toNat ∧ c.toNat ≤ 122) := by
      simpa [isalpha] using hc
    have hs : isspace c = false := by
      simp only [isspace, Bool.or_eq_false_iff, beq_eq_false_iff_ne, ne_eq,
        Bool.and_eq_false_iff, decide_eq_false_iff_not]
      omega
    have hd0 : isdigit c = false := by
      simp only [isdigit, Bool.and_eq_false_iff, decide_eq_false_iff_not]
      omega
    have hdot : c ≠ '.' := by rintro rfl; exact absurd hc (by decide)
    have hd : (isdigit c || c == '.') = false := by simp [hd0, hdot]
    have hp : (c == '(' || c == ')') = false := by
      have h1 : c ≠ '(' := by rintro rfl; exact absurd hc (by decide)
      have h2 : c ≠ ')' := by rintro rfl; exact absurd hc (by decide)
      simp [h1, h2]
    have hm := find_multiChar_none c (tl ++ rest) (by
      refine ⟨?_, ?_, ?_, ?_, ?_, ?_⟩ <;> (rintro rfl; exact absurd hc (by decide)))
    have ho : isSingleCharOp c = false := by
      have : ∀ x : Char, isSingleCharOp x = true → isalpha x = false := by
        intro x hx
        simp only [isSingleCharOp, Bool.or_eq_true, beq_iff_eq] at hx
        rcases hx with ((((((((((((h | h) | h) | h) | h) | h) | h) | h) | h) | h) | h) | h) | h) <;>
          subst h <;> decide
      cases h : isSingleCharOp c
      · rfl
      · have := this c h
        rw [hc] at this
        exact absurd this (by decide)
    have hsplit := takeWhile_append_stop (fun x => isalnum x || x == '_') (c :: tl) rest hword
      hrest
    rw [List.cons_append, tokenizeLoop]
    simp only [hs, hd, hp, hm, ho, hc, if_true, Bool.false_eq_true, if_false]
    rw [← List.cons_append, hsplit.1, hsplit.2]

theorem tokenizeLoop_multiChar (fuel : Nat) (rest : List Char) (tokens : List String)
    (op : String) (hop : op ∈ multiCharOps) :
    tokenizeLoop (fuel + 1) (op.data ++ rest) tokens = tokenizeLoop fuel rest (tokens ++ [op]) := by
  simp only [multiCharOps, List.mem_cons, List.mem_singleton, List.mem_nil_iff, or_false] at hop
  have e1 : "==".data = ['=', '='] := rfl
  have e2 : "!=".data = ['!', '='] := rfl
  have e3 : "<=".data = ['<', '='] := rfl
  have e4 : ">=".data = ['>', '='] := rfl
  have e5 : "&&".data = ['&', '&'] := rfl
  have e6 : "||".data = ['|', '|'] := rfl
  have e7 : "<<".data = ['<', '<'] := rfl
  have e8 : ">>".data = ['>', '>'] := rfl
  rcases hop with h | h | h | h | h | h | h | h <;> subst h <;>
    simp only [e1, e2, e3, e4, e5, e6, e7, e8, List.cons_append, List.nil_append] <;>
    rw [tokenizeLoop] <;>
    simp [multiCharOps, List.find?, List.isPrefixOf, isspace, isdigit, e1, e2, e3, e4, e5,
      e6, e7, e8] <;>
    rfl

theorem tokenizeLoop_single_space (fuel : Nat) (c : Char) (rest : List Char)
    (tokens : List String) (hc : c ∈ ['*', '/', '%', '^', '<', '>', '&', '|']) :
    tokenizeLoop (fuel + 1) (c :: ' ' :: rest) tokens =
      tokenizeLoop fuel (' ' :: rest) (tokens ++ [String.singleton c]) := by
  have e1 : "==".data = ['=', '='] := rfl
  have e2 : "!=".data = ['!', '='] := rfl
  have e3 : "<=".data = ['<', '='] := rfl
  have e4 : ">=".data = ['>', '='] := rfl
  have e5 : "&&".data = ['&', '&'] := rfl
  have e6 : "||".data = ['|', '|'] := rfl
  have e7 : "<<".data = ['<', '<'] := rfl
  have e8 : ">>".data = ['>', '>'] := rfl
  simp only [List.mem_cons, List.mem_singleton, List.mem_nil_iff, or_false] at hc
  rcases hc with h | h | h | h | h | h | h | h <;> subst h <;>
    rw [tokenizeLoop] <;>
    simp [multiCharOps, List.find?, List.isPrefixOf, isspace, isdigit, isSingleCharOp, e1, e2,
      e3, e4, e5, e6, e7, e8]

theorem not_unaryPosition_bool {tokens : List String} (h : ¬ unaryPosition tokens) :
    (tokens.isEmpty || tokens.getLast? == some "(" || (tokens.getLast?.any isOperator)) = false := by
  cases hb : (tokens.isEmpty || tokens.getLast? == some "(" || (tokens.getLast?.any isOperator))
  · rfl
  · exact absurd ((unaryPosition_iff tokens).1 hb) h

theorem tokenizeLoop_binaryPiece (fuel : Nat) (op : String) (rest : List Char)
    (tokens : List String) (hop : isBinaryOperator op = true) (hand : op ≠ "and")
    (hor : op ≠ "or") (hpos : ¬ unaryPosition tokens) :
    tokenizeLoop (fuel + 3) (' ' :: (op.data ++ ' ' :: rest)) tokens =
      tokenizeLoop fuel rest (tokens ++ [op]) := by
  have hb := not_unaryPosition_bool hpos
  have hc := binary_cases hop
  simp only [List.mem_cons, List.mem_singleton, List.mem_nil_iff, or_false] at hc
  rw [tokenizeLoop_space]
  rcases hc with h | h | h | h | h | h | h | h | h | h | h | h | h | h | h | h | h | h |
    h | h | h
  · subst h
    show tokenizeLoop (fuel + 1 + 1) ('+' :: ' ' :: rest) tokens = _
    rw [tokenizeLoop_plus, hb]
    simp [tokenizeLoop_space]
  · subst h
    show tokenizeLoop (fuel + 1 + 1) ('-' :: ' ' :: rest) tokens = _
    rw [tokenizeLoop_minus, hb]
    simp [tokenizeLoop_space]
  · subst h
    show tokenizeLoop (fuel + 1 + 1) ('*' :: ' ' :: rest) tokens = _
    rw [tokenizeLoop_single_space _ _ _ _ (by decide), tokenizeLoop_space]; rfl
  · subst h
    show tokenizeLoop (fuel + 1 + 1) ('/' :: ' ' :: rest) tokens = _
    rw [tokenizeLoop_single_space _ _ _ _ (by decide), tokenizeLoop_space]; rfl
  · subst h
    show tokenizeLoop (fuel + 1 + 1) ('%' :: ' ' :: rest) tokens = _
    rw [tokenizeLoop_single_space _ _ _ _ (by decide), tokenizeLoop_space]; rfl
  · subst h
    show tokenizeLoop (fuel + 1 + 1) ('^' :: ' ' :: rest) tokens = _
    rw [tokenizeLoop_single_space _ _ _ _ (by decide), tokenizeLoop_space]; rfl
  · subst h
    show tokenizeLoop (fuel + 1 + 1) ("==".data ++ ' ' :: rest) tokens = _
    rw [tokenizeLoop_multiChar _ _ _ _ (by decide), tokenizeLoop_space]
  · subst h
    show tokenizeLoop (fuel + 1 + 1) ("!=".data ++ ' ' :: rest) tokens = _
    rw [tokenizeLoop_multiChar _ _ _ _ (by decide), tokenizeLoop_space]
  · subst h
    show tokenizeLoop (fuel + 1 + 1) ('<' :: ' ' :: rest) tokens = _
    rw [tokenizeLoop_single_space _ _ _ _ (by decide), tokenizeLoop_space]; rfl
  · subst h
    show tokenizeLoop (fuel + 1 + 1) ('>' :: ' ' :: rest) tokens = _
    rw [tokenizeLoop_single_space _ _ _ _ (by decide), tokenizeLoop_space]; rfl
  · subst h
    show tokenizeLoop (fuel + 1 + 1) ("<=".data ++ ' ' :: rest) tokens = _
    rw [tokenizeLoop_multiChar _ _ _ _ (by decide), tokenizeLoop_space]
  · subst h
    show tokenizeLoop (fuel + 1 + 1) (">=".data ++ ' ' :: rest) tokens = _
    rw [tokenizeLoop_multiChar _ _ _ _ (by decide), tokenizeLoop_space]
  · subst h
    show tokenizeLoop (fuel + 1 + 1) ("&&".data ++ ' ' :: rest) tokens = _
    rw [tokenizeLoop_multiChar _ _ _ _ (by decide), tokenizeLoop_space]
  · subst h
    show tokenizeLoop (fuel + 1 + 1) ("||".data ++ ' ' :: rest) tokens = _
    rw [tokenizeLoop_multiChar _ _ _ _ (by decide), tokenizeLoop_space]
  · subst h
    show tokenizeLoop (fuel + 1 + 1) ('&' :: ' ' :: rest) tokens = _
    rw [tokenizeLoop_single_space _ _ _ _ (by decide), tokenizeLoop_space]; rfl
  · subst h
    show tokenizeLoop (fuel + 1 + 1) ('|' :: ' ' :: rest) tokens = _
    rw [tokenizeLoop_single_space _ _ _ _ (by decide), tokenizeLoop_space]; rfl
  · subst h
    show tokenizeLoop (fuel + 1 + 1) ("xor".data ++ ' ' :: rest) tokens = _
    rw [tokenizeLoop_word _ _ _ _ (by decide) (by decide) (by decide)
      (by intro y hy; simp only [List.head?_cons, Option.some.injEq] at hy; subst hy; decide),
      tokenizeLoop_space]
    rfl
  · subst h
    show tokenizeLoop (fuel + 1 + 1) ("<<".data ++ ' ' :: rest) tokens = _
    rw [tokenizeLoop_multiChar _ _ _ _ (by decide), tokenizeLoop_space]
  · subst h
    show tokenizeLoop (fuel + 1 + 1) (">>".data ++ ' ' :: rest) tokens = _
    rw [tokenizeLoop_multiChar _ _ _ _ (by decide), tokenizeLoop_space]
  · exact absurd h hand
  · exact absurd h hor

theorem tokenizeLoop_unaryPiece (fuel : Nat) (op : String) (rest : List Char)
    (tokens : List String) (hop : op = "-" ∨ op = "~" ∨ op = "not")
    (hpos : unaryPosition tokens) :
    tokenizeLoop (fuel + 3) (' ' :: (op.data ++ ' ' :: rest)) tokens =
      tokenizeLoop fuel rest (tokens ++ [unaryToken op]) := by
  have hb := (unaryPosition_iff tokens).2 hpos
  rw [tokenizeLoop_space]
  rcases hop with h | h | h
  · subst h
    show tokenizeLoop (fuel + 1 + 1) ('-' :: ' ' :: rest) tokens = _
    rw [tokenizeLoop_minus, hb]
    simp [tokenizeLoop_space]
    rfl
  · subst h
    show tokenizeLoop (fuel + 1 + 1) ('~' :: ' ' :: rest) tokens = _
    rw [tokenizeLoop_tilde, tokenizeLoop_space]
    rfl
  · subst h
    show tokenizeLoop (fuel + 1 + 1) ("not".data ++ ' ' :: rest) tokens = _
    rw [tokenizeLoop_word _ _ _ _ (by decide) (by decide) (by decide)
      (by intro y hy; simp only [List.head?_cons, Option.some.injEq] at hy; subst hy; decide),
      tokenizeLoop_space]
    rfl

theorem number_not_operator {s : String} (h : isNumber s = true) :
    s ≠ "(" ∧ isOperator s = false := by
  constructor
  · rintro rfl; exact absurd h (by decide)
  · cases ho : isOperator s
    · rfl
    · have hc := operator_cases ho
      simp only [operators, List.mem_cons, List.mem_singleton, List.mem_nil_iff, or_false] at hc
      rcases hc with h1 | h1 | h1 | h1 | h1 | h1 | h1 | h1 | h1 | h1 | h1 | h1 | h1 | h1 | h1 |
        h1 | h1 | h1 | h1 | h1 | h1 | h1 | h1 | h1 <;> subst h1 <;> exact absurd h (by decide)

theorem unaryPosition_snoc (tokens : List String) (x : String) :
    unaryPosition (tokens ++ [x]) ↔ (x = "(" ∨ isOperator x = true) := by
  unfold unaryPosition
  simp [List.getLast?_concat]

theorem binary_isOperator {op : String} (h : isBinaryOperator op = true) :
    isOperator op = true := (binary_facts h).2.2.2.1

theorem unaryToken_isOperator {op : String} (h : op = "-" ∨ op = "~" ∨ op = "not") :
    isOperator (unaryToken op) = true := by
  rcases h with h | h | h <;> subst h <;> decide

theorem tokenizeLoop_inOrderText (t : Expr) (hops : t.symbolicOps)
    (hleaves : ∀ v ∈ t.leaves, printsExactly v) (rest : List Char)
    (hrest : ∀ y, rest.head? = some y → (isdigit y || y == '.') = false)
    (tokens : List String) (hpos : unaryPosition tokens) (fuel : Nat) :
    tokenizeLoop (t.scanCost + fuel) (t.inOrderText ++ rest) tokens =
        tokenizeLoop fuel rest (tokens ++ t.inOrderTokens) ∧
      ¬ unaryPosition (tokens ++ t.inOrderTokens) := by
  induction t generalizing rest tokens fuel with
  | num v =>
    obtain ⟨h1, h2, -⟩ := hleaves v (by simp [Expr.leaves])
    have hne : formatDouble v ≠ [] := by
      intro e
      rw [e] at h2
      exact absurd h2 (by decide)
    constructor
    · have e : (Expr.num v).scanCost + fuel = fuel + 1 := by simp [Expr.scanCost]; omega
      rw [e]
      exact tokenizeLoop_number fuel _ rest tokens hne h1 hrest
    · rw [Expr.inOrderTokens, unaryPosition_snoc]
      have := number_not_operator h2
      simp [this.1, this.2]
  | unary op arg ih =>
    obtain ⟨hop, harg⟩ := hops
    have hl : ∀ v ∈ arg.leaves, printsExactly v :=
      fun v hv => hleaves v (by simpa [Expr.leaves] using hv)
    have e : (Expr.unary op arg).scanCost + fuel = (arg.scanCost + fuel) + 3 := by
      simp [Expr.scanCost]; omega
    have hpos1 : unaryPosition (tokens ++ [unaryToken op]) :=
      (unaryPosition_snoc _ _).2 (Or.inr (unaryToken_isOperator hop))
    have := ih harg hl rest hrest (tokens ++ [unaryToken op]) hpos1 fuel
    simp only [Expr.inOrderText, Expr.inOrderTokens, List.cons_append, List.append_assoc, e,
      tokenizeLoop_unaryPiece _ _ _ _ hop hpos]
    simpa [List.append_assoc] using this
  | binary op l r ihl ihr =>
    obtain ⟨⟨hop, hand, hor⟩, hl, hr⟩ := hops
    have hll : ∀ v ∈ l.leaves, printsExactly v :=
      fun v hv => hleaves v (by simp [Expr.leaves, hv])
    have hlr : ∀ v ∈ r.leaves, printsExactly v :=
      fun v hv => hleaves v (by simp [Expr.leaves, hv])
    have e : (Expr.binary op l r).scanCost + fuel =
        (l.scanCost + ((r.scanCost + (fuel + 1)) + 3)) + 1 := by
      simp [Expr.scanCost]; omega
    have hp0 : unaryPosition (tokens ++ ["("]) := (unaryPosition_snoc _ _).2 (Or.inl rfl)
    have hspace : ∀ (tl : List Char) (y : Char), (' ' :: tl).head? = some y →
        (isdigit y || y == '.') = false := by
      intro tl y hy
      simp only [List.head?_cons, Option.some.injEq] at hy
      subst hy; decide
    have hclose : ∀ (tl : List Char) (y : Char), (')' :: tl).head? = some y →
        (isdigit y || y == '.') = false := by
      intro tl y hy
      simp only [List.head?_cons, Option.some.injEq] at hy
      subst hy; decide
    obtain ⟨hL1, hL2⟩ := ihl hl hll (' ' :: (op.data ++ ' ' :: (r.inOrderText ++ ')' :: rest)))
      (hspace _) (tokens ++ ["("]) hp0 ((r.scanCost + (fuel + 1)) + 3)
    have hp1 : unaryPosition (tokens ++ ["("] ++ l.inOrderTokens ++ [op]) :=
      (unaryPosition_snoc _ _).2 (Or.inr (binary_isOperator hop))
    obtain ⟨hR1, hR2⟩ := ihr hr hlr (')' :: rest) (hclose _)
      (tokens ++ ["("] ++ l.inOrderTokens ++ [op]) hp1 (fuel + 1)
    constructor
    · simp only [Expr.inOrderText, List.cons_append, List.append_assoc, e, tokenizeLoop_lparen,
        List.nil_append]
      simp only [List.append_assoc, List.cons_append, List.nil_append] at hL1 hR1
      rw [hL1, tokenizeLoop_binaryPiece _ _ _ _ hop hand hor
        (by simpa [List.append_assoc] using hL2)]
      simp only [List.append_assoc, List.cons_append, List.nil_append]
      rw [hR1, tokenizeLoop_rparen]
      simp [Expr.inOrderTokens, List.append_assoc]
    · have : tokens ++ (Expr.binary op l r).inOrderTokens =
          (tokens ++ "(" :: (l.inOrderTokens ++ op :: r.inOrderTokens)) ++ [")"] := by
        simp [Expr.inOrderTokens, List.append_assoc]
      rw [this, unaryPosition_snoc]
      simp
      decide

theorem regexReplace_or_id (rep : List Char) (s : List Char) (prev : Option Char)
    (h : orSafe prev s = true) : regexReplaceWord ['o', 'r'] rep 0 prev s = s := by
  induction s generalizing prev with
  | nil => rfl
  | cons c rest ih =>
    simp only [orSafe, Bool.and_eq_true, Bool.or_eq_true, bne_iff_ne, ne_eq] at h
    rw [regexReplaceWord, ih _ h.2]
    rcases h.1 with hc | hp
    · have : ('o' == c) = false := beq_eq_false_iff_ne.2 (fun e => hc e.symm)
      simp [List.isPrefixOf, this]
    · simp [hp]

theorem orSafe_append_plain (xs ys : List Char) (prev : Option Char)
    (hxs : ∀ c ∈ xs, c ≠ 'o') (hys : ∀ p, orSafe p ys = true) :
    orSafe prev (xs ++ ys) = true := by
  induction xs generalizing prev with
  | nil => exact hys prev
  | cons c rest ih =>
    have hc := hxs c (List.mem_cons_self _ _)
    simp [orSafe, hc, ih _ (fun x hx => hxs x (List.mem_cons_of_mem _ hx))]

theorem orSafe_binaryPiece {op : String} (hop : isBinaryOperator op = true) (hor : op ≠ "or")
    (rest : List Char) (prev : Option Char) (hrest : ∀ p, orSafe p rest = true) :
    orSafe prev (' ' :: (op.data ++ ' ' :: rest)) = true := by
  have hc := binary_cases hop
  simp only [List.mem_cons, List.mem_singleton, List.mem_nil_iff, or_false] at hc
  rcases hc with h | h | h | h | h | h | h | h | h | h | h | h | h | h | h | h | h | h |
    h | h | h
  all_goals first
    | exact absurd h hor
    | (subst h
       show orSafe prev (' ' :: (_ ++ ' ' :: rest)) = true
       simp [orSafe, hrest, isWordChar, isalnum, isalpha, isdigit])

theorem orSafe_unaryPiece {op : String} (hop : op = "-" ∨ op = "~" ∨ op = "not")
    (rest : List Char) (prev : Option Char) (hrest : ∀ p, orSafe p rest = true) :
    orSafe prev (' ' :: (op.data ++ ' ' :: rest)) = true := by
  rcases hop with h | h | h <;> subst h <;>
    (show orSafe prev (' ' :: (_ ++ ' ' :: rest)) = true) <;>
    simp [orSafe, hrest, isWordChar, isalnum, isalpha, isdigit]

theorem numchar_plain {c : Char} (h : isdigit c = true ∨ c = '.') : c ≠ 'o' ∧ c ≠ 'a' := by
  obtain ⟨-, -, -, -, -, -, -, h8, h9, -⟩ := numchar_facts h
  exact ⟨h9, h8⟩

theorem orSafe_inOrderText (t : Expr) (hops : t.symbolicOps)
    (hleaves : ∀ v ∈ t.leaves, printsExactly v) (rest : List Char) (prev : Option Char)
    (hrest : ∀ p, orSafe p rest = true) : orSafe prev (t.inOrderText ++ rest) = true := by
  induction t generalizing rest prev with
  | num v =>
    obtain ⟨h1, -, -⟩ := hleaves v (by simp [Expr.leaves])
    exact orSafe_append_plain _ _ _ (fun c hc => (numchar_plain (h1 c hc)).1) hrest
  | unary op arg ih =>
    have hl : ∀ v ∈ arg.leaves, printsExactly v :=
      fun v hv => hleaves v (by simpa [Expr.leaves] using hv)
    simp only [Expr.inOrderText, List.cons_append, List.append_assoc]
    exact orSafe_unaryPiece hops.1 _ _ (fun p => ih hops.2 hl rest p hrest)
  | binary op l r ihl ihr =>
    obtain ⟨⟨hop, -, hor⟩, hl, hr⟩ := hops
    have hll : ∀ v ∈ l.leaves, printsExactly v :=
      fun v hv => hleaves v (by simp [Expr.leaves, hv])
    have hlr : ∀ v ∈ r.leaves, printsExactly v :=
      fun v hv => hleaves v (by simp [Expr.leaves, hv])
    have hclose : ∀ p, orSafe p (')' :: rest) = true := by
      intro p; simp [orSafe, hrest]
    have hright : ∀ p, orSafe p (r.inOrderText ++ ')' :: rest) = true :=
      fun p => ihr hr hlr _ p hclose
    have hmid : ∀ p, orSafe p (' ' :: (op.data ++ ' ' :: (r.inOrderText ++ ')' :: rest))) = true :=
      fun p => orSafe_binaryPiece hop hor _ p hright
    have hleft := ihl hl hll _ (some '(') hmid
    simp only [Expr.inOrderText, List.cons_append, List.append_assoc, List.nil_append]
    simp only [orSafe, Bool.and_eq_true]
    exact ⟨by simp, hleft⟩

theorem binary_no_a {op : String} (hop : isBinaryOperator op = true) (hand : op ≠ "and") :
    ∀ c ∈ op.data, c ≠ 'a' := by
  have hc := binary_cases hop
  simp only [List.mem_cons, List.mem_singleton, List.mem_nil_iff, or_false] at hc
  rcases hc with h | h | h | h | h | h | h | h | h | h | h | h | h | h | h | h | h | h |
    h | h | h
  all_goals first
    | exact absurd h hand
    | (subst h; decide)

theorem unary_no_a {op : String} (hop : op = "-" ∨ op = "~" ∨ op = "not") :
    ∀ c ∈ op.data, c ≠ 'a' := by
  rcases hop with h | h | h <;> subst h <;> decide

theorem inOrderText_no_a (t : Expr) (hops : t.symbolicOps)
    (hleaves : ∀ v ∈ t.leaves, printsExactly v) : ∀ c ∈ t.inOrderText, c ≠ 'a' := by
  induction t with
  | num v =>
    obtain ⟨h1, -, -⟩ := hleaves v (by simp [Expr.leaves])
    exact fun c hc => (numchar_plain (h1 c hc)).2
  | unary op arg ih =>
    have hl : ∀ v ∈ arg.leaves, printsExactly v :=
      fun v hv => hleaves v (by simpa [Expr.leaves] using hv)
    intro c hc
    simp only [Expr.inOrderText, List.mem_cons, List.mem_append] at hc
    rcases hc with h | h | h | h
    · subst h; decide
    · exact unary_no_a hops.1 c h
    · subst h; decide
    · exact ih hops.2 hl c h
  | binary op l r ihl ihr =>
    obtain ⟨⟨hop, hand, -⟩, hl, hr⟩ := hops
    have hll : ∀ v ∈ l.leaves, printsExactly v :=
      fun v hv => hleaves v (by simp [Expr.leaves, hv])
    have hlr : ∀ v ∈ r.leaves, printsExactly v :=
      fun v hv => hleaves v (by simp [Expr.leaves, hv])
    intro c hc
    simp only [Expr.inOrderText, List.mem_cons, List.mem_append, List.mem_singleton,
      List.mem_nil_iff, or_false] at hc
    rcases hc with h | h | h | h | h | h | h
    · subst h; decide
    · exact ihl hl hll c h
    · subst h; decide
    · exact binary_no_a hop hand c h
    · subst h; decide
    · exact ihr hr hlr c h
    · subst h; decide

theorem replaceKeywords_inOrderText (t : Expr) (hops : t.symbolicOps)
    (hleaves : ∀ v ∈ t.leaves, printsExactly v) :
    replaceKeywords t.inOrderText = t.inOrderText := by
  unfold replaceKeywords
  rw [regexReplaceWord_id 'a' _ _ _ none (inOrderText_no_a t hops hleaves)]
  have h := orSafe_inOrderText t hops hleaves [] none (fun _ => rfl)
  rw [List.append_nil] at h
  exact regexReplace_or_id _ _ _ h

theorem binary_data_ne_nil {op : String} (hop : isBinaryOperator op = true) :
    1 ≤ op.data.length := by
  have hc := binary_cases hop
  simp only [List.mem_cons, List.mem_singleton, List.mem_nil_iff, or_false] at hc
  rcases hc with h | h | h | h | h | h | h | h | h | h | h | h | h | h | h | h | h | h |
    h | h | h <;> subst h <;> decide

theorem scanCost_le (t : Expr) (hops : t.symbolicOps)
    (hleaves : ∀ v ∈ t.leaves, printsExactly v) : t.scanCost ≤ t.inOrderText.length := by
  induction t with
  | num v =>
    obtain ⟨-, h2, -⟩ := hleaves v (by simp [Expr.leaves])
    have hne : formatDouble v ≠ [] := by
      intro e; rw [e] at h2; exact absurd h2 (by decide)
    have : 0 < (formatDouble v).length := List.length_pos.2 hne
    simp only [Expr.scanCost, Expr.inOrderText]
    omega
  | unary op arg ih =>
    have hl : ∀ v ∈ arg.leaves, printsExactly v :=
      fun v hv => hleaves v (by simpa [Expr.leaves] using hv)
    have h1 : 1 ≤ op.data.length := by
      rcases hops.1 with h | h | h <;> subst h <;> decide
    have := ih hops.2 hl
    simp only [Expr.scanCost, Expr.inOrderText, List.length_cons, List.length_append]
    omega
  | binary op l r ihl ihr =>
    obtain ⟨⟨hop, -, -⟩, hl, hr⟩ := hops
    have hll : ∀ v ∈ l.leaves, printsExactly v :=
      fun v hv => hleaves v (by simp [Expr.leaves, hv])
    have hlr : ∀ v ∈ r.leaves, printsExactly v :=
      fun v hv => hleaves v (by simp [Expr.leaves, hv])
    have h1 := binary_data_ne_nil hop
    have := ihl hl hll
    have := ihr hr hlr
    simp only [Expr.scanCost, Expr.inOrderText, List.length_cons, List.length_append,
      List.length_nil]
    omega

theorem tokenize_inOrderText (t : Expr) (hops : t.symbolicOps)
    (hleaves : ∀ v ∈ t.leaves, printsExactly v) (s : String) (hs : s.data = t.inOrderText) :
    tokenize s = t.inOrderTokens := by
  unfold tokenize
  rw [hs]
  simp only [replaceKeywords_inOrderText t hops hleaves]
  have hle := scanCost_le t hops hleaves
  have e : t.inOrderText.length = t.scanCost + (t.inOrderText.length - t.scanCost) := by omega
  have h := (tokenizeLoop_inOrderText t hops hleaves [] (by simp) [] (Or.inl rfl)
    (t.inOrderText.length - t.scanCost)).1
  rw [List.append_nil, List.nil_append] at h
  rw [e, h, tokenizeLoop_nil]

theorem symbolicOps_knownOps (t : Expr) (h : t.symbolicOps) : t.knownOps := by
  induction t with
  | num v => trivial
  | unary op arg ih => exact ⟨h.1, ih h.2⟩
  | binary op l r ihl ihr => exact ⟨h.1.1, ihl h.2.1, ihr h.2.2⟩

/-- Parsing the in-order text of an expression gives the expression back. -/
theorem buildExpressionTree_inOrder (t : Expr) (hops : t.symbolicOps)
    (hleaves : ∀ v ∈ t.leaves, printsExactly v) :
    buildExpressionTree (ExpressionTree.mk t.toNode).inOrderTraversal =
      Except.ok (ExpressionTree.mk t.toNode) := by
  have htok := tokenize_inOrderText t hops hleaves
    (ExpressionTree.mk t.toNode).inOrderTraversal (inOrderHelper_toNode t)
  have hconv := infixToPostfix_inOrderTokens t hops hleaves
  have hbuild := buildLoop_postOrder (fun v => String.mk (formatDouble v)) t
    (symbolicOps_knownOps t hops) (fun v hv => (hleaves v hv).2) [] []
  rw [List.append_nil] at hbuild
  unfold buildExpressionTree
  rw [htok, hconv]
  simp [buildTreeFromPostfix, hbuild, buildLoop_nil]

theorem operands_toNode (t : Expr) : t.toNode.operands = t.leaves := by
  induction t with
  | num v => simp [Expr.toNode, Node.operand, NodePtr.operands, Expr.leaves]
  | unary op arg ih =>
    simp [Expr.toNode, Node.unaryOp, NodePtr.operands, Expr.leaves, ih]
  | binary op l r ihl ihr =>
    simp [Expr.toNode, Node.binaryOp, NodePtr.operands, Expr.leaves, ihl, ihr]

theorem buildStep_expr (token : String) (st st1 : List NodePtr)
    (hst : ∀ n ∈ st, ∃ t : Expr, n = t.toNode ∧ t.knownOps)
    (h : buildStep token st = Except.ok st1) :
    ∀ n ∈ st1, ∃ t : Expr, n = t.toNode ∧ t.knownOps := by
  unfold buildStep at h
  by_cases h1 : isNumber token = true
  · simp only [h1, if_true, Except.ok.injEq] at h
    subst h
    intro n hn
    rcases List.mem_cons.1 hn with e | e
    · exact ⟨Expr.num (literalValue token), by rw [e]; rfl, trivial⟩
    · exact hst n e
  · replace h1 : isNumber token = false := by simpa using h1
    by_cases h2 : isUnaryOperator token = true
    · simp only [h1, h2, if_true, Bool.false_eq_true, if_false] at h
      cases st with
      | nil => simp at h
      | cons right below =>
        simp only [Except.ok.injEq] at h
        subst h
        intro n hn
        rcases List.mem_cons.1 hn with e | e
        · obtain ⟨t, ht, hk⟩ := hst right (List.mem_cons_self _ _)
          refine ⟨Expr.unary (if token == "u-" then "-" else token) t, ?_, ?_, hk⟩
          · rw [e, ht]; rfl
          · rcases unary_cases h2 with h | h | h <;> subst h <;> decide
        · exact hst n (List.mem_cons_of_mem _ e)
    · replace h2 : isUnaryOperator token = false := by simpa using h2
      by_cases h3 : isOperator token = true
      · simp only [h1, h2, h3, if_true, Bool.false_eq_true, if_false] at h
        match st, hst, h with
        | [], _, h => simp at h
        | [x], _, h => simp at h
        | right :: left :: below, hst, h =>
          simp only [Except.ok.injEq] at h
          subst h
          intro n hn
          rcases List.mem_cons.1 hn with e | e
          · obtain ⟨tr, htr, hkr⟩ := hst right (List.mem_cons_self _ _)
            obtain ⟨tl, htl, hkl⟩ := hst left (List.mem_cons_of_mem _ (List.mem_cons_self _ _))
            refine ⟨Expr.binary token tl tr, ?_, ?_, hkl, hkr⟩
            · rw [e, htr, htl]; rfl
            · simp [isBinaryOperator, h3, h2]
          · exact hst n (List.mem_cons_of_mem _ (List.mem_cons_of_mem _ e))
      · replace h3 : isOperator token = false := by simpa using h3
        simp only [h1, h2, h3, Bool.false_eq_true, if_false, Except.ok.injEq] at h
        subst h
        exact hst

theorem buildLoop_expr (tokens : List String) (st st1 : List NodePtr)
    (hst : ∀ n ∈ st, ∃ t : Expr, n = t.toNode ∧ t.knownOps)
    (h : buildLoop tokens st = Except.ok st1) :
    ∀ n ∈ st1, ∃ t : Expr, n = t.toNode ∧ t.knownOps := by
  induction tokens generalizing st with
  | nil =>
    simp only [buildLoop, Except.ok.injEq] at h
    subst h
    exact hst
  | cons token rest ih =>
    rw [buildLoop] at h
    cases hs : buildStep token st with
    | error e => simp [hs] at h
    | ok st2 =>
      simp only [hs] at h
      exact ih st2 (buildStep_expr token st st2 hst hs) h

/-- Every tree that `buildExpressionTree` returns is made of the three node
constructors, with known operators. -/
theorem buildExpressionTree_expr (expression : String) (tree : ExpressionTree)
    (h : buildExpressionTree expression = Except.ok tree) :
    ∃ t : Expr, tree = ExpressionTree.mk t.toNode ∧ t.knownOps := by
  unfold buildExpressionTree at h
  cases hp : infixToPostfix (tokenize expression) with
  | error e => simp [hp] at h
  | ok pf =>
    simp only [hp] at h
    cases hb : buildTreeFromPostfix pf with
    | error e => simp [hb] at h
    | ok root =>
      simp only [hb, Except.ok.injEq] at h
      subst h
      unfold buildTreeFromPostfix at hb
      cases hl : buildLoop pf [] with
      | error e => simp [hl] at hb
      | ok st =>
        rw [hl] at hb
        have hw := buildLoop_expr pf [] st (by simp) hl
        match st, hb, hw with
        | [], hb, _ => simp at hb
        | [r], hb, hw =>
          simp only [Except.ok.injEq] at hb
          subst hb
          obtain ⟨t, ht, hk⟩ := hw _ (List.mem_cons_self _ _)
          exact ⟨t, by rw [ht], hk⟩
        | x :: y :: r, hb, _ => simp at hb

theorem regexReplaceWord_plain (w0 : Char) (w rep : List Char) (xs rest rest1 : List Char)
    (prev : Option Char) (hxs : ∀ c ∈ xs, c ≠ w0)
    (hrest : ∀ p, regexReplaceWord (w0 :: w) rep 0 p rest = rest1) :
    regexReplaceWord (w0 :: w) rep 0 prev (xs ++ rest) = xs ++ rest1 := by
  induction xs generalizing prev with
  | nil => exact hrest prev
  | cons c tl ih =>
    have hc : (w0 == c) = false :=
      beq_eq_false_iff_ne.2 (fun e => hxs c (List.mem_cons_self _ _) e.symm)
    rw [List.cons_append, regexReplaceWord]
    simp [List.isPrefixOf, hc, ih _ (fun z hz => hxs z (List.mem_cons_of_mem _ hz))]

theorem and_pass_binaryPiece {op : String} (hop : isBinaryOperator op = true)
    (rest rest1 : List Char) (prev : Option Char)
    (hrest : ∀ p, regexReplaceWord ['a', 'n', 'd'] ['&', '&'] 0 p rest = rest1) :
    regexReplaceWord ['a', 'n', 'd'] ['&', '&'] 0 prev (' ' :: (op.data ++ ' ' :: rest)) =
      ' ' :: ((andSymbol op).data ++ ' ' :: rest1) := by
  have hc := binary_cases hop
  simp only [List.mem_cons, List.mem_singleton, List.mem_nil_iff, or_false] at hc
  rcases hc with h | h | h | h | h | h | h | h | h | h | h | h | h | h | h | h | h | h |
    h | h | h <;> subst h <;>
    (show regexReplaceWord ['a', 'n', 'd'] ['&', '&'] 0 prev (' ' :: (_ ++ ' ' :: rest)) =
      ' ' :: (_ ++ ' ' :: rest1)) <;>
    simp [regexReplaceWord, List.isPrefixOf, hrest, andSymbol, isWordChar, isalnum, isalpha,
      isdigit]

theorem or_pass_binaryPiece {op : String} (hop : isBinaryOperator op = true)
    (rest rest1 : List Char) (prev : Option Char)
    (hrest : ∀ p, regexReplaceWord ['o', 'r'] ['|', '|'] 0 p rest = rest1) :
    regexReplaceWord ['o', 'r'] ['|', '|'] 0 prev (' ' :: ((andSymbol op).data ++ ' ' :: rest)) =
      ' ' :: ((symbolOf op).data ++ ' ' :: rest1) := by
  have hc := binary_cases hop
  simp only [List.mem_cons, List.mem_singleton, List.mem_nil_iff, or_false] at hc
  rcases hc with h | h | h | h | h | h | h | h | h | h | h | h | h | h | h | h | h | h |
    h | h | h <;> subst h <;>
    (show regexReplaceWord ['o', 'r'] ['|', '|'] 0 prev (' ' :: (_ ++ ' ' :: rest)) =
      ' ' :: (_ ++ ' ' :: rest1)) <;>
    simp [regexReplaceWord, List.isPrefixOf, hrest, andSymbol, symbolOf, isWordChar, isalnum,
      isalpha, isdigit]

theorem pass_unaryPiece (w0 : Char) (w rep : List Char)
    (hw : (w0 = 'a' ∧ w = ['n', 'd']) ∨ (w0 = 'o' ∧ w = ['r'])) {op : String}
    (hop : op = "-" ∨ op = "~" ∨ op = "not") (rest rest1 : List Char) (prev : Option Char)
    (hrest : ∀ p, regexReplaceWord (w0 :: w) rep 0 p rest = rest1) :
    regexReplaceWord (w0 :: w) rep 0 prev (' ' :: (op.data ++ ' ' :: rest)) =
      ' ' :: (op.data ++ ' ' :: rest1) := by
  rcases hw with ⟨h1, h2⟩ | ⟨h1, h2⟩ <;> subst h1 <;> subst h2 <;>
    rcases hop with h | h | h <;> subst h <;>
    (show regexReplaceWord _ rep 0 prev (' ' :: (_ ++ ' ' :: rest)) =
      ' ' :: (_ ++ ' ' :: rest1)) <;>
    simp [regexReplaceWord, List.isPrefixOf, hrest]

theorem paren_plain : ∀ c ∈ ['('], c ≠ 'a' ∧ c ≠ 'o' := by decide

theorem and_pass_inOrderText (t : Expr) (hops : t.knownOps)
    (hleaves : ∀ v ∈ t.leaves, printsExactly v) (rest rest1 : List Char) (prev : Option Char)
    (hrest : ∀ p, regexReplaceWord ['a', 'n', 'd'] ['&', '&'] 0 p rest = rest1) :
    regexReplaceWord ['a', 'n', 'd'] ['&', '&'] 0 prev (t.inOrderText ++ rest) =
      (t.mapBinary andSymbol).inOrderText ++ rest1 := by
  induction t generalizing rest rest1 prev with
  | num v =>
    obtain ⟨h1, -, -⟩ := hleaves v (by simp [Expr.leaves])
    exact regexReplaceWord_plain _ _ _ _ _ _ _ (fun c hc => (numchar_plain (h1 c hc)).2) hrest
  | unary op arg ih =>
    have hl : ∀ v ∈ arg.leaves, printsExactly v :=
      fun v hv => hleaves v (by simpa [Expr.leaves] using hv)
    simp only [Expr.inOrderText, Expr.mapBinary, List.cons_append, List.append_assoc]
    exact pass_unaryPiece _ _ _ (Or.inl ⟨rfl, rfl⟩) hops.1 _ _ _
      (fun p => ih hops.2 hl rest rest1 p hrest)
  | binary op l r ihl ihr =>
    have hll : ∀ v ∈ l.leaves, printsExactly v :=
      fun v hv => hleaves v (by simp [Expr.leaves, hv])
    have hlr : ∀ v ∈ r.leaves, printsExactly v :=
      fun v hv => hleaves v (by simp [Expr.leaves, hv])
    simp only [Expr.inOrderText, Expr.mapBinary, List.cons_append, List.append_assoc,
      List.nil_append]
    have hclose : ∀ p, regexReplaceWord ['a', 'n', 'd'] ['&', '&'] 0 p (')' :: rest) =
        ')' :: rest1 := fun p =>
      regexReplaceWord_plain _ _ _ [')'] rest rest1 p (by decide) hrest
    have hright := fun p => ihr hops.2.2 hlr (')' :: rest) (')' :: rest1) p hclose
    have hop := fun p => and_pass_binaryPiece hops.1 _ _ p hright
    have hleft := fun p => ihl hops.2.1 hll _ _ p hop
    exact regexReplaceWord_plain _ _ _ ['('] _ _ prev (by decide) hleft

theorem or_pass_inOrderText (t : Expr) (hops : t.knownOps)
    (hleaves : ∀ v ∈ t.leaves, printsExactly v) (rest rest1 : List Char) (prev : Option Char)
    (hrest : ∀ p, regexReplaceWord ['o', 'r'] ['|', '|'] 0 p rest = rest1) :
    regexReplaceWord ['o', 'r'] ['|', '|'] 0 prev ((t.mapBinary andSymbol).inOrderText ++ rest) =
      (t.mapBinary symbolOf).inOrderText ++ rest1 := by
  induction t generalizing rest rest1 prev with
  | num v =>
    obtain ⟨h1, -, -⟩ := hleaves v (by simp [Expr.leaves])
    exact regexReplaceWord_plain _ _ _ _ _ _ _ (fun c hc => (numchar_plain (h1 c hc)).1) hrest
  | unary op arg ih =>
    have hl : ∀ v ∈ arg.leaves, printsExactly v :=
      fun v hv => hleaves v (by simpa [Expr.leaves] using hv)
    simp only [Expr.inOrderText, Expr.mapBinary, List.cons_append, List.append_assoc]
    exact pass_unaryPiece _ _ _ (Or.inr ⟨rfl, rfl⟩) hops.1 _ _ _
      (fun p => ih hops.2 hl rest rest1 p hrest)
  | binary op l r ihl ihr =>
    have hll : ∀ v ∈ l.leaves, printsExactly v :=
      fun v hv => hleaves v (by simp [Expr.leaves, hv])
    have hlr : ∀ v ∈ r.leaves, printsExactly v :=
      fun v hv => hleaves v (by simp [Expr.leaves, hv])
    simp only [Expr.inOrderText, Expr.mapBinary, List.cons_append, List.append_assoc,
      List.nil_append]
    have hclose : ∀ p, regexReplaceWord ['o', 'r'] ['|', '|'] 0 p (')' :: rest) =
        ')' :: rest1 := fun p =>
      regexReplaceWord_plain _ _ _ [')'] rest rest1 p (by decide) hrest
    have hright := fun p => ihr hops.2.2 hlr (')' :: rest) (')' :: rest1) p hclose
    have hop := fun p => or_pass_binaryPiece hops.1 _ _ p hright
    have hleft := fun p => ihl hops.2.1 hll _ _ p hop
    exact regexReplaceWord_plain _ _ _ ['('] _ _ prev (by decide) hleft

theorem replaceKeywords_symbolOf (t : Expr) (hops : t.knownOps)
    (hleaves : ∀ v ∈ t.leaves, printsExactly v) :
    replaceKeywords t.inOrderText = (t.mapBinary symbolOf).inOrderText := by
  unfold replaceKeywords
  have h1 := and_pass_inOrderText t hops hleaves [] [] none (fun _ => rfl)
  have h2 := or_pass_inOrderText t hops hleaves [] [] none (fun _ => rfl)
  simp only [List.append_nil] at h1 h2
  rw [h1, h2]

theorem leaves_mapBinary (f : String → String) (t : Expr) : (t.mapBinary f).leaves = t.leaves := by
  induction t with
  | num v => rfl
  | unary op arg ih => simpa [Expr.mapBinary, Expr.leaves] using ih
  | binary op l r ihl ihr => simp [Expr.mapBinary, Expr.leaves, ihl, ihr]

theorem symbolOf_symbolic {op : String} (hop : isBinaryOperator op = true) :
    isBinaryOperator (symbolOf op) = true ∧ symbolOf op ≠ "and" ∧ symbolOf op ≠ "or" := by
  have hc := binary_cases hop
  simp only [List.mem_cons, List.mem_singleton, List.mem_nil_iff, or_false] at hc
  rcases hc with h | h | h | h | h | h | h | h | h | h | h | h | h | h | h | h | h | h |
    h | h | h <;> subst h <;> decide

theorem symbolicOps_mapBinary (t : Expr) (hops : t.knownOps) :
    (t.mapBinary symbolOf).symbolicOps := by
  induction t with
  | num v => trivial
  | unary op arg ih => exact ⟨hops.1, ih hops.2⟩
  | binary op l r ihl ihr => exact ⟨symbolOf_symbolic hops.1, ihl hops.2.1, ihr hops.2.2⟩

theorem lookup_symbolOf_apply (pow : Double → Double → Double) (op : String) (a b : Double) :
    (match (ExpressionEvaluator.new pow).binaryOps.lookup (symbolOf op) with
      | some f => f a b
      | none => Except.error
          (Fault.ExpressionError ("Error: Unknown binary operator '" ++ symbolOf op ++ "'"))) =
      match (ExpressionEvaluator.new pow).binaryOps.lookup op with
      | some f => f a b
      | none => Except.error
          (Fault.ExpressionError ("Error: Unknown binary operator '" ++ op ++ "'")) := by
  by_cases h1 : op = "and"
  · subst h1; rfl
  · by_cases h2 : op = "or"
    · subst h2; rfl
    · simp [symbolOf, h1, h2]

theorem evaluateNode_mapBinary (pow : Double → Double → Double) (t : Expr) :
    (ExpressionEvaluator.new pow).evaluateNode (t.mapBinary symbolOf).toNode =
      (ExpressionEvaluator.new pow).evaluateNode t.toNode := by
  induction t with
  | num v => rfl
  | unary op arg ih =>
    simp only [Expr.mapBinary, Expr.toNode, Node.unaryOp, ExpressionEvaluator.evaluateNode, ih]
  | binary op l r ihl ihr =>
    simp only [Expr.mapBinary, Expr.toNode, Node.binaryOp, ExpressionEvaluator.evaluateNode,
      ihl, ihr]
    cases (ExpressionEvaluator.new pow).evaluateNode l.toNode with
    | error e => rfl
    | ok a =>
      cases (ExpressionEvaluator.new pow).evaluateNode r.toNode with
      | error e => rfl
      | ok b => simpa using lookup_symbolOf_apply pow op a b

/-- Parsing the in-order text of a parsed expression gives the expression with
its word operators `and`, `or` written as `&&`, `||`. -/
theorem buildExpressionTree_inOrder_symbolOf (t : Expr) (hops : t.knownOps)
    (hleaves : ∀ v ∈ t.leaves, printsExactly v) :
    buildExpressionTree (ExpressionTree.mk t.toNode).inOrderTraversal =
      Except.ok (ExpressionTree.mk (t.mapBinary symbolOf).toNode) := by
  have hsym := symbolicOps_mapBinary t hops
  have hlv : ∀ v ∈ (t.mapBinary symbolOf).leaves, printsExactly v := by
    rw [leaves_mapBinary]; exact hleaves
  have h := buildExpressionTree_inOrder (t.mapBinary symbolOf) hsym hlv
  have htok : tokenize (ExpressionTree.mk t.toNode).inOrderTraversal =
      tokenize (ExpressionTree.mk (t.mapBinary symbolOf).toNode).inOrderTraversal := by
    unfold tokenize
    have e1 : (ExpressionTree.mk t.toNode).inOrderTraversal.data = t.inOrderText :=
      inOrderHelper_toNode t
    have e2 : (ExpressionTree.mk (t.mapBinary symbolOf).toNode).inOrderTraversal.data =
        (t.mapBinary symbolOf).inOrderText := inOrderHelper_toNode _
    rw [e1, e2, replaceKeywords_symbolOf t hops hleaves,
      replaceKeywords_inOrderText _ hsym hlv]
  unfold buildExpressionTree at h ⊢
  rw [htok]
  exact h

theorem tokenizeLoop_step (fuel : Nat) (c : Char) (rest : List Char) (tokens : List String) :
    tokenizeLoop (fuel + 1) (c :: rest) tokens =
      tokenizeLoop fuel (tokenizeStep c rest tokens).1 (tokenizeStep c rest tokens).2 := by
  rw [tokenizeLoop]
  unfold tokenizeStep
  by_cases h1 : isspace c = true
  · simp only [h1, if_true]
  · replace h1 : isspace c = false := by simpa using h1
    by_cases h2 : (isdigit c || c == '.') = true
    · simp only [h1, h2, if_true, Bool.false_eq_true, if_false]
    · replace h2 : (isdigit c || c == '.') = false := by simpa using h2
      by_cases h3 : (c == '(' || c == ')') = true
      · simp only [h1, h2, h3, if_true, Bool.false_eq_true, if_false]
      · replace h3 : (c == '(' || c == ')') = false := by simpa using h3
        simp only [h1, h2, h3, Bool.false_eq_true, if_false]
        generalize multiCharOps.find? (fun op => op.data.isPrefixOf (c :: rest)) = found
        cases found with
        | some op => simp only []
        | none =>
          simp only []
          split_ifs <;> rfl

theorem multiChar_length {op : String} (h : op ∈ multiCharOps) : op.length = 2 := by
  simp only [multiCharOps, List.mem_cons, List.mem_singleton, List.mem_nil_iff, or_false] at h
  rcases h with h | h | h | h | h | h | h | h <;> subst h <;> rfl

theorem alpha_alnum {c : Char} (h : isalpha c = true) : (isalnum c || c == '_') = true := by
  simp [isalnum, h]

theorem length_dropWhile_le {α : Type} (p : α → Bool) (l : List α) :
    (l.dropWhile p).length ≤ l.length :=
  (List.dropWhile_sublist p).length_le

theorem tokenizeStep_length (c : Char) (rest : List Char) (tokens : List String) :
    (tokenizeStep c rest tokens).1.length ≤ rest.length := by
  unfold tokenizeStep
  by_cases h1 : isspace c = true
  · simp only [h1, if_true, le_refl]
  · replace h1 : isspace c = false := by simpa using h1
    by_cases h2 : (isdigit c || c == '.') = true
    · simp only [h1, h2, if_true, Bool.false_eq_true, if_false]
      rw [List.dropWhile_cons_of_pos (p := fun x => isdigit x || x == '.') h2]
      exact length_dropWhile_le _ _
    · replace h2 : (isdigit c || c == '.') = false := by simpa using h2
      by_cases h3 : (c == '(' || c == ')') = true
      · simp only [h1, h2, h3, if_true, Bool.false_eq_true, if_false, le_refl]
      · replace h3 : (c == '(' || c == ')') = false := by simpa using h3
        simp only [h1, h2, h3, Bool.false_eq_true, if_false]
        cases hfind : multiCharOps.find? (fun op => op.data.isPrefixOf (c :: rest)) with
        | some op =>
          have hlen := multiChar_length (List.mem_of_find?_eq_some hfind)
          simp only [hlen]
          simp
        | none =>
          simp only []
          by_cases h4 : isSingleCharOp c = true
          · simp only [h4, if_true]
            split_ifs <;> exact le_refl _
          · replace h4 : isSingleCharOp c = false := by simpa using h4
            by_cases h5 : isalpha c = true
            · simp only [h4, h5, if_true, Bool.false_eq_true, if_false]
              rw [List.dropWhile_cons_of_pos (p := fun x => isalnum x || x == '_')
                (alpha_alnum h5)]
              exact length_dropWhile_le _ _
            · replace h5 : isalpha c = false := by simpa using h5
              simp only [h4, h5, Bool.false_eq_true, if_false, le_refl]

theorem tokenizeLoop_fuel (fuel : Nat) (text : List Char) (tokens : List String)
    (h : text.length ≤ fuel) :
    tokenizeLoop fuel text tokens = tokenizeLoop text.length text tokens := by
  induction fuel using Nat.strong_induction_on generalizing text tokens with
  | _ fuel ih =>
    cases text with
    | nil => rw [tokenizeLoop_nil, tokenizeLoop_nil]
    | cons c rest =>
      cases fuel with
      | zero => simp at h
      | succ k =>
        have hl := tokenizeStep_length c rest tokens
        simp only [List.length_cons] at h ⊢
        rw [tokenizeLoop_step, tokenizeLoop_step,
          ih k (Nat.lt_succ_self k) _ _ (by omega)]
        by_cases hk : rest.length < k + 1
        · rw [ih rest.length hk _ _ hl]
        · have : rest.length = k + 1 := by omega
          omega

theorem tokenizeSteps_eq (bound : Nat) (text : List Char) (tokens : List String)
    (h : text.length ≤ bound) :
    tokenizeSteps bound text tokens = some (tokenizeLoop bound text tokens) := by
  induction bound generalizing text tokens with
  | zero =>
    cases text with
    | nil => rfl
    | cons c rest => simp at h
  | succ k ih =>
    cases text with
    | nil => simp [tokenizeSteps, tokenizeLoop]
    | cons c rest =>
      have hl := tokenizeStep_length c rest tokens
      simp only [List.length_cons] at h
      rw [tokenizeSteps, tokenizeLoop_step]
      exact ih _ _ (by omega)

theorem dropWhile_head {α : Type} (p : α → Bool) (l : List α) (y : α)
    (h : (l.dropWhile p).head? = some y) : p y = false := by
  induction l with
  | nil => simp at h
  | cons x xs ih =>
    by_cases hx : p x = true
    · rw [List.dropWhile_cons_of_pos hx] at h
      exact ih h
    · rw [List.dropWhile_cons_of_neg hx] at h
      simp only [List.head?_cons, Option.some.injEq] at h
      subst h
      simpa using hx

theorem takeWhile_all {α : Type} (p : α → Bool) (l : List α) :
    ∀ x ∈ l.takeWhile p, p x = true := fun _ hx => List.mem_takeWhile_imp hx

/-- What one iteration of the scanning loop does: it takes a non-empty piece off the
front of the text and emits no token, or a token that does not begin with a digit or
a point, or the piece itself when the piece is a maximal run of digits and points. -/
theorem tokenizeStep_tokens (c : Char) (rest : List Char) (tokens : List String) :
    ∃ used, c :: rest = used ++ (tokenizeStep c rest tokens).1 ∧ used ≠ [] ∧
      ((tokenizeStep c rest tokens).2 = tokens ∨
        ∃ tok, (tokenizeStep c rest tokens).2 = tokens ++ [tok] ∧
          ((∀ x, tok.data.head? = some x → isNumberChar x = false) ∨
            (tok.data = used ∧ (∀ x ∈ used, isNumberChar x = true) ∧
              ∀ y, (tokenizeStep c rest tokens).1.head? = some y → isNumberChar y = false))) := by
  unfold tokenizeStep
  by_cases h1 : isspace c = true
  · simp only [h1, if_true]
    exact ⟨[c], rfl, by simp, Or.inl trivial⟩
  · replace h1 : isspace c = false := by simpa using h1
    by_cases h2 : (isdigit c || c == '.') = true
    · simp only [h1, h2, if_true, Bool.false_eq_true, if_false]
      refine ⟨(c :: rest).takeWhile (fun x => isdigit x || x == '.'),
        (List.takeWhile_append_dropWhile _ _).symm, ?_, Or.inr ⟨_, rfl, Or.inr ⟨rfl, ?_, ?_⟩⟩⟩
      · rw [List.takeWhile_cons_of_pos (p := fun x => isdigit x || x == '.') h2]
        simp
      · exact takeWhile_all _ _
      · exact fun y hy => dropWhile_head _ _ y hy
    · replace h2 : (isdigit c || c == '.') = false := by simpa using h2
      have hc : ∀ x, some c = some x → isNumberChar x = false := by
        intro x hx
        simp only [Option.some.injEq] at hx
        subst hx
        exact h2
      by_cases h3 : (c == '(' || c == ')') = true
      · simp only [h1, h2, h3, if_true, Bool.false_eq_true, if_false]
        exact ⟨[c], rfl, by simp, Or.inr ⟨_, rfl, Or.inl hc⟩⟩
      · replace h3 : (c == '(' || c == ')') = false := by simpa using h3
        simp only [h1, h2, h3, Bool.false_eq_true, if_false]
        cases hfind : multiCharOps.find? (fun op => op.data.isPrefixOf (c :: rest)) with
        | some op =>
          simp only []
          have hpre := List.find?_some hfind
          simp only [List.isPrefixOf_iff_prefix] at hpre
          obtain ⟨tl, htl⟩ := hpre
          have hlen := multiChar_length (List.mem_of_find?_eq_some hfind)
          refine ⟨op.data, ?_, ?_, Or.inr ⟨op, rfl, Or.inl ?_⟩⟩
          · rw [← htl]
            show _ = op.data ++ List.drop op.data.length (op.data ++ tl)
            rw [List.drop_left]
          · intro e
            rw [String.length, e] at hlen
            simp at hlen
          · intro x hx
            cases hd : op.data with
            | nil => rw [hd] at hx; simp at hx
            | cons a as =>
              rw [hd] at hx htl
              simp only [List.head?_cons, Option.some.injEq] at hx
              simp only [List.cons_append, List.cons.injEq] at htl
              rw [← hx, htl.1]
              exact h2
        | none =>
          simp only []
          by_cases h4 : isSingleCharOp c = true
          · simp only [h4, if_true]
            refine ⟨[c], ?_, by simp, ?_⟩
            · split_ifs <;> rfl
            · split_ifs
              · exact Or.inl rfl
              · exact Or.inr ⟨_, rfl, Or.inl (by decide)⟩
              · exact Or.inr ⟨_, rfl, Or.inl (by decide)⟩
              · exact Or.inr ⟨_, rfl, Or.inl (by decide)⟩
              · exact Or.inl rfl
              · exact Or.inr ⟨_, rfl, Or.inl hc⟩
          · replace h4 : isSingleCharOp c = false := by simpa using h4
            by_cases h5 : isalpha c = true
            · simp only [h4, h5, if_true, Bool.false_eq_true, if_false]
              refine ⟨(c :: rest).takeWhile (fun x => isalnum x || x == '_'),
                (List.takeWhile_append_dropWhile _ _).symm, ?_, Or.inr ⟨_, rfl, Or.inl ?_⟩⟩
              · rw [List.takeWhile_cons_of_pos (p := fun x => isalnum x || x == '_')
                  (alpha_alnum h5)]
                simp
              · split_ifs
                · decide
                · rw [List.takeWhile_cons_of_pos (p := fun x => isalnum x || x == '_')
                    (alpha_alnum h5)]
                  exact hc
            · replace h5 : isalpha c = false := by simpa using h5
              simp only [h4, h5, Bool.false_eq_true, if_false]
              exact ⟨[c], rfl, by simp, Or.inl trivial⟩

/-- The property of a token that begins with a digit or a point: it is a maximal
run of digits and points of the text. -/
theorem tokenizeLoop_numeric (text0 : List Char) (fuel : Nat) (consumed text : List Char)
    (tokens : List String) (htext : text0 = consumed ++ text)
    (htok : ∀ t ∈ tokens, (∃ x, t.data.head? = some x ∧ isNumberChar x = true) →
      ∃ before after, text0 = before ++ t.data ++ after ∧
        (∀ x ∈ t.data, isNumberChar x = true) ∧
        ∀ y, after.head? = some y → isNumberChar y = false) :
    ∀ t ∈ tokenizeLoop fuel text tokens, (∃ x, t.data.head? = some x ∧ isNumberChar x = true) →
      ∃ before after, text0 = before ++ t.data ++ after ∧
        (∀ x ∈ t.data, isNumberChar x = true) ∧
        ∀ y, after.head? = some y → isNumberChar y = false := by
  induction fuel generalizing consumed text tokens with
  | zero =>
    cases text with
    | nil => simpa [tokenizeLoop] using htok
    | cons c rest => simpa [tokenizeLoop] using htok
  | succ k ih =>
    cases text with
    | nil => simpa [tokenizeLoop] using htok
    | cons c rest =>
      rw [tokenizeLoop_step]
      obtain ⟨used, hused, -, hcase⟩ := tokenizeStep_tokens c rest tokens
      refine ih (consumed ++ used) _ _ (by rw [htext, hused, List.append_assoc]) ?_
      rcases hcase with h | ⟨tok, h, hk⟩
      · rw [h]; exact htok
      · rw [h]
        intro t ht hhead
        rcases List.mem_append.1 ht with ht | ht
        · exact htok t ht hhead
        · simp only [List.mem_singleton] at ht
          subst ht
          rcases hk with hk | ⟨hd, hall, hnext⟩
          · obtain ⟨x, hx, hnum⟩ := hhead
            rw [hk x hx] at hnum
            exact absurd hnum (by decide)
          · refine ⟨consumed, _, ?_, ?_, hnext⟩
            · rw [htext, hused, hd, List.append_assoc]
            · rw [hd]; exact hall

theorem unrecognised_facts {c : Char} (h : isUnrecognised c = true) :
    isspace c = false ∧ isalpha c = false ∧ isdigit c = false ∧ c ≠ '_' ∧ c ≠ '.' ∧
      c ≠ '(' ∧ c ≠ ')' ∧ isSingleCharOp c = false := by
  simp [isUnrecognised] at h
  tauto

theorem blank_cases (c : Char) :
    (isUnrecognised c = true ∧ blankUnrecognised c = ' ') ∨
      (isUnrecognised c = false ∧ blankUnrecognised c = c) := by
  unfold blankUnrecognised
  cases isUnrecognised c <;> simp

theorem blank_numchar (c : Char) :
    (isdigit (blankUnrecognised c) || blankUnrecognised c == '.') = (isdigit c || c == '.') := by
  rcases blank_cases c with ⟨h, e⟩ | ⟨-, e⟩
  · obtain ⟨-, -, h3, -, h5, -⟩ := unrecognised_facts h
    have h6 : (c == '.') = false := beq_eq_false_iff_ne.2 h5
    rw [e, h3, h6]
    decide
  · rw [e]

theorem blank_wordchar (c : Char) :
    (isalnum (blankUnrecognised c) || blankUnrecognised c == '_') = (isalnum c || c == '_') := by
  rcases blank_cases c with ⟨h, e⟩ | ⟨-, e⟩
  · obtain ⟨-, h2, h3, h4, -⟩ := unrecognised_facts h
    have h6 : (c == '_') = false := beq_eq_false_iff_ne.2 h4
    rw [e, isalnum, isalnum, h2, h3, h6]
    decide
  · rw [e]

theorem blank_fix_numchar (c : Char) (h : (isdigit c || c == '.') = true) :
    blankUnrecognised c = c := by
  rcases blank_cases c with ⟨hu, -⟩ | ⟨-, e⟩
  · obtain ⟨-, -, h3, -, h5, -⟩ := unrecognised_facts hu
    simp [h3, h5] at h
  · exact e

theorem blank_fix_wordchar (c : Char) (h : (isalnum c || c == '_') = true) :
    blankUnrecognised c = c := by
  rcases blank_cases c with ⟨hu, -⟩ | ⟨-, e⟩
  · obtain ⟨-, h2, h3, h4, -⟩ := unrecognised_facts hu
    simp [isalnum, h2, h3, h4] at h
  · exact e

theorem blank_takeWhile (p : Char → Bool) (hp : ∀ x, p (blankUnrecognised x) = p x)
    (hfix : ∀ x, p x = true → blankUnrecognised x = x) (l : List Char) :
    (l.map blankUnrecognised).takeWhile p = l.takeWhile p ∧
      (l.map blankUnrecognised).dropWhile p = (l.dropWhile p).map blankUnrecognised := by
  induction l with
  | nil => simp
  | cons x xs ih =>
    by_cases hx : p x = true
    · have hx1 : p (blankUnrecognised x) = true := by rw [hp]; exact hx
      rw [List.map_cons, List.takeWhile_cons_of_pos hx1, List.takeWhile_cons_of_pos hx,
        List.dropWhile_cons_of_pos hx1, List.dropWhile_cons_of_pos hx, ih.1, ih.2, hfix x hx]
      exact ⟨rfl, rfl⟩
    · have hx1 : ¬ p (blankUnrecognised x) = true := by rw [hp]; exact hx
      rw [List.map_cons, List.takeWhile_cons_of_neg hx1, List.takeWhile_cons_of_neg hx,
        List.dropWhile_cons_of_neg hx1, List.dropWhile_cons_of_neg hx]
      exact ⟨rfl, rfl⟩

theorem blank_isPrefixOf (word : List Char)
    (hword : ∀ x ∈ word, isUnrecognised x = false ∧ x ≠ ' ') (l : List Char) :
    word.isPrefixOf (l.map blankUnrecognised) = word.isPrefixOf l := by
  induction word generalizing l with
  | nil => simp [List.isPrefixOf]
  | cons x w ih =>
    cases l with
    | nil => simp [List.isPrefixOf]
    | cons y ys =>
      obtain ⟨hx1, hx2⟩ := hword x (List.mem_cons_self _ _)
      have hxy : (x == blankUnrecognised y) = (x == y) := by
        rcases blank_cases y with ⟨hu, e⟩ | ⟨-, e⟩
        · rw [e]
          have h1 : x ≠ y := fun h => by rw [h, hu] at hx1; exact absurd hx1 (by decide)
          simp [hx2, h1]
        · rw [e]
      simp only [List.map_cons, List.isPrefixOf, hxy,
        ih (fun z hz => hword z (List.mem_cons_of_mem _ hz))]

theorem find?_congr_mem {α : Type} (p q : α → Bool) (l : List α) (h : ∀ x ∈ l, p x = q x) :
    l.find? p = l.find? q := by
  induction l with
  | nil => rfl
  | cons x xs ih =>
    simp only [List.find?_cons, h x (List.mem_cons_self _ _),
      ih (fun z hz => h z (List.mem_cons_of_mem _ hz))]

theorem multiChar_recognised {op : String} (h : op ∈ multiCharOps) :
    ∀ x ∈ op.data, isUnrecognised x = false ∧ x ≠ ' ' := by
  simp only [multiCharOps, List.mem_cons, List.mem_singleton, List.mem_nil_iff, or_false] at h
  rcases h with h | h | h | h | h | h | h | h <;> subst h <;> decide

theorem singleCharOp_cases {c : Char} (h : isSingleCharOp c = false) :
    c ≠ '=' ∧ c ≠ '!' ∧ c ≠ '<' ∧ c ≠ '>' ∧ c ≠ '&' ∧ c ≠ '|' := by
  simp only [isSingleCharOp, Bool.or_eq_false_iff, beq_eq_false_iff_ne, ne_eq] at h
  tauto

theorem tokenizeStep_unrecognised (c : Char) (rest : List Char) (tokens : List String)
    (h : isUnrecognised c = true) : tokenizeStep c rest tokens = (rest, tokens) := by
  obtain ⟨h1, h2, h3, -, h5, h6, h7, h8⟩ := unrecognised_facts h
  have hn : (isdigit c || c == '.') = false := by simp [h3, h5]
  have hp : (c == '(' || c == ')') = false := by simp [h6, h7]
  unfold tokenizeStep
  simp only [h1, hn, hp, Bool.false_eq_true, if_false,
    find_multiChar_none c rest (singleCharOp_cases h8), h8, h2]

theorem tokenizeStep_blank (c : Char) (rest : List Char) (tokens : List String) :
    tokenizeStep (blankUnrecognised c) (rest.map blankUnrecognised) tokens =
      ((tokenizeStep c rest tokens).1.map blankUnrecognised, (tokenizeStep c rest tokens).2) := by
  rcases blank_cases c with ⟨hu, e⟩ | ⟨-, e⟩
  · rw [e, tokenizeStep_unrecognised c rest tokens hu]
    simp [tokenizeStep, isspace]
  · have hcons : c :: rest.map blankUnrecognised = (c :: rest).map blankUnrecognised := by
      rw [List.map_cons, e]
    have hnum := blank_takeWhile (fun x => isdigit x || x == '.') blank_numchar
      blank_fix_numchar (c :: rest)
    have hword := blank_takeWhile (fun x => isalnum x || x == '_') blank_wordchar
      blank_fix_wordchar (c :: rest)
    have hfind : multiCharOps.find? (fun op => op.data.isPrefixOf
          ((c :: rest).map blankUnrecognised)) =
        multiCharOps.find? (fun op => op.data.isPrefixOf (c :: rest)) :=
      find?_congr_mem _ _ _ (fun op hop => blank_isPrefixOf _ (multiChar_recognised hop) _)
    rw [e]
    unfold tokenizeStep
    rw [hcons, hnum.1, hnum.2, hword.1, hword.2, hfind]
    by_cases h1 : isspace c = true
    · simp only [h1, if_true]
    · replace h1 : isspace c = false := by simpa using h1
      by_cases h2 : (isdigit c || c == '.') = true
      · simp only [h1, h2, if_true, Bool.false_eq_true, if_false]
      · replace h2 : (isdigit c || c == '.') = false := by simpa using h2
        by_cases h3 : (c == '(' || c == ')') = true
        · simp only [h1, h2, h3, if_true, Bool.false_eq_true, if_false]
        · replace h3 : (c == '(' || c == ')') = false := by simpa using h3
          simp only [h1, h2, h3, Bool.false_eq_true, if_false]
          generalize multiCharOps.find? (fun op => op.data.isPrefixOf (c :: rest)) = found
          cases found with
          | some op => simp only [List.map_drop]
          | none =>
            simp only []
            split_ifs <;> rfl

theorem tokenizeLoop_blank (fuel : Nat) (text : List Char) (tokens : List String) :
    tokenizeLoop fuel (text.map blankUnrecognised) tokens = tokenizeLoop fuel text tokens := by
  induction fuel generalizing text tokens with
  | zero => cases text <;> rfl
  | succ k ih =>
    cases text with
    | nil => rfl
    | cons c rest =>
      rw [List.map_cons, tokenizeLoop_step, tokenizeLoop_step, tokenizeStep_blank]
      exact ih _ _

theorem blank_wordChar (c : Char) : isWordChar (blankUnrecognised c) = isWordChar c :=
  blank_wordchar c

theorem regexReplaceWord_blank (word rep : List Char)
    (hword : ∀ x ∈ word, isUnrecognised x = false ∧ x ≠ ' ')
    (hrep : rep.map blankUnrecognised = rep) (skip : Nat) (prev : Option Char)
    (l : List Char) :
    regexReplaceWord word rep skip (prev.map blankUnrecognised) (l.map blankUnrecognised) =
      (regexReplaceWord word rep skip prev l).map blankUnrecognised := by
  induction l generalizing skip prev with
  | nil => simp [regexReplaceWord]
  | cons c rest ih =>
    cases skip with
    | succ k =>
      rw [List.map_cons, regexReplaceWord, regexReplaceWord]
      exact ih k (some c)
    | zero =>
      have hpre := blank_isPrefixOf word hword (c :: rest)
      have hprev : (prev.map blankUnrecognised).any isWordChar = prev.any isWordChar := by
        cases prev with
        | none => rfl
        | some p => simp [blank_wordChar]
      have hnext : (((c :: rest).map blankUnrecognised).drop word.length).head?.any isWordChar =
          ((c :: rest).drop word.length).head?.any isWordChar := by
        rw [← List.map_drop]
        cases (c :: rest).drop word.length with
        | nil => rfl
        | cons y ys => simp [blank_wordChar]
      rw [List.map_cons] at hpre hnext
      rw [List.map_cons, regexReplaceWord, regexReplaceWord, hpre, hprev, hnext]
      have h1 := ih (word.length - 1) (some c)
      have h2 := ih 0 (some c)
      simp only [Option.map_some'] at h1 h2
      split_ifs
      · rw [h1, List.map_append, hrep]
      · rw [h2, List.map_cons]

theorem replaceKeywords_blank (l : List Char) :
    replaceKeywords (l.map blankUnrecognised) = (replaceKeywords l).map blankUnrecognised := by
  unfold replaceKeywords
  have h1 := regexReplaceWord_blank ['a', 'n', 'd'] ['&', '&'] (by decide) (by decide) 0 none l
  simp only [Option.map_none'] at h1
  rw [h1]
  have h2 := regexReplaceWord_blank ['o', 'r'] ['|', '|'] (by decide) (by decide) 0 none
    (regexReplaceWord ['a', 'n', 'd'] ['&', '&'] 0 none l)
  simp only [Option.map_none'] at h2
  exact h2

theorem tokenize_blank (expression : String) :
    tokenize (String.mk (expression.data.map blankUnrecognised)) = tokenize expression := by
  unfold tokenize
  simp only [replaceKeywords_blank, List.length_map]
  exact tokenizeLoop_blank _ _ _

theorem popToParen_split (ops output : List String) :
    ∃ popped, ops = popped ++ (popToParen ops output).1 ∧
      (popToParen ops output).2 = output ++ popped ∧ ∀ x ∈ popped, x ≠ "(" := by
  induction ops generalizing output with
  | nil => exact ⟨[], by simp [popToParen]⟩
  | cons top ops ih =>
    rw [popToParen]
    by_cases h : (top != "(") = true
    · simp only [h, if_true]
      obtain ⟨popped, h1, h2, h3⟩ := ih (output ++ [top])
      refine ⟨top :: popped, ?_, ?_, ?_⟩
      · rw [List.cons_append, ← h1]
      · rw [h2, List.append_assoc]; rfl
      · intro x hx
        rcases List.mem_cons.1 hx with e | e
        · rw [e]; simpa using h
        · exact h3 x e
    · simp only [h, if_false]
      exact ⟨[], by simp⟩

theorem popOperators_split (token : String) (ops output : List String) :
    ∃ popped, ops = popped ++ (popOperators token ops output).1 ∧
      (popOperators token ops output).2 = output ++ popped ∧ ∀ x ∈ popped, x ≠ "(" := by
  induction ops generalizing output with
  | nil => exact ⟨[], by simp [popOperators]⟩
  | cons top ops ih =>
    rw [popOperators]
    split_ifs with h
    · obtain ⟨popped, h1, h2, h3⟩ := ih (output ++ [top])
      refine ⟨top :: popped, ?_, ?_, ?_⟩
      · rw [List.cons_append, ← h1]
      · rw [h2, List.append_assoc]; rfl
      · intro x hx
        rcases List.mem_cons.1 hx with e | e
        · rw [e]
          simp only [Bool.and_eq_true, bne_iff_ne, ne_eq] at h
          exact h.1
        · exact h3 x e
    · exact ⟨[], by simp⟩

theorem drainOperators_eq (ops output out : List String)
    (h : drainOperators ops output = Except.ok out) :
    out = output ++ ops ∧ ∀ x ∈ ops, x ≠ "(" := by
  induction ops generalizing output with
  | nil =>
    simp only [drainOperators, Except.ok.injEq] at h
    simp [h]
  | cons top ops ih =>
    rw [drainOperators] at h
    split_ifs at h with h1
    obtain ⟨h2, h3⟩ := ih (output ++ [top]) h
    refine ⟨by rw [h2, List.append_assoc]; rfl, ?_⟩
    intro x hx
    rcases List.mem_cons.1 hx with e | e
    · rw [e]; simpa using h1
    · exact h3 x e

theorem operator_not_paren {t : String} (h : isOperator t = true) : isParen t = false := by
  have hc := operator_cases h
  simp only [operators, List.mem_cons, List.mem_singleton, List.mem_nil_iff, or_false] at hc
  rcases hc with h | h | h | h | h | h | h | h | h | h | h | h | h | h | h | h | h | h |
    h | h | h | h | h | h <;> subst h <;> decide

theorem number_not_paren {t : String} (h : isNumber t = true) : isParen t = false := by
  by_cases h1 : t = "("
  · subst h1; exact absurd h (by decide)
  · by_cases h2 : t = ")"
    · subst h2; exact absurd h (by decide)
    · simp [isParen, h1, h2]

theorem filter_operators_nil (popped : List String)
    (h : ∀ x ∈ popped, isOperator x = true) :
    popped.filter (fun t => !isOperator t) = [] := by
  rw [List.filter_eq_nil_iff]
  intro x hx
  simp [h x hx]

theorem filter_paren_id (popped : List String)
    (h : ∀ x ∈ popped, isOperator x = true) :
    popped.filter (fun t => !isParen t) = popped := by
  rw [List.filter_eq_self]
  intro x hx
  simp [operator_not_paren (h x hx)]

/-- The invariant of the conversion loop: the final output holds the output so far,
the operators on the stack and the tokens still to read, parentheses apart, and
its non-operator tokens are those of the output so far followed by those still to
read. -/
theorem infixLoop_tokens (rest ops output out : List String)
    (hops : ∀ x ∈ ops, x = "(" ∨ isOperator x = true)
    (h : infixLoop rest ops output = Except.ok out) :
    (∀ a, out.count a = output.count a + (ops.filter (fun t => !isParen t)).count a +
        (rest.filter (fun t => !isParen t)).count a) ∧
      out.filter (fun t => !isOperator t) =
        output.filter (fun t => !isOperator t) ++
          (rest.filter (fun t => !isParen t)).filter (fun t => !isOperator t) := by
  induction rest generalizing ops output with
  | nil =>
    rw [infixLoop] at h
    obtain ⟨h1, h2⟩ := drainOperators_eq ops output out h
    have hall : ∀ x ∈ ops, isOperator x = true := by
      intro x hx
      rcases hops x hx with e | e
      · exact absurd e (h2 x hx)
      · exact e
    subst h1
    simp [filter_paren_id ops hall, filter_operators_nil ops hall]
  | cons token rest ih =>
    rw [infixLoop] at h
    by_cases h1 : isNumber token = true
    · simp only [h1, if_true] at h
      obtain ⟨h2, h3⟩ := ih ops (output ++ [token]) hops h
      have hp := number_not_paren h1
      refine ⟨?_, ?_⟩
      · intro a
        rw [h2 a]
        simp only [List.filter_cons, hp, Bool.not_false, if_true, List.count_append,
          List.count_cons, List.count_nil]
        omega
      · rw [h3]
        simp only [List.filter_cons, hp, Bool.not_false, if_true, List.filter_append,
          List.filter_nil]
        split_ifs <;> simp
    · replace h1 : isNumber token = false := by simpa using h1
      by_cases h2 : (token == "(") = true
      · simp only [h1, h2, if_true, Bool.false_eq_true, if_false] at h
        have ht : token = "(" := by simpa using h2
        subst ht
        have hops1 : ∀ x ∈ "(" :: ops, x = "(" ∨ isOperator x = true := by
          intro x hx
          rcases List.mem_cons.1 hx with e | e
          · exact Or.inl e
          · exact hops x e
        obtain ⟨h3, h4⟩ := ih ("(" :: ops) output hops1 h
        have hp : isParen "(" = true := by decide
        refine ⟨?_, ?_⟩
        · intro a
          rw [h3 a]
          simp only [List.filter_cons, hp, Bool.not_true, Bool.false_eq_true, if_false]
        · rw [h4]
          simp only [List.filter_cons, hp, Bool.not_true, Bool.false_eq_true, if_false]
      · replace h2 : (token == "(") = false := by simpa using h2
        by_cases h3 : (token == ")") = true
        · simp only [h1, h2, h3, if_true, Bool.false_eq_true, if_false] at h
          have ht : token = ")" := by simpa using h3
          subst ht
          obtain ⟨popped, hp1, hp2, hp3⟩ := popToParen_split ops output
          match hpop : popToParen ops output, hp1, hp2, h with
          | ([], _), _, _, h => simp at h
          | (top :: ops1, out1), hp1, hp2, h =>
            simp only [] at hp1 hp2 h
            by_cases htop : (top == "(") = true
            · simp only [htop, if_true] at h
              have hpopped : ∀ x ∈ popped, isOperator x = true := by
                intro x hx
                rcases hops x (by rw [hp1]; exact List.mem_append_left _ hx) with e | e
                · exact absurd e (hp3 x hx)
                · exact e
              have hops1 : ∀ x ∈ ops1, x = "(" ∨ isOperator x = true := by
                intro x hx
                exact hops x (by
                  rw [hp1]
                  exact List.mem_append_right _ (List.mem_cons_of_mem _ hx))
              obtain ⟨h4, h5⟩ := ih ops1 out1 hops1 h
              have ht : top = "(" := by simpa using htop
              have hp : isParen ")" = true := by decide
              have hq : isParen "(" = true := by decide
              refine ⟨?_, ?_⟩
              · intro a
                rw [h4 a, hp2, hp1, ht]
                simp only [List.filter_cons, List.filter_append, hp, hq, Bool.not_true,
                  Bool.false_eq_true, if_false, List.count_append,
                  filter_paren_id popped hpopped]
                omega
              · rw [h5, hp2]
                simp only [List.filter_cons, List.filter_append, hp, Bool.not_true,
                  Bool.false_eq_true, if_false, filter_operators_nil popped hpopped,
                  List.append_nil]
            · simp [htop] at h
        · replace h3 : (token == ")") = false := by simpa using h3
          have hp : isParen token = false := by simp [isParen, h2, h3]
          by_cases h4 : isOperator token = true
          · simp only [h1, h2, h3, h4, if_true, Bool.false_eq_true, if_false] at h
            by_cases h5 : (token == "u-" || token == "~" || token == "not") = true
            · simp only [h5, if_true] at h
              have hops1 : ∀ x ∈ token :: ops, x = "(" ∨ isOperator x = true := by
                intro x hx
                rcases List.mem_cons.1 hx with e | e
                · exact Or.inr (by rw [e]; exact h4)
                · exact hops x e
              obtain ⟨h6, h7⟩ := ih (token :: ops) output hops1 h
              refine ⟨?_, ?_⟩
              · intro a
                rw [h6 a]
                simp only [List.filter_cons, hp, Bool.not_false, if_true, List.count_cons]
                omega
              · rw [h7]
                simp only [List.filter_cons, hp, h4, Bool.not_false, Bool.not_true, if_true,
                  Bool.false_eq_true, if_false]
            · simp only [h5, if_false] at h
              obtain ⟨popped, hp1, hp2, hp3⟩ := popOperators_split token ops output
              have hpopped : ∀ x ∈ popped, isOperator x = true := by
                intro x hx
                rcases hops x (by rw [hp1]; exact List.mem_append_left _ hx) with e | e
                · exact absurd e (hp3 x hx)
                · exact e
              have hops1 : ∀ x ∈ token :: (popOperators token ops output).1,
                  x = "(" ∨ isOperator x = true := by
                intro x hx
                rcases List.mem_cons.1 hx with e | e
                · exact Or.inr (by rw [e]; exact h4)
                · exact hops x (by rw [hp1]; exact List.mem_append_right _ e)
              obtain ⟨h6, h7⟩ := ih _ _ hops1 h
              refine ⟨?_, ?_⟩
              · intro a
                rw [h6 a, hp2]
                conv_rhs => rw [hp1]
                simp only [List.filter_cons, List.filter_append, hp, Bool.not_false, if_true,
                  List.count_cons, List.count_append, filter_paren_id popped hpopped]
                omega
              · rw [h7, hp2]
                simp only [List.filter_cons, List.filter_append, hp, h4, Bool.not_false,
                  Bool.not_true, if_true, Bool.false_eq_true, if_false,
                  filter_operators_nil popped hpopped, List.append_nil]
          · replace h4 : isOperator token = false := by simpa using h4
            simp only [h1, h2, h3, h4, Bool.false_eq_true, if_false] at h
            obtain ⟨h6, h7⟩ := ih ops (output ++ [token]) hops h
            refine ⟨?_, ?_⟩
            · intro a
              rw [h6 a]
              simp only [List.filter_cons, hp, Bool.not_false, if_true, List.count_append,
                List.count_cons, List.count_nil]
              omega
            · rw [h7]
              simp only [List.filter_cons, hp, h4, Bool.not_false, if_true,
                List.filter_append, List.filter_nil, List.append_assoc, List.singleton_append]

theorem binary_lookup_outcomes (pow : Double → Double → Double) {op : String}
    (hop : isBinaryOperator op = true) (a b : Double) :
    (∃ f, (ExpressionEvaluator.new pow).binaryOps.lookup op = some f ∧
      ((∃ v, f a b = Except.ok v) ∨
        f a b = Except.error (Fault.ExpressionError "Error: Division by zero") ∨
        f a b = Except.error (Fault.ExpressionError "Error: Modulo by zero"))) := by
  have hc := binary_cases hop
  simp only [List.mem_cons, List.mem_singleton, List.mem_nil_iff, or_false] at hc
  rcases hc with h | h | h | h | h | h | h | h | h | h | h | h | h | h | h | h | h | h |
    h | h | h <;> subst h <;> refine ⟨_, rfl, ?_⟩
  all_goals first
    | exact Or.inl ⟨_, rfl⟩
    | (by_cases hz : Double.isZero b = true
       · simp [hz]
       · simp [hz])

theorem unary_lookup_outcomes (pow : Double → Double → Double) {op : String}
    (hop : op = "-" ∨ op = "~" ∨ op = "not") (b : Double) :
    (∃ f, (ExpressionEvaluator.new pow).unaryOps.lookup op = some f ∧
      ∃ v, f b = Except.ok v) := by
  rcases hop with h | h | h <;> subst h <;> exact ⟨_, rfl, _, rfl⟩

/-- Evaluating an expression with known operators gives a value or one of the two
zero-divisor errors; the null-node and unknown-operator errors do not occur. -/
theorem evaluateNode_outcomes (pow : Double → Double → Double) (t : Expr) (hk : t.knownOps) :
    (∃ v, (ExpressionEvaluator.new pow).evaluateNode t.toNode = Except.ok v) ∨
      (ExpressionEvaluator.new pow).evaluateNode t.toNode =
        Except.error (Fault.ExpressionError "Error: Division by zero") ∨
      (ExpressionEvaluator.new pow).evaluateNode t.toNode =
        Except.error (Fault.ExpressionError "Error: Modulo by zero") := by
  induction t with
  | num v => exact Or.inl ⟨v, evaluateNode_operand _ v⟩
  | unary op arg ih =>
    simp only [Expr.toNode, Node.unaryOp]
    rcases ih hk.2 with ⟨b, hb⟩ | hb | hb
    · rw [evaluateNode_unary _ _ op _ _ b hb]
      obtain ⟨f, hf, hout⟩ := unary_lookup_outcomes pow hk.1 b
      rw [hf]
      exact Or.inl hout
    all_goals
      rw [ExpressionEvaluator.evaluateNode]
      simp [hb]
  | binary op l r ihl ihr =>
    simp only [Expr.toNode, Node.binaryOp]
    rcases ihl hk.2.1 with ⟨a, ha⟩ | ha | ha
    · rcases ihr hk.2.2 with ⟨b, hb⟩ | hb | hb
      · rw [evaluateNode_binary _ _ op _ _ a b ha hb]
        obtain ⟨f, hf, hout⟩ := binary_lookup_outcomes pow hk.1 a b
        rw [hf]
        exact hout
      all_goals
        rw [ExpressionEvaluator.evaluateNode]
        simp [ha, hb]
    all_goals
      rw [ExpressionEvaluator.evaluateNode]
      simp [ha]

theorem division_message_ne (msg : String)
    (h : msg = "Error: Division by zero" ∨ msg = "Error: Modulo by zero") :
    msg ≠ "Error: Null node encountered during evaluation" ∧
      (∀ op : String, msg ≠ "Error: Unknown unary operator '" ++ op ++ "'") ∧
      (∀ op : String, msg ≠ "Error: Unknown binary operator '" ++ op ++ "'") := by
  have hd : ∀ (pre : String) (op : String), (pre ++ op ++ "'").data =
      pre.data ++ (op.data ++ ['\'']) := by
    intro pre op
    simp [String.data_append]
  refine ⟨?_, ?_, ?_⟩
  · rcases h with h | h <;> subst h <;> decide
  · intro op e
    have e1 := congrArg String.data e
    rw [hd] at e1
    rcases h with h | h <;> subst h <;> simp at e1
  · intro op e
    have e1 := congrArg String.data e
    rw [hd] at e1
    rcases h with h | h <;> subst h <;> simp at e1

theorem space_not_word {s : Char} (hs : isspace s = true) :
    isWordChar s = false ∧ s ≠ 'a' ∧ s ≠ 'n' ∧ s ≠ 'd' ∧ s ≠ 'o' ∧ s ≠ 'r' ∧ s ≠ '=' ∧
      (isdigit s || s == '.') = false ∧ (isalnum s || s == '_') = false := by
  have h : s.toNat = 32 ∨ (9 ≤ s.toNat ∧ s.toNat ≤ 13) := by
    simpa [isspace] using hs
  have hne : ∀ c : Char, ¬ (c.toNat = 32 ∨ (9 ≤ c.toNat ∧ c.toNat ≤ 13)) → s ≠ c := by
    intro c hc e
    rw [e] at h
    exact hc h
  refine ⟨?_, hne _ (by decide), hne _ (by decide), hne _ (by decide), hne _ (by decide),
    hne _ (by decide), hne _ (by decide), ?_, ?_⟩
  · simp only [isWordChar, isalnum, isalpha, isdigit, Bool.or_eq_false_iff,
      Bool.and_eq_false_iff, decide_eq_false_iff_not, beq_eq_false_iff_ne]
    have := hne '_' (by decide)
    refine ⟨⟨⟨?_, ?_⟩, ?_⟩, this⟩ <;> omega
  · simp only [isdigit, Bool.or_eq_false_iff, Bool.and_eq_false_iff,
      decide_eq_false_iff_not, beq_eq_false_iff_ne]
    have := hne '.' (by decide)
    refine ⟨?_, this⟩
    omega
  · simp only [isalnum, isalpha, isdigit, Bool.or_eq_false_iff, Bool.and_eq_false_iff,
      decide_eq_false_iff_not, beq_eq_false_iff_ne]
    have := hne '_' (by decide)
    refine ⟨⟨⟨?_, ?_⟩, ?_⟩, this⟩ <;> omega

/-- The tests of the regular-expression scan at a position before a white-space
character do not look past that character. -/
theorem regex_tests_split (word : List Char) (hw : word = ['a', 'n', 'd'] ∨ word = ['o', 'r'])
    (s : Char) (hs : isspace s = true) (c : Char) (tl rest : List Char) :
    word.isPrefixOf (c :: (tl ++ s :: rest)) = word.isPrefixOf (c :: (tl ++ [s])) ∧
      (word.isPrefixOf (c :: (tl ++ [s])) = true →
        ((c :: (tl ++ s :: rest)).drop word.length).head? =
            ((c :: (tl ++ [s])).drop word.length).head? ∧
          word.length - 1 ≤ tl.length) := by
  obtain ⟨-, h1, h2, h3, h4, h5, -⟩ := space_not_word hs
  have e2 : ('n' == s) = false := beq_eq_false_iff_ne.2 (Ne.symm h2)
  have e3 : ('d' == s) = false := beq_eq_false_iff_ne.2 (Ne.symm h3)
  have e5 : ('r' == s) = false := beq_eq_false_iff_ne.2 (Ne.symm h5)
  rcases hw with hw | hw <;> subst hw
  · rcases tl with _ | ⟨t, _ | ⟨u, _ | ⟨v, tl1⟩⟩⟩ <;>
      simp [List.isPrefixOf, e2, e3]
  · rcases tl with _ | ⟨t, _ | ⟨u, tl1⟩⟩ <;>
      simp [List.isPrefixOf, e5]

theorem regexReplaceWord_split (word rep : List Char)
    (hw : word = ['a', 'n', 'd'] ∨ word = ['o', 'r']) (s : Char) (hs : isspace s = true)
    (init : List Char) (skip : Nat) (prev : Option Char) (hskip : skip ≤ init.length) :
    ∃ F, ∀ rest, regexReplaceWord word rep skip prev (init ++ s :: rest) =
      F ++ s :: regexReplaceWord word rep 0 (some s) rest := by
  induction init generalizing skip prev with
  | nil =>
    have h0 : skip = 0 := by simpa using hskip
    subst h0
    refine ⟨[], fun rest => ?_⟩
    obtain ⟨-, h1, -, -, h4, -⟩ := space_not_word hs
    have e1 : ('a' == s) = false := beq_eq_false_iff_ne.2 (Ne.symm h1)
    have e4 : ('o' == s) = false := beq_eq_false_iff_ne.2 (Ne.symm h4)
    rcases hw with hw | hw <;> subst hw <;>
      simp [regexReplaceWord, List.isPrefixOf, e1, e4]
  | cons c tl ih =>
    cases skip with
    | succ k =>
      obtain ⟨F, hF⟩ := ih k (some c) (by simpa using hskip)
      refine ⟨F, fun rest => ?_⟩
      rw [List.cons_append, regexReplaceWord]
      exact hF rest
    | zero =>
      by_cases hpre : word.isPrefixOf (c :: (tl ++ [s])) = true
      · have hlen := ((regex_tests_split word hw s hs c tl []).2 hpre).2
        obtain ⟨F1, hF1⟩ := ih (word.length - 1) (some c) hlen
        obtain ⟨F0, hF0⟩ := ih 0 (some c) (Nat.zero_le _)
        refine ⟨if (!(prev.any isWordChar) &&
            !(((c :: (tl ++ [s])).drop word.length).head?.any isWordChar)) = true
          then rep ++ F1 else c :: F0, fun rest => ?_⟩
        obtain ⟨ha, hb⟩ := regex_tests_split word hw s hs c tl rest
        rw [List.cons_append, regexReplaceWord, ha, hpre, (hb hpre).1, hF1 rest, hF0 rest]
        simp only [Bool.true_and]
        split_ifs <;> simp
      · replace hpre : word.isPrefixOf (c :: (tl ++ [s])) = false :=
          Bool.eq_false_iff.2 hpre
        obtain ⟨F0, hF0⟩ := ih 0 (some c) (Nat.zero_le _)
        refine ⟨c :: F0, fun rest => ?_⟩
        obtain ⟨ha, -⟩ := regex_tests_split word hw s hs c tl rest
        rw [List.cons_append, regexReplaceWord, ha, hpre, hF0 rest]
        simp

/-- The keyword replacement of a text splits after a white-space character. -/
theorem replaceKeywords_split (s : Char) (hs : isspace s = true) (init : List Char) :
    ∃ F, replaceKeywords (init ++ [s]) = F ++ [s] ∧
      ∀ rest, replaceKeywords (init ++ s :: rest) =
        F ++ s :: regexReplaceWord ['o', 'r'] ['|', '|'] 0 (some s)
          (regexReplaceWord ['a', 'n', 'd'] ['&', '&'] 0 (some s) rest) := by
  obtain ⟨F1, hF1⟩ := regexReplaceWord_split ['a', 'n', 'd'] ['&', '&'] (Or.inl rfl) s hs init
    0 none (Nat.zero_le _)
  obtain ⟨F2, hF2⟩ := regexReplaceWord_split ['o', 'r'] ['|', '|'] (Or.inr rfl) s hs F1
    0 none (Nat.zero_le _)
  have hall : ∀ rest, replaceKeywords (init ++ s :: rest) =
      F2 ++ s :: regexReplaceWord ['o', 'r'] ['|', '|'] 0 (some s)
        (regexReplaceWord ['a', 'n', 'd'] ['&', '&'] 0 (some s) rest) := by
    intro rest
    unfold replaceKeywords
    rw [hF1 rest, hF2]
  refine ⟨F2, ?_, hall⟩
  have h := hall []
  simpa [regexReplaceWord] using h

/-- A text that is empty or begins with white space. -/
theorem replaceKeywords_head (post : List Char)
    (hpost : post = [] ∨ ∃ s tl, post = s :: tl ∧ isspace s = true) :
    (∀ p, regexReplaceWord ['o', 'r'] ['|', '|'] 0 p
        (regexReplaceWord ['a', 'n', 'd'] ['&', '&'] 0 p post) = replaceKeywords post) ∧
    (∀ p, regexReplaceWord ['a', 'n', 'd'] ['&', '&'] 0 p post =
        regexReplaceWord ['a', 'n', 'd'] ['&', '&'] 0 none post) ∧
    (∀ p q, regexReplaceWord ['o', 'r'] ['|', '|'] 0 p
        (regexReplaceWord ['a', 'n', 'd'] ['&', '&'] 0 q post) = replaceKeywords post) ∧
    (replaceKeywords post = [] ∨ ∃ s tl, replaceKeywords post = s :: tl ∧ isspace s = true) ∧
    ((regexReplaceWord ['a', 'n', 'd'] ['&', '&'] 0 none post).head?.any isWordChar = false) ∧
    (post.head?.any isWordChar = false) := by
  rcases hpost with h | ⟨s, tl, h, hs⟩
  · subst h
    simp [replaceKeywords, regexReplaceWord]
  · subst h
    obtain ⟨hw, h1, -, -, h4, -⟩ := space_not_word hs
    have e1 : ('a' == s) = false := beq_eq_false_iff_ne.2 (Ne.symm h1)
    have e4 : ('o' == s) = false := beq_eq_false_iff_ne.2 (Ne.symm h4)
    simp [replaceKeywords, regexReplaceWord, List.isPrefixOf, e1, e4, hs, hw]

theorem ends_with_space (pre : List Char)
    (hpre : ∀ s, pre.getLast? = some s → isspace s = true) :
    pre = [] ∨ ∃ init s, pre = init ++ [s] ∧ isspace s = true := by
  rcases List.eq_nil_or_concat pre with h | ⟨init, s, h⟩
  · exact Or.inl h
  · rw [List.concat_eq_append] at h
    exact Or.inr ⟨init, s, h, hpre s (by rw [h]; exact List.getLast?_concat _)⟩

theorem begins_with_space (post : List Char)
    (hpost : ∀ s, post.head? = some s → isspace s = true) :
    post = [] ∨ ∃ s tl, post = s :: tl ∧ isspace s = true := by
  cases post with
  | nil => exact Or.inl rfl
  | cons s tl => exact Or.inr ⟨s, tl, rfl, hpost s rfl⟩

/-- The keyword replacement of a word that stands before the end of the text or
before white space, and after a character that is not a word character. -/
theorem keyword_tail (p : Option Char) (hp : p.any isWordChar = false) (post : List Char)
    (hpost : post = [] ∨ ∃ s tl, post = s :: tl ∧ isspace s = true) :
    regexReplaceWord ['o', 'r'] ['|', '|'] 0 p
        (regexReplaceWord ['a', 'n', 'd'] ['&', '&'] 0 p ('a' :: 'n' :: 'd' :: post)) =
      '&' :: '&' :: replaceKeywords post ∧
    regexReplaceWord ['o', 'r'] ['|', '|'] 0 p
        (regexReplaceWord ['a', 'n', 'd'] ['&', '&'] 0 p ('&' :: '&' :: post)) =
      '&' :: '&' :: replaceKeywords post ∧
    regexReplaceWord ['o', 'r'] ['|', '|'] 0 p
        (regexReplaceWord ['a', 'n', 'd'] ['&', '&'] 0 p ('o' :: 'r' :: post)) =
      '|' :: '|' :: replaceKeywords post ∧
    regexReplaceWord ['o', 'r'] ['|', '|'] 0 p
        (regexReplaceWord ['a', 'n', 'd'] ['&', '&'] 0 p ('|' :: '|' :: post)) =
      '|' :: '|' :: replaceKeywords post ∧
    regexReplaceWord ['o', 'r'] ['|', '|'] 0 p
        (regexReplaceWord ['a', 'n', 'd'] ['&', '&'] 0 p ('n' :: 'o' :: 't' :: post)) =
      'n' :: 'o' :: 't' :: replaceKeywords post ∧
    regexReplaceWord ['o', 'r'] ['|', '|'] 0 p
        (regexReplaceWord ['a', 'n', 'd'] ['&', '&'] 0 p ('!' :: post)) =
      '!' :: replaceKeywords post := by
  rcases hpost with h | ⟨s, tl, h, hs⟩
  · subst h
    simp [replaceKeywords, regexReplaceWord, List.isPrefixOf, hp]
  · subst h
    obtain ⟨hw, h1, -, -, h4, -⟩ := space_not_word hs
    have e1 : ('a' == s) = false := beq_eq_false_iff_ne.2 (Ne.symm h1)
    have e4 : ('o' == s) = false := beq_eq_false_iff_ne.2 (Ne.symm h4)
    simp [replaceKeywords, regexReplaceWord, List.isPrefixOf, e1, e4, hs, hw, hp]

theorem replaceKeywords_around (pre mid mid1 post : List Char)
    (hpre : pre = [] ∨ ∃ init s, pre = init ++ [s] ∧ isspace s = true)
    (hmid : ∀ p : Option Char, p.any isWordChar = false →
      regexReplaceWord ['o', 'r'] ['|', '|'] 0 p
          (regexReplaceWord ['a', 'n', 'd'] ['&', '&'] 0 p (mid ++ post)) =
        mid1 ++ replaceKeywords post) :
    replaceKeywords (pre ++ mid ++ post) = replaceKeywords pre ++ mid1 ++ replaceKeywords post := by
  rcases hpre with h | ⟨init, s, h, hs⟩
  · subst h
    have := hmid none rfl
    simpa [replaceKeywords, regexReplaceWord] using this
  · subst h
    obtain ⟨F, hF1, hF2⟩ := replaceKeywords_split s hs init
    have := hmid (some s) (by simpa using (space_not_word hs).1)
    rw [hF1, List.append_assoc, List.append_assoc, List.singleton_append, hF2, this]
    simp

theorem takeWhile_stop_mid {α : Type} (p : α → Bool) (xs : List α) (s : α) (r : List α)
    (hs : p s = false) :
    (xs ++ s :: r).takeWhile p = xs.takeWhile p ∧
      (xs ++ s :: r).dropWhile p = xs.dropWhile p ++ s :: r := by
  induction xs with
  | nil => simp [List.takeWhile, List.dropWhile, hs]
  | cons x xs ih =>
    by_cases hx : p x = true
    · rw [List.cons_append, List.takeWhile_cons_of_pos hx, List.takeWhile_cons_of_pos hx,
        List.dropWhile_cons_of_pos hx, List.dropWhile_cons_of_pos hx, ih.1, ih.2]
      exact ⟨rfl, rfl⟩
    · rw [List.cons_append, List.takeWhile_cons_of_neg hx, List.takeWhile_cons_of_neg hx,
        List.dropWhile_cons_of_neg hx, List.dropWhile_cons_of_neg hx]
      exact ⟨rfl, rfl⟩

theorem multiChar_prefix_split (s : Char) (hs : isspace s = true) (c : Char)
    (tl rest : List Char) {op : String} (hop : op ∈ multiCharOps) :
    op.data.isPrefixOf (c :: (tl ++ s :: rest)) = op.data.isPrefixOf (c :: (tl ++ [s])) ∧
      (op.data.isPrefixOf (c :: (tl ++ [s])) = true →
        ∃ t tl1, tl = t :: tl1 ∧
          ∀ r, (c :: (tl ++ s :: r)).drop op.length = tl1 ++ s :: r) := by
  have hne : ∀ x : Char, isspace x = false → (x == s) = false := by
    intro x hx
    apply beq_eq_false_iff_ne.2
    intro e
    rw [e, hs] at hx
    exact absurd hx (by decide)
  simp only [multiCharOps, List.mem_cons, List.mem_singleton, List.mem_nil_iff, or_false] at hop
  rcases hop with h | h | h | h | h | h | h | h <;> subst h <;>
    rcases tl with _ | ⟨t, tl1⟩ <;>
    simp [List.isPrefixOf, String.length, hne '=' (by decide), hne '&' (by decide),
      hne '|' (by decide), hne '<' (by decide), hne '>' (by decide)]

/-- One iteration of the scanning loop before a white-space character does not look
past that character. -/
theorem tokenizeStep_split (s : Char) (hs : isspace s = true) (c : Char) (tl : List Char)
    (tokens : List String) :
    ∃ tl1 tokens1, tl1.length ≤ tl.length ∧
      ∀ rest, tokenizeStep c (tl ++ s :: rest) tokens = (tl1 ++ s :: rest, tokens1) := by
  obtain ⟨-, -, -, -, -, -, -, hnum, hword⟩ := space_not_word hs
  unfold tokenizeStep
  by_cases h1 : isspace c = true
  · exact ⟨tl, tokens, le_refl _, fun rest => by simp only [h1, if_true]⟩
  · replace h1 : isspace c = false := by simpa using h1
    by_cases h2 : (isdigit c || c == '.') = true
    · refine ⟨tl.dropWhile (fun x => isdigit x || x == '.'),
        tokens ++ [String.mk ((c :: tl).takeWhile (fun x => isdigit x || x == '.'))],
        length_dropWhile_le _ _, fun rest => ?_⟩
      have h := takeWhile_stop_mid (fun x => isdigit x || x == '.') (c :: tl) s rest hnum
      rw [List.cons_append] at h
      simp only [h1, h2, if_true, Bool.false_eq_true, if_false, h.1, h.2]
      rw [List.dropWhile_cons_of_pos (p := fun x => isdigit x || x == '.') h2]
    · replace h2 : (isdigit c || c == '.') = false := by simpa using h2
      by_cases h3 : (c == '(' || c == ')') = true
      · exact ⟨tl, tokens ++ [String.singleton c], le_refl _, fun rest => by
          simp only [h1, h2, h3, if_true, Bool.false_eq_true, if_false]⟩
      · replace h3 : (c == '(' || c == ')') = false := by simpa using h3
        simp only [h1, h2, h3, Bool.false_eq_true, if_false]
        have hfind : ∀ rest, multiCharOps.find? (fun op => op.data.isPrefixOf
              (c :: (tl ++ s :: rest))) =
            multiCharOps.find? (fun op => op.data.isPrefixOf (c :: (tl ++ [s]))) :=
          fun rest => find?_congr_mem _ _ _
            (fun op hop => (multiChar_prefix_split s hs c tl rest hop).1)
        cases hf : multiCharOps.find? (fun op => op.data.isPrefixOf (c :: (tl ++ [s]))) with
        | some op =>
          have hop := List.mem_of_find?_eq_some hf
          have hpre := List.find?_some hf
          obtain ⟨t, tl1, htl, hdrop⟩ := (multiChar_prefix_split s hs c tl [] hop).2 hpre
          refine ⟨tl1, tokens ++ [op], by rw [htl]; simp, fun rest => ?_⟩
          rw [hfind rest, hf]
          simp only []
          rw [hdrop rest]
        | none =>
          by_cases h4 : isSingleCharOp c = true
          · refine ⟨tl,
              if ((c == '-' || c == '+' || c == '~' || c == '!') &&
                  (tokens.isEmpty || tokens.getLast? == some "(" ||
                    (tokens.getLast?.any isOperator))) = true then
                (if (c == '+') = true then tokens
                 else if (c == '-') = true then tokens ++ ["u-"]
                 else if (c == '~') = true then tokens ++ ["~"]
                 else if (c == '!') = true then tokens ++ ["not"]
                 else tokens)
              else tokens ++ [String.singleton c], le_refl _, fun rest => ?_⟩
            rw [hfind rest, hf]
            simp only [h4, if_true]
            split_ifs <;> rfl
          · replace h4 : isSingleCharOp c = false := by simpa using h4
            by_cases h5 : isalpha c = true
            · have h := fun rest =>
                takeWhile_stop_mid (fun x => isalnum x || x == '_') (c :: tl) s rest hword
              refine ⟨tl.dropWhile (fun x => isalnum x || x == '_'),
                tokens ++ [if (String.mk ((c :: tl).takeWhile (fun x => isalnum x || x == '_'))
                    == "not") = true then "not"
                  else String.mk ((c :: tl).takeWhile (fun x => isalnum x || x == '_'))],
                length_dropWhile_le _ _, fun rest => ?_⟩
              have h6 := h rest
              rw [List.cons_append] at h6
              rw [hfind rest, hf]
              simp only [h4, h5, if_true, Bool.false_eq_true, if_false, h6.1, h6.2]
              rw [List.dropWhile_cons_of_pos (p := fun x => isalnum x || x == '_')
                (alpha_alnum h5)]
            · replace h5 : isalpha c = false := by simpa using h5
              refine ⟨tl, tokens, le_refl _, fun rest => ?_⟩
              rw [hfind rest, hf]
              simp only [h4, h5, Bool.false_eq_true, if_false]

/-- Scanning a text that continues after a white-space character: the part up to
that character is scanned first, as if it stood alone. -/
theorem tokenizeLoop_split (s : Char) (hs : isspace s = true) (n : Nat) (init : List Char)
    (hn : init.length ≤ n) (tokens : List String) (rest : List Char) (fuel : Nat)
    (hfuel : init.length + 1 + rest.length ≤ fuel) :
    tokenizeLoop fuel (init ++ s :: rest) tokens =
      tokenizeLoop rest.length rest
        (tokenizeLoop (init.length + 1) (init ++ [s]) tokens) := by
  induction n generalizing init tokens fuel with
  | zero =>
    have h0 : init = [] := List.length_eq_zero.1 (Nat.le_zero.1 hn)
    subst h0
    obtain ⟨k, rfl⟩ : ∃ k, fuel = k + 1 := ⟨fuel - 1, by simp at hfuel; omega⟩
    simp only [List.nil_append, List.length_nil, Nat.zero_add]
    rw [tokenizeLoop_step, tokenizeLoop_step]
    simp only [tokenizeStep, hs, if_true]
    rw [tokenizeLoop_nil]
    exact tokenizeLoop_fuel _ _ _ (by simp at hfuel; omega)
  | succ m ih =>
    cases init with
    | nil => 
      obtain ⟨k, rfl⟩ : ∃ k, fuel = k + 1 := ⟨fuel - 1, by simp at hfuel; omega⟩
      simp only [List.nil_append, List.length_nil, Nat.zero_add]
      rw [tokenizeLoop_step, tokenizeLoop_step]
      simp only [tokenizeStep, hs, if_true]
      rw [tokenizeLoop_nil]
      exact tokenizeLoop_fuel _ _ _ (by simp at hfuel; omega)
    | cons c tl =>
      obtain ⟨k, rfl⟩ : ∃ k, fuel = k + 1 := ⟨fuel - 1, by simp at hfuel; omega⟩
      obtain ⟨tl1, tokens1, hlen, hstep⟩ := tokenizeStep_split s hs c tl tokens
      simp only [List.length_cons] at hn hfuel
      rw [List.cons_append, tokenizeLoop_step, hstep rest]
      simp only [List.cons_append, List.length_cons]
      rw [tokenizeLoop_step, hstep []]
      simp only []
      rw [ih tl1 (by omega) tokens1 k (by omega)]
      rw [tokenizeLoop_fuel (tl.length + 1) (tl1 ++ [s]) tokens1 (by simp; omega)]
      simp

theorem replaceKeywords_ends (pre : List Char)
    (hpre : pre = [] ∨ ∃ init s, pre = init ++ [s] ∧ isspace s = true) :
    replaceKeywords pre = [] ∨ ∃ F s, replaceKeywords pre = F ++ [s] ∧ isspace s = true := by
  rcases hpre with h | ⟨init, s, h, hs⟩
  · subst h
    exact Or.inl (by simp [replaceKeywords, regexReplaceWord])
  · subst h
    obtain ⟨F, hF, -⟩ := replaceKeywords_split s hs init
    exact Or.inr ⟨F, s, hF, hs⟩

/-- Scanning the text around a word that is delimited by white space: the part
before the word is scanned first, as if it stood alone. -/
theorem tokenize_around (pre mid mid1 post : List Char)
    (hpre : pre = [] ∨ ∃ init s, pre = init ++ [s] ∧ isspace s = true)
    (hmid : ∀ p : Option Char, p.any isWordChar = false →
      regexReplaceWord ['o', 'r'] ['|', '|'] 0 p
          (regexReplaceWord ['a', 'n', 'd'] ['&', '&'] 0 p (mid ++ post)) =
        mid1 ++ replaceKeywords post) :
    tokenize (String.mk (pre ++ mid ++ post)) =
      tokenizeLoop (mid1 ++ replaceKeywords post).length (mid1 ++ replaceKeywords post)
        (tokenize (String.mk pre)) := by
  have e := replaceKeywords_around pre mid mid1 post hpre hmid
  show tokenizeLoop (replaceKeywords (pre ++ mid ++ post)).length
      (replaceKeywords (pre ++ mid ++ post)) [] =
    tokenizeLoop (mid1 ++ replaceKeywords post).length (mid1 ++ replaceKeywords post)
      (tokenizeLoop (replaceKeywords pre).length (replaceKeywords pre) [])
  rw [e]
  rcases replaceKeywords_ends pre hpre with h | ⟨F, s, h, hs⟩
  · rw [h]
    simp [tokenizeLoop_nil]
  · have e2 : F ++ [s] ++ mid1 ++ replaceKeywords post =
        F ++ s :: (mid1 ++ replaceKeywords post) := by simp
    have e3 : (F ++ [s]).length = F.length + 1 := by simp
    rw [h, e2, e3]
    exact tokenizeLoop_split s hs F.length F (le_refl _) [] _ _ (by simp; omega)

theorem tokenizeLoop_bang (fuel : Nat) (rest : List Char) (tokens : List String)
    (hrest : rest = [] ∨ ∃ s tl, rest = s :: tl ∧ isspace s = true)
    (hpos : unaryPosition tokens) :
    tokenizeLoop (fuel + 1) ('!' :: rest) tokens = tokenizeLoop fuel rest (tokens ++ ["not"]) := by
  have hfind : multiCharOps.find? (fun op => op.data.isPrefixOf ('!' :: rest)) = none := by
    rcases hrest with h | ⟨s, tl, h, hs⟩
    · subst h; decide
    · subst h
      have e : ('=' == s) = false :=
        beq_eq_false_iff_ne.2 (Ne.symm (space_not_word hs).2.2.2.2.2.2.1)
      simp [multiCharOps, List.find?, List.isPrefixOf, e]
  have hb := (unaryPosition_iff tokens).2 hpos
  rw [tokenizeLoop_step]
  unfold tokenizeStep
  have h1 : isspace '!' = false := by decide
  have h2 : (isdigit '!' || '!' == '.') = false := by decide
  have h3 : ('!' == '(' || '!' == ')') = false := by decide
  have h4 : isSingleCharOp '!' = true := by decide
  have h5 : ('!' == '-' || '!' == '+' || '!' == '~' || '!' == '!') = true := by decide
  have h6 : ('!' == '+') = false := by decide
  have h7 : ('!' == '-') = false := by decide
  have h8 : ('!' == '~') = false := by decide
  simp only [h1, h2, h3, h4, h5, h6, h7, h8, hfind, hb, Bool.false_eq_true, if_false,
    if_true, Bool.and_self, beq_self_eq_true, Bool.true_and]
  rfl

theorem tokenizeLoop_not (fuel : Nat) (rest : List Char) (tokens : List String)
    (hrest : rest = [] ∨ ∃ s tl, rest = s :: tl ∧ isspace s = true) :
    tokenizeLoop (fuel + 1) ('n' :: 'o' :: 't' :: rest) tokens =
      tokenizeLoop fuel rest (tokens ++ ["not"]) := by
  have h := tokenizeLoop_word fuel ['n', 'o', 't'] rest tokens (by simp) (by decide)
    (by decide) (by
      intro y hy
      rcases hrest with h | ⟨s, tl, h, hs⟩
      · subst h; simp at hy
      · subst h
        simp only [List.head?_cons, Option.some.injEq] at hy
        subst hy
        exact (space_not_word hs).2.2.2.2.2.2.2.2)
  exact h

theorem evaluate_congr (pow : Double → Double → Double) (e1 e2 : String)
    (h : tokenize e1 = tokenize e2) :
    (ExpressionEvaluator.new pow).evaluate e1 = (ExpressionEvaluator.new pow).evaluate e2 := by
  unfold ExpressionEvaluator.evaluate buildExpressionTree
  rw [h]

/-- The token lists of a text with a delimited keyword and of the text with the
symbol in its place. -/
theorem tokenize_keyword (pre post : List Char)
    (hpre : pre = [] ∨ ∃ init s, pre = init ++ [s] ∧ isspace s = true)
    (hpost : post = [] ∨ ∃ s tl, post = s :: tl ∧ isspace s = true) :
    tokenize (String.mk (pre ++ ['a', 'n', 'd'] ++ post)) =
      tokenize (String.mk (pre ++ ['&', '&'] ++ post)) ∧
    tokenize (String.mk (pre ++ ['o', 'r'] ++ post)) =
      tokenize (String.mk (pre ++ ['|', '|'] ++ post)) ∧
    (unaryPosition (tokenize (String.mk pre)) →
      tokenize (String.mk (pre ++ ['n', 'o', 't'] ++ post)) =
        tokenize (String.mk (pre ++ ['!'] ++ post))) := by
  have hk := fun p hp => keyword_tail p hp post hpost
  have hq := (replaceKeywords_head post hpost).2.2.2.1
  refine ⟨?_, ?_, ?_⟩
  · rw [tokenize_around pre _ ['&', '&'] post hpre (fun p hp => (hk p hp).1),
      tokenize_around pre _ ['&', '&'] post hpre (fun p hp => (hk p hp).2.1)]
  · rw [tokenize_around pre _ ['|', '|'] post hpre (fun p hp => (hk p hp).2.2.1),
      tokenize_around pre _ ['|', '|'] post hpre (fun p hp => (hk p hp).2.2.2.1)]
  · intro hpos
    rw [tokenize_around pre _ ['n', 'o', 't'] post hpre (fun p hp => (hk p hp).2.2.2.2.1),
      tokenize_around pre _ ['!'] post hpre (fun p hp => (hk p hp).2.2.2.2.2)]
    simp only [List.cons_append, List.nil_append, List.length_cons]
    rw [tokenizeLoop_not _ _ _ hq, tokenizeLoop_bang _ _ _ hq hpos]
    exact tokenizeLoop_fuel _ _ _ (by omega)

theorem digitChar_facts (d : Nat) (h : d < 10) :
    isdigit (digitChar d) = true ∧ (digitChar d).toNat - 48 = d := by
  interval_cases d <;> decide

theorem decimalValue_snoc (xs : List Char) (c : Char) :
    decimalValue (xs ++ [c]) = 10 * decimalValue xs + (c.toNat - 48) := by
  simp [decimalValue, List.foldl_append]

theorem decimalDigits_facts (fuel n : Nat) (h : n ≤ fuel) :
    (∀ c ∈ decimalDigits (fuel + 1) n, isdigit c = true) ∧
      decimalDigits (fuel + 1) n ≠ [] ∧ decimalValue (decimalDigits (fuel + 1) n) = n := by
  induction fuel generalizing n with
  | zero =>
    have h0 : n = 0 := Nat.le_zero.1 h
    subst h0
    decide
  | succ f ih =>
    rw [decimalDigits]
    by_cases hn : n < 10
    · simp only [hn, if_true]
      obtain ⟨h1, h2⟩ := digitChar_facts n hn
      refine ⟨?_, by simp, ?_⟩
      · intro c hc
        simp only [List.mem_singleton] at hc
        rw [hc]; exact h1
      · simp [decimalValue, h2]
    · simp only [hn, if_false]
      obtain ⟨i1, i2, i3⟩ := ih (n / 10) (by omega)
      obtain ⟨h1, h2⟩ := digitChar_facts (n % 10) (Nat.mod_lt _ (by decide))
      refine ⟨?_, by simp, ?_⟩
      · intro c hc
        rcases List.mem_append.1 hc with hc | hc
        · exact i1 c hc
        · simp only [List.mem_singleton] at hc
          rw [hc]; exact h1
      · rw [decimalValue_snoc, i3, h2]
        omega

theorem natDigits_facts (n : Nat) :
    (∀ c ∈ natDigits n, isdigit c = true) ∧ natDigits n ≠ [] ∧
      decimalValue (natDigits n) = n :=
  decimalDigits_facts n n (le_refl _)

theorem log10Fuel_le (fuel q k : Nat) (h : q < 10 ^ (k + 1)) : log10Fuel fuel q ≤ k := by
  induction fuel generalizing q k with
  | zero => simp [log10Fuel]
  | succ f ih =>
    rw [log10Fuel]
    by_cases hq : q < 10
    · simp [hq]
    · simp only [hq, if_false]
      cases k with
      | zero => simp at h; omega
      | succ j =>
        have : q / 10 < 10 ^ (j + 1) := by
          rw [Nat.div_lt_iff_lt_mul (by decide)]
          rw [pow_succ] at h
          exact h
        have := ih (q / 10) j this
        omega

theorem log10Fuel_lt (fuel q : Nat) (h : q ≤ fuel) : q < 10 ^ (log10Fuel fuel q + 1) := by
  induction fuel generalizing q with
  | zero =>
    have h0 : q = 0 := Nat.le_zero.1 h
    subst h0
    simp [log10Fuel]
  | succ f ih =>
    rw [log10Fuel]
    by_cases hq : q < 10
    · simp [hq]
    · simp only [hq, if_false]
      have := ih (q / 10) (by omega)
      rw [pow_succ]
      have h2 := Nat.div_add_mod q 10
      have h3 := Nat.mod_lt q (show 0 < 10 by decide)
      omega

theorem fixedDigits_zero (k : Nat) : fixedDigits k 0 = List.replicate k '0' := by
  induction k with
  | zero => rfl
  | succ j ih =>
    rw [fixedDigits, Nat.zero_div, ih]
    have : digitChar (0 % 10) = '0' := by decide
    rw [this, List.replicate_succ']

theorem stripTrailingZeros_zeros (k : Nat) :
    stripTrailingZeros (List.replicate k '0') = [] := by
  unfold stripTrailingZeros
  rw [List.reverse_replicate]
  have : List.dropWhile (fun c => c == '0') (List.replicate k '0') = [] := by
    rw [List.dropWhile_eq_nil_iff]
    intro x hx
    rw [List.eq_of_mem_replicate hx]
    decide
  rw [this]
  rfl

/-- The stream output of a positive integer below one million is its decimal
numeral. -/
theorem formatMagnitude_nat (n : Nat) (h0 : 0 < n) (h : n < 1000000) :
    formatMagnitude n 1 = natDigits n := by
  have hL : log10Fuel n n ≤ 5 := log10Fuel_le n n 5 (by norm_num; exact h)
  have hU := log10Fuel_lt n n (le_refl _)
  have hx0 : floorLog10 n 1 = (log10Fuel n n : Int) := by
    unfold floorLog10
    simp [Nat.div_one]
    omega
  have hround : ∀ m : Nat, roundHalfEven m 1 = m := by
    intro m
    simp [roundHalfEven, Nat.mod_one]
  unfold formatMagnitude
  simp only [hx0]
  generalize log10Fuel n n = L at hL hU
  have hs0 : stripTrailingZeros [] = [] := rfl
  have hf0 : ∀ v, fixedDigits 0 v = [] := fun _ => rfl
  interval_cases L <;> norm_num at hU
  · have hne : ¬ n * 100000 = 1000000 := by omega
    simp [hround, hne, Nat.mul_mod_left, fixedDigits_zero]
    decide
  · have hne : ¬ n * 10000 = 1000000 := by omega
    simp [hround, hne, Nat.mul_mod_left, fixedDigits_zero]
    decide
  · have hne : ¬ n * 1000 = 1000000 := by omega
    simp [hround, hne, Nat.mul_mod_left, fixedDigits_zero]
    decide
  · have hne : ¬ n * 100 = 1000000 := by omega
    simp [hround, hne, Nat.mul_mod_left, fixedDigits_zero]
    decide
  · have hne : ¬ n * 10 = 1000000 := by omega
    simp [hround, hne, Nat.mul_mod_left, fixedDigits_zero]
    decide
  · have hne : ¬ n = 1000000 := by omega
    simp [hround, hne, hf0, hs0, Nat.mod_one]

theorem log2Fuel_le (fuel n k : Nat) (h : n < 2 ^ (k + 1)) : Double.log2Fuel fuel n ≤ k := by
  induction fuel generalizing n k with
  | zero => simp [Double.log2Fuel]
  | succ f ih =>
    rw [Double.log2Fuel]
    by_cases hq : n < 2
    · simp [hq]
    · simp only [hq, if_false]
      cases k with
      | zero => simp at h; omega
      | succ j =>
        have : n / 2 < 2 ^ (j + 1) := by
          rw [Nat.div_lt_iff_lt_mul (by decide)]
          rw [pow_succ] at h
          exact h
        have := ih (n / 2) j this
        omega

theorem stripTwos_spec (fuel m : Nat) (e : Int) (hm : m ≠ 0) (hf : m < 2 ^ fuel) :
    ∃ k : Nat, Double.stripTwos fuel m e = (m / 2 ^ k, e + (k : Int)) ∧ 2 ^ k ∣ m ∧
      (m / 2 ^ k) % 2 = 1 := by
  induction fuel generalizing m e with
  | zero => simp at hf; omega
  | succ f ih =>
    rw [Double.stripTwos]
    by_cases hev : m % 2 = 0 ∧ m ≠ 0
    · rw [if_pos hev]
      have h2 : m / 2 ≠ 0 := by omega
      have h3 : m / 2 < 2 ^ f := by
        rw [Nat.div_lt_iff_lt_mul (by decide)]
        rw [pow_succ] at hf
        exact hf
      obtain ⟨k, hk1, hk2, hk3⟩ := ih (m / 2) (e + 1) h2 h3
      refine ⟨k + 1, ?_, ?_, ?_⟩
      · rw [hk1]
        refine Prod.ext ?_ ?_
        · show m / 2 / 2 ^ k = m / 2 ^ (k + 1)
          rw [Nat.div_div_eq_div_mul, pow_succ']
        · show e + 1 + (k : Int) = e + ((k + 1 : Nat) : Int)
          push_cast
          ring
      · have hd : 2 ∣ m := Nat.dvd_of_mod_eq_zero hev.1
        obtain ⟨c, hc⟩ := hd
        rw [hc, Nat.mul_div_cancel_left _ (by decide)] at hk2
        rw [hc, pow_succ, Nat.mul_comm]
        exact Nat.mul_dvd_mul_left 2 hk2
      · rw [Nat.div_div_eq_div_mul, ← pow_succ'] at hk3
        exact hk3
    · rw [if_neg hev]
      refine ⟨0, by simp, by simp, ?_⟩
      simp only [pow_zero, Nat.div_one]
      omega

theorem floorLog2_nat (n : Nat) (h : n < 2 ^ 53) :
    -1 ≤ Double.floorLog2 n 1 ∧ Double.floorLog2 n 1 ≤ 52 := by
  have h1 : Double.log2Fuel 1 1 = 0 := by decide
  have h2 := log2Fuel_le n n 52 h
  unfold Double.floorLog2
  simp only [h1]
  have h3 : (0 : Int) ≤ (Double.log2Fuel n n : Int) - ((0 : Nat) : Int) := by simp
  simp only [h3, if_true]
  split_ifs <;> omega

theorem roundInfo_nat (n : Nat) (h0 : 0 < n) (h : n < 2 ^ 53) :
    ∃ k : Nat, Double.roundInfo false n 1 =
      ⟨Double.mkFinite false (n * 2 ^ k) (-(k : Int)), false, false, false⟩ := by
  obtain ⟨hl, hu⟩ := floorLog2_nat n h
  unfold Double.roundInfo
  generalize Double.floorLog2 n 1 = fl at hl hu
  obtain ⟨k, hk⟩ : ∃ k : Nat, fl = 52 - (k : Int) := ⟨(52 - fl).toNat, by omega⟩
  subst hk
  refine ⟨k, ?_⟩
  have hn : ¬ n = 0 := by omega
  have h1 : ¬ (1024 : Int) ≤ 52 - (k : Int) := by omega
  have h2 : max (52 - (k : Int) - 52) (-1074) = -(k : Int) := by
    rw [max_eq_left (by omega)]
    omega
  simp only [hn, h1, if_false, h2]
  cases k with
  | zero => simp [Nat.mod_one]
  | succ j =>
    have h4 : ¬ ((j : Int) ≤ -1) := by omega
    have h5 : ¬ (-1 + -(j : Int) = 971) := by omega
    have h6 : ¬ (52 - ((j : Int) + 1) < -1022) := by omega
    simp [h4, h5, h6, Nat.mod_one]

theorem mkFinite_nat (n k : Nat) (h0 : 0 < n) :
    ∃ a j : Nat, Double.mkFinite false (n * 2 ^ k) (-(k : Int)) = Double.fin false a (j : Int) ∧
      a * 2 ^ j = n ∧ a ≠ 0 := by
  have hpos : 0 < 2 ^ k := pow_pos (by decide) _
  have hm : n * 2 ^ k ≠ 0 := Nat.mul_ne_zero (by omega) (by omega)
  obtain ⟨k1, hs, hdvd, hodd⟩ := stripTwos_spec (n * 2 ^ k) (n * 2 ^ k) (-(k : Int)) hm
    (Nat.lt_pow_self (by decide) _)
  have hle : k ≤ k1 := by
    by_contra hlt
    have hlt : k1 < k := by omega
    have e : n * 2 ^ k = (n * 2 ^ (k - k1 - 1) * 2) * 2 ^ k1 := by
      have : k = (k - k1 - 1) + 1 + k1 := by omega
      conv_lhs => rw [this, pow_add, pow_succ]
      ring
    rw [e, Nat.mul_div_cancel _ (pow_pos (by decide) _)] at hodd
    omega
  obtain ⟨a, ha⟩ := hdvd
  have hdiv : n * 2 ^ k / 2 ^ k1 = a := by
    rw [ha, Nat.mul_div_cancel_left _ (pow_pos (by decide) _)]
  refine ⟨a, k1 - k, ?_, ?_, ?_⟩
  · unfold Double.mkFinite
    simp only [hm, if_false, hs, hdiv]
    congr 1
    omega
  · have e : 2 ^ k1 = 2 ^ (k1 - k) * 2 ^ k := by
      rw [← pow_add]
      congr 1
      omega
    rw [e] at ha
    have : n * 2 ^ k = a * 2 ^ (k1 - k) * 2 ^ k := by rw [ha]; ring
    exact (Nat.eq_of_mul_eq_mul_right hpos this).symm
  · intro e
    rw [e] at hdiv
    rw [hdiv] at hodd
    omega

theorem ofNat_roundInfo (n : Nat) : Double.ofNat n = (Double.roundInfo false n 1).value := by
  simp [Double.ofNat, Double.roundDyadic, Double.round]

/-- The stream output of the `double` of a positive integer below one million is
its decimal numeral. -/
theorem formatDouble_ofNat (n : Nat) (h0 : 0 < n) (h : n < 1000000) :
    formatDouble (Double.ofNat n) = natDigits n := by
  obtain ⟨k, hk⟩ := roundInfo_nat n h0 (by omega)
  obtain ⟨a, j, hf, hv, ha⟩ := mkFinite_nat n k h0
  rw [ofNat_roundInfo, hk]
  simp only [hf, formatDouble]
  have hj : (0 : Int) ≤ (j : Int) := Int.natCast_nonneg j
  simp only [ha, hj, if_true, if_false, Int.toNat_ofNat, hv, Bool.false_eq_true,
    List.nil_append]
  exact formatMagnitude_nat n h0 h

/-- An integer from 0 to 999999 is printed by the stream as its decimal numeral,
which reads back as the same value. -/
theorem printsExactly_ofNat (n : Nat) (h : n < 1000000) : printsExactly (Double.ofNat n) := by
  rcases Nat.eq_zero_or_pos n with h0 | h0
  · subst h0
    decide!
  · obtain ⟨d1, d2, d3⟩ := natDigits_facts n
    obtain ⟨k, hk⟩ := roundInfo_nat n h0 (by omega)
    have hr : literalRounding (natDigits n) none = Double.roundInfo false n 1 := by
      simp [literalRounding, fractionDigits, d3]
    have hlit := isNumber_literal (natDigits n) none d1 (by simp [fractionDigits])
      (Or.inl d2) (by rw [hr, hk]) (by rw [hr, hk]; rfl)
    have hd : decimalLiteral (natDigits n) none = natDigits n := by
      simp [decimalLiteral]
    rw [hd, hr, ← ofNat_roundInfo] at hlit
    unfold printsExactly
    rw [formatDouble_ofNat n h0 h]
    exact ⟨fun c hc => Or.inl (d1 c hc), hlit.1, hlit.2⟩

/-! ## Main results -/

/-- C1: a binary operator of higher precedence binds tighter. For numeric tokens
`a`, `b`, `c` and binary operators `p`, `q` with `getPrecedence p < getPrecedence q`,
`a p b q c` converts to `a b c q p` and `a q b p c` to `a b q c p`; and
`evaluate("2+3*4")` is `14`. -/
theorem precedence_binds_tighter (a b c p q : String)
    (ha : isNumber a = true) (hb : isNumber b = true) (hc : isNumber c = true)
    (hp : isBinaryOperator p = true) (hq : isBinaryOperator q = true)
    (hpq : getPrecedence p < getPrecedence q) (pow : Double → Double → Double) :
    infixToPostfix [a, p, b, q, c] = Except.ok [a, b, c, q, p] ∧
    infixToPostfix [a, q, b, p, c] = Except.ok [a, b, q, c, p] ∧
    (ExpressionEvaluator.new pow).evaluate "2+3*4" = Except.ok (Double.ofNat 14) := by
  have hpne : p ≠ "^" := by
    intro h
    have := (binary_prec hp).2.2.2.2 h
    have := (binary_prec hq).2.1
    omega
  refine ⟨?_, ?_, rfl⟩
  · have hkeep : ¬ (q ≠ "^" ∧ getPrecedence q ≤ getPrecedence p) := by
      rintro ⟨-, h⟩; omega
    simp only [infixToPostfix, infixLoop_number ha, infixLoop_number hb, infixLoop_number hc,
      infixLoop_binary hp, infixLoop_binary hq, popOperators_nil, popOperators_single hp hq,
      if_neg hkeep, infixLoop_nil, List.nil_append, List.cons_append,
      drainOperators_binary hq, drainOperators_binary hp, drainOperators_nil]
  · have hpop : (p ≠ "^" ∧ getPrecedence p ≤ getPrecedence q) := ⟨hpne, by omega⟩
    simp only [infixToPostfix, infixLoop_number ha, infixLoop_number hb, infixLoop_number hc,
      infixLoop_binary hp, infixLoop_binary hq, popOperators_nil, popOperators_single hq hp,
      if_pos hpop, infixLoop_nil, List.nil_append, List.cons_append,
      drainOperators_binary hp, drainOperators_nil]

/-- The instance `2 + 3 * 4` of `precedence_binds_tighter`. -/
theorem precedence_binds_tighter_witness :
    infixToPostfix ["2", "+", "3", "*", "4"] = Except.ok ["2", "3", "4", "*", "+"] ∧
    infixToPostfix ["2", "*", "3", "+", "4"] = Except.ok ["2", "3", "*", "4", "+"] ∧
    (ExpressionEvaluator.new powIntegral).evaluate "2+3*4" = Except.ok (Double.ofNat 14) :=
  precedence_binds_tighter "2" "3" "4" "+" "*" (by decide) (by decide) (by decide)
    (by decide) (by decide) (by decide) powIntegral

/-- C2: parentheses override precedence. For numeric tokens `a`, `b`, `c` and any
binary operators `p`, `q`, the sequence `( a p b ) q c` converts to `a b p c q`, whose
tree has the group `p a b` as the left operand of `q`; and `evaluate("(2+3)*4")` is `20`. -/
theorem parentheses_override_precedence (a b c p q : String)
    (ha : isNumber a = true) (hb : isNumber b = true) (hc : isNumber c = true)
    (hp : isBinaryOperator p = true) (hq : isBinaryOperator q = true)
    (pow : Double → Double → Double) :
    infixToPostfix ["(", a, p, b, ")", q, c] = Except.ok [a, b, p, c, q] ∧
    buildTreeFromPostfix [a, b, p, c, q] =
      Except.ok (Node.binaryOp q
        (Node.binaryOp p (Node.operand (literalValue a)) (Node.operand (literalValue b)))
        (Node.operand (literalValue c))) ∧
    (ExpressionEvaluator.new pow).evaluate "(2+3)*4" = Except.ok (Double.ofNat 20) := by
  refine ⟨?_, build_left_nested ha hb hc hp hq, rfl⟩
  simp only [infixToPostfix, infixLoop_lparen, infixLoop_number ha, infixLoop_number hb,
    infixLoop_number hc, infixLoop_binary hp, infixLoop_binary hq, popOperators_lparen,
    infixLoop_rparen, popToParen_binary hp, popToParen_lparen, popOperators_nil,
    infixLoop_nil, List.nil_append, List.cons_append, drainOperators_binary hq,
    drainOperators_nil, beq_self_eq_true, if_true]

/-- The instance `(2 + 3) * 4` of `parentheses_override_precedence`. -/
theorem parentheses_override_precedence_witness :
    infixToPostfix ["(", "2", "+", "3", ")", "*", "4"] = Except.ok ["2", "3", "+", "4", "*"] ∧
    buildTreeFromPostfix ["2", "3", "+", "4", "*"] =
      Except.ok (Node.binaryOp "*"
        (Node.binaryOp "+" (Node.operand (literalValue "2")) (Node.operand (literalValue "3")))
        (Node.operand (literalValue "4"))) ∧
    (ExpressionEvaluator.new powIntegral).evaluate "(2+3)*4" = Except.ok (Double.ofNat 20) :=
  parentheses_override_precedence "2" "3" "4" "+" "*" (by decide) (by decide) (by decide)
    (by decide) (by decide) powIntegral

/-- C3: the power operator is right-associative. For numeric tokens `a`, `b`, `c`,
`a ^ b ^ c` converts to `a b c ^ ^`, whose tree is `^(a, ^(b, c))`; `evaluate("2^3^2")`
is `pow(2, pow(3, 2))`, which is `512` and not `64` as soon as `std::pow` gives
`pow(3, 2) = 9` and `pow(2, 9) = 512`. -/
theorem power_right_associative (a b c : String)
    (ha : isNumber a = true) (hb : isNumber b = true) (hc : isNumber c = true)
    (pow : Double → Double → Double) :
    infixToPostfix [a, "^", b, "^", c] = Except.ok [a, b, c, "^", "^"] ∧
    buildTreeFromPostfix [a, b, c, "^", "^"] =
      Except.ok (Node.binaryOp "^" (Node.operand (literalValue a))
        (Node.binaryOp "^" (Node.operand (literalValue b)) (Node.operand (literalValue c)))) ∧
    (ExpressionEvaluator.new pow).evaluate "2^3^2" =
      Except.ok (pow (Double.ofNat 2) (pow (Double.ofNat 3) (Double.ofNat 2))) ∧
    (pow (Double.ofNat 3) (Double.ofNat 2) = Double.ofNat 9 →
      pow (Double.ofNat 2) (Double.ofNat 9) = Double.ofNat 512 →
      (ExpressionEvaluator.new pow).evaluate "2^3^2" = Except.ok (Double.ofNat 512) ∧
      (ExpressionEvaluator.new pow).evaluate "2^3^2" ≠ Except.ok (Double.ofNat 64)) := by
  have hpw : isBinaryOperator "^" = true := by decide
  have hev : (ExpressionEvaluator.new pow).evaluate "2^3^2" =
      Except.ok (pow (Double.ofNat 2) (pow (Double.ofNat 3) (Double.ofNat 2))) := rfl
  refine ⟨?_, build_right_nested ha hb hc hpw hpw, hev, ?_⟩
  · have hkeep : ¬ (("^" : String) ≠ "^" ∧ getPrecedence "^" ≤ getPrecedence "^") := by
      simp
    simp only [infixToPostfix, infixLoop_number ha, infixLoop_number hb, infixLoop_number hc,
      infixLoop_binary hpw, popOperators_nil, popOperators_single hpw hpw, if_neg hkeep,
      infixLoop_nil, List.nil_append, List.cons_append, drainOperators_binary hpw,
      drainOperators_nil]
  · intro h1 h2
    rw [hev, h1, h2]
    exact ⟨rfl, by decide!⟩

/-- The instance `2 ^ 3 ^ 2` of `power_right_associative`, with exact integral powers. -/
theorem power_right_associative_witness :
    infixToPostfix ["2", "^", "3", "^", "2"] = Except.ok ["2", "3", "2", "^", "^"] ∧
    (ExpressionEvaluator.new powIntegral).evaluate "2^3^2" = Except.ok (Double.ofNat 512) ∧
    (ExpressionEvaluator.new powIntegral).evaluate "2^3^2" ≠ Except.ok (Double.ofNat 64) :=
  have h := power_right_associative "2" "3" "2" (by decide) (by decide) (by decide) powIntegral
  ⟨h.1, h.2.2.2 (by decide) (by decide)⟩

/-- C4: binary operators of equal precedence other than `^` group left to right.
For numeric tokens `a`, `b`, `c` and binary operators `p`, `q` of equal precedence with
`q` not `^` (so `p` is not `^` either), `a p b q c` converts to `a b p c q`, whose tree
is `q(p(a, b), c)`; and `evaluate("10-4-3")` is `3`, not `9`. -/
theorem equal_precedence_groups_left (a b c p q : String)
    (ha : isNumber a = true) (hb : isNumber b = true) (hc : isNumber c = true)
    (hp : isBinaryOperator p = true) (hq : isBinaryOperator q = true)
    (hqne : q ≠ "^") (hpq : getPrecedence p = getPrecedence q)
    (pow : Double → Double → Double) :
    infixToPostfix [a, p, b, q, c] = Except.ok [a, b, p, c, q] ∧
    buildTreeFromPostfix [a, b, p, c, q] =
      Except.ok (Node.binaryOp q
        (Node.binaryOp p (Node.operand (literalValue a)) (Node.operand (literalValue b)))
        (Node.operand (literalValue c))) ∧
    (ExpressionEvaluator.new pow).evaluate "10-4-3" = Except.ok (Double.ofNat 3) ∧
    (ExpressionEvaluator.new pow).evaluate "10-4-3" ≠ Except.ok (Double.ofNat 9) := by
  have hev : (ExpressionEvaluator.new pow).evaluate "10-4-3" = Except.ok (Double.ofNat 3) := rfl
  refine ⟨?_, build_left_nested ha hb hc hp hq, hev, by rw [hev]; decide⟩
  have hpop : (q ≠ "^" ∧ getPrecedence q ≤ getPrecedence p) := ⟨hqne, by omega⟩
  simp only [infixToPostfix, infixLoop_number ha, infixLoop_number hb, infixLoop_number hc,
    infixLoop_binary hp, infixLoop_binary hq, popOperators_nil, popOperators_single hp hq,
    if_pos hpop, infixLoop_nil, List.nil_append, List.cons_append,
    drainOperators_binary hq, drainOperators_nil]

/-- The instance `10 - 4 - 3` of `equal_precedence_groups_left`. -/
theorem equal_precedence_groups_left_witness :
    infixToPostfix ["10", "-", "4", "-", "3"] = Except.ok ["10", "4", "-", "3", "-"] ∧
    (ExpressionEvaluator.new powIntegral).evaluate "10-4-3" = Except.ok (Double.ofNat 3) :=
  have h := equal_precedence_groups_left "10" "4" "3" "-" "-" (by decide) (by decide)
    (by decide) (by decide) (by decide) (by decide) (by decide) powIntegral
  ⟨h.1, h.2.2.1⟩

/-- C5: a unary operator binds tighter than power. For numeric tokens `a`, `b` and
a unary operator token `u` (`u-`, `~` or `not`), `u a ^ b` converts to `a u b ^`;
`buildExpressionTree("-2^2")` is the node `^` with left child unary minus of `2` and
right child `2`, and `evaluate("-2^2")` is `pow(-2, 2)`, which is `4` as soon as
`std::pow` gives that value. -/
theorem unary_binds_tighter_than_power (a b u : String)
    (ha : isNumber a = true) (hb : isNumber b = true) (hu : isUnaryOperator u = true)
    (pow : Double → Double → Double) :
    infixToPostfix [u, a, "^", b] = Except.ok [a, u, b, "^"] ∧
    buildExpressionTree "-2^2" =
      Except.ok ⟨Node.binaryOp "^" (Node.unaryOp "-" (Node.operand (Double.ofNat 2)))
        (Node.operand (Double.ofNat 2))⟩ ∧
    (ExpressionEvaluator.new pow).evaluate "-2^2" =
      Except.ok (pow (Double.neg (Double.ofNat 2)) (Double.ofNat 2)) ∧
    (pow (Double.neg (Double.ofNat 2)) (Double.ofNat 2) = Double.ofNat 4 →
      (ExpressionEvaluator.new pow).evaluate "-2^2" = Except.ok (Double.ofNat 4)) := by
  have hpw : isBinaryOperator "^" = true := by decide
  have hev : (ExpressionEvaluator.new pow).evaluate "-2^2" =
      Except.ok (pow (Double.neg (Double.ofNat 2)) (Double.ofNat 2)) := rfl
  refine ⟨?_, by decide, hev, fun h => by rw [hev, h]⟩
  simp only [infixToPostfix, infixLoop_number ha, infixLoop_number hb, infixLoop_unary hu,
    infixLoop_binary hpw, popOperators_pow_unary hu, infixLoop_nil, List.nil_append,
    List.cons_append, drainOperators_binary hpw, drainOperators_nil]

/-- The instance `-2 ^ 2` of `unary_binds_tighter_than_power`, with exact integral powers. -/
theorem unary_binds_tighter_than_power_witness :
    infixToPostfix ["u-", "2", "^", "2"] = Except.ok ["2", "u-", "2", "^"] ∧
    (ExpressionEvaluator.new powIntegral).evaluate "-2^2" = Except.ok (Double.ofNat 4) :=
  have h := unary_binds_tighter_than_power "2" "2" "u-" (by decide) (by decide) (by decide)
    powIntegral
  ⟨h.1, h.2.2.2 (by decide)⟩

/-- C6: `infixToPostfix` fails exactly on unbalanced parentheses, and then with the
mismatched-parentheses error. If some prefix of the tokens holds more `)` than `(`, or
the whole sequence more `(` than `)`, the result is that error; otherwise the
conversion returns an output. `evaluate("(1+2")` and `evaluate("1+2)")` both fail with
that error. -/
theorem infixToPostfix_fails_iff_unbalanced (tokens : List String)
    (pow : Double → Double → Double) :
    (unbalanced tokens → infixToPostfix tokens = Except.error mismatched) ∧
    (¬ unbalanced tokens → ∃ out, infixToPostfix tokens = Except.ok out) ∧
    (ExpressionEvaluator.new pow).evaluate "(1+2" = Except.error mismatched ∧
    (ExpressionEvaluator.new pow).evaluate "1+2)" = Except.error mismatched := by
  have h := infixLoop_parenScan tokens [] []
  simp only [List.count_nil] at h
  refine ⟨fun hu => h.2 ((unbalanced_iff tokens).1 hu), fun hb => h.1 ?_, rfl, rfl⟩
  cases hp : parenScan 0 tokens
  · exact absurd ((unbalanced_iff tokens).2 hp) hb
  · rfl

/-- The instance `( 1 + 2` of `infixToPostfix_fails_iff_unbalanced`: one `(` is
left open. -/
theorem infixToPostfix_fails_iff_unbalanced_witness :
    unbalanced ["(", "1", "+", "2"] ∧
    infixToPostfix ["(", "1", "+", "2"] = Except.error mismatched :=
  have hu : unbalanced ["(", "1", "+", "2"] := Or.inr (by decide)
  ⟨hu, (infixToPostfix_fails_iff_unbalanced ["(", "1", "+", "2"] powIntegral).1 hu⟩

/-- C7: division and modulo by zero. For a binary node `/` (respectively `%`) whose
children evaluate to `a` and `b`, `evaluateNode` throws the division-by-zero
(respectively modulo-by-zero) error exactly when `b == 0`, that is when `b` is a zero
of either sign, and otherwise returns `a / b` (respectively `fmod(a, b)`);
`evaluate("5/0")` and `evaluate("5%0")` throw those errors. -/
theorem division_by_zero_iff (pow : Double → Double → Double) (v : Double)
    (left right : NodePtr) (a b : Double)
    (hl : (ExpressionEvaluator.new pow).evaluateNode left = Except.ok a)
    (hr : (ExpressionEvaluator.new pow).evaluateNode right = Except.ok b) :
    ((ExpressionEvaluator.new pow).evaluateNode (NodePtr.node NodeType.OPERATOR v "/" left right) =
        Except.error (Fault.ExpressionError "Error: Division by zero") ↔
      Double.isZero b = true) ∧
    (Double.isZero b = false →
      (ExpressionEvaluator.new pow).evaluateNode
        (NodePtr.node NodeType.OPERATOR v "/" left right) = Except.ok (Double.div a b)) ∧
    ((ExpressionEvaluator.new pow).evaluateNode (NodePtr.node NodeType.OPERATOR v "%" left right) =
        Except.error (Fault.ExpressionError "Error: Modulo by zero") ↔
      Double.isZero b = true) ∧
    (Double.isZero b = false →
      (ExpressionEvaluator.new pow).evaluateNode
        (NodePtr.node NodeType.OPERATOR v "%" left right) = Except.ok (Double.fmod a b)) ∧
    (Double.isZero b = true ↔ ∃ s e, b = Double.fin s 0 e) ∧
    (ExpressionEvaluator.new pow).evaluate "5/0" =
      Except.error (Fault.ExpressionError "Error: Division by zero") ∧
    (ExpressionEvaluator.new pow).evaluate "5%0" =
      Except.error (Fault.ExpressionError "Error: Modulo by zero") := by
  have hdiv : (ExpressionEvaluator.new pow).evaluateNode
      (NodePtr.node NodeType.OPERATOR v "/" left right) =
      if Double.isZero b then Except.error (Fault.ExpressionError "Error: Division by zero")
      else Except.ok (Double.div a b) := by
    rw [evaluateNode_binary _ v "/" left right a b hl hr]
    rfl
  have hmod : (ExpressionEvaluator.new pow).evaluateNode
      (NodePtr.node NodeType.OPERATOR v "%" left right) =
      if Double.isZero b then Except.error (Fault.ExpressionError "Error: Modulo by zero")
      else Except.ok (Double.fmod a b) := by
    rw [evaluateNode_binary _ v "%" left right a b hl hr]
    rfl
  rw [hdiv, hmod]
  refine ⟨?_, ?_, ?_, ?_, isZero_iff b, rfl, rfl⟩
  · cases hz : Double.isZero b <;> simp
  · intro hz; simp [hz]
  · cases hz : Double.isZero b <;> simp
  · intro hz; simp [hz]

/-- The instances `5 / 0` and `5 / 2` of `division_by_zero_iff`. -/
theorem division_by_zero_iff_witness :
    (ExpressionEvaluator.new powIntegral).evaluateNode
        (Node.binaryOp "/" (Node.operand (Double.ofNat 5)) (Node.operand (Double.ofNat 0))) =
      Except.error (Fault.ExpressionError "Error: Division by zero") ∧
    (ExpressionEvaluator.new powIntegral).evaluateNode
        (Node.binaryOp "/" (Node.operand (Double.ofNat 5)) (Node.operand (Double.ofNat 2))) =
      Except.ok (Double.div (Double.ofNat 5) (Double.ofNat 2)) :=
  ⟨(division_by_zero_iff powIntegral Double.zero (Node.operand (Double.ofNat 5))
      (Node.operand (Double.ofNat 0)) (Double.ofNat 5) (Double.ofNat 0) rfl rfl).1.2 (by decide),
   (division_by_zero_iff powIntegral Double.zero (Node.operand (Double.ofNat 5))
      (Node.operand (Double.ofNat 2)) (Double.ofNat 5) (Double.ofNat 2) rfl rfl).2.1 (by decide)⟩

/-- C8: `buildTreeFromPostfix` succeeds exactly when the node counter works out.
For a postfix sequence of numeric and operator tokens, scanned with the counter
`countScan` (a number adds one, a unary operator needs one node, a binary operator
needs two and removes one): when the count ends at one a tree is returned; when it
ends elsewhere the invalid-expression error is thrown; and when an operator lacks
operands its unary or binary syntax error is thrown. The empty sequence and `1 2`
give the invalid-expression error. -/
theorem buildTreeFromPostfix_iff_count (tokens : List String)
    (hall : ∀ t ∈ tokens, isNumber t = true ∨ isOperator t = true) :
    (countScan tokens 0 = Except.ok 1 → ∃ tree, buildTreeFromPostfix tokens = Except.ok tree) ∧
    (∀ n, countScan tokens 0 = Except.ok n → n ≠ 1 →
      buildTreeFromPostfix tokens = Except.error invalidExpression) ∧
    (∀ e, countScan tokens 0 = Except.error e → buildTreeFromPostfix tokens = Except.error e) ∧
    buildTreeFromPostfix [] = Except.error invalidExpression ∧
    buildTreeFromPostfix ["1", "2"] = Except.error invalidExpression := by
  have h := buildLoop_countScan tokens [] hall
  simp only [List.length_nil] at h
  refine ⟨?_, ?_, ?_, by decide, by decide⟩
  · intro hc
    obtain ⟨st1, h1, h2⟩ := h.1 1 hc
    match st1, h2 with
    | [root], _ => exact ⟨root, by simp [buildTreeFromPostfix, h1]⟩
  · intro n hc hne
    obtain ⟨st1, h1, h2⟩ := h.1 n hc
    rw [buildTreeFromPostfix, h1]
    match st1, h2 with
    | [], _ => rfl
    | [x], h2 => exact absurd h2.symm hne
    | x :: y :: r, _ => rfl
  · intro e hc
    rw [buildTreeFromPostfix, h.2 e hc]

/-- The instances `2 3 +`, `2 +` and `~` of `buildTreeFromPostfix_iff_count`. -/
theorem buildTreeFromPostfix_iff_count_witness :
    (∃ tree, buildTreeFromPostfix ["2", "3", "+"] = Except.ok tree) ∧
    buildTreeFromPostfix ["2", "+"] = Except.error binarySyntax ∧
    buildTreeFromPostfix ["~"] = Except.error unarySyntax :=
  ⟨(buildTreeFromPostfix_iff_count ["2", "3", "+"] (by decide)).1 (by decide),
   (buildTreeFromPostfix_iff_count ["2", "+"] (by decide)).2.2.1 _ (by decide),
   (buildTreeFromPostfix_iff_count ["~"] (by decide)).2.2.1 _ (by decide)⟩

/-- C9 (the code at the failing inputs): an identifier that is not a keyword
operator is passed through by `tokenize` and `infixToPostfix` and then dropped by
`buildTreeFromPostfix`, which has no branch for it; `evaluate("5 x")` and
`evaluate("x 5")` return `5` instead of failing. -/
theorem opaque_token_is_dropped (pow : Double → Double → Double) :
    tokenize "5 x" = ["5", "x"] ∧ isNumber "x" = false ∧ isOperator "x" = false ∧
    infixToPostfix ["5", "x"] = Except.ok ["5", "x"] ∧
    buildTreeFromPostfix ["5", "x"] = Except.ok (Node.operand (Double.ofNat 5)) ∧
    (ExpressionEvaluator.new pow).evaluate "5 x" = Except.ok (Double.ofNat 5) ∧
    (ExpressionEvaluator.new pow).evaluate "x 5" = Except.ok (Double.ofNat 5) :=
  ⟨by decide, by decide, by decide, by decide, by decide, rfl, rfl⟩

/-- C14: the operator table is closed and ranked as specified. The symbols accepted
by `isOperator` are exactly the 24 listed; `getPrecedence` is 8 for `u-`, `~`, `not`,
7 for `^`, 6 for `*`, `/`, `%`, 5 for `+`, `-`, 4 for `<<`, `>>`, 3 for `<`, `>`, `<=`,
`>=`, 2 for `==`, `!=`, and 1 for `&`, `|`, `xor`, `&&`, `||`, `and`, `or`, so never the
default 0 on an operator; and `isRightAssociative` holds exactly for `^`, `u-`, `~`
and `not`. -/
theorem operator_table_ranking :
    (∀ op, isOperator op = true ↔
      op ∈ ["u-", "~", "not", "^", "*", "/", "%", "+", "-", "<<", ">>", "<", ">", "<=", ">=",
        "==", "!=", "&", "|", "xor", "&&", "||", "and", "or"]) ∧
    (∀ op ∈ ["u-", "~", "not"], getPrecedence op = 8) ∧
    getPrecedence "^" = 7 ∧
    (∀ op ∈ ["*", "/", "%"], getPrecedence op = 6) ∧
    (∀ op ∈ ["+", "-"], getPrecedence op = 5) ∧
    (∀ op ∈ ["<<", ">>"], getPrecedence op = 4) ∧
    (∀ op ∈ ["<", ">", "<=", ">="], getPrecedence op = 3) ∧
    (∀ op ∈ ["==", "!="], getPrecedence op = 2) ∧
    (∀ op ∈ ["&", "|", "xor", "&&", "||", "and", "or"], getPrecedence op = 1) ∧
    (∀ op, isOperator op = true → getPrecedence op ≠ 0) ∧
    (∀ op, isRightAssociative op = true ↔ op ∈ ["^", "u-", "~", "not"]) := by
  refine ⟨?_, by decide, by decide, by decide, by decide, by decide, by decide, by decide,
    by decide, ?_, ?_⟩
  · intro op
    constructor
    · intro h
      have hc := operator_cases h
      simp only [operators, List.mem_cons, List.mem_singleton, List.mem_nil_iff, or_false] at hc
      rcases hc with h | h | h | h | h | h | h | h | h | h | h | h | h | h | h | h | h | h |
        h | h | h | h | h | h <;> subst h <;> decide
    · intro hc
      simp only [List.mem_cons, List.mem_singleton, List.mem_nil_iff, or_false] at hc
      rcases hc with h | h | h | h | h | h | h | h | h | h | h | h | h | h | h | h | h | h |
        h | h | h | h | h | h <;> subst h <;> decide
  · intro op h
    have hc := operator_cases h
    simp only [operators, List.mem_cons, List.mem_singleton, List.mem_nil_iff, or_false] at hc
    rcases hc with h | h | h | h | h | h | h | h | h | h | h | h | h | h | h | h | h | h |
      h | h | h | h | h | h <;> subst h <;> decide
  · intro op
    simp [isRightAssociative]

/-- C12: bitwise operators work on truncated operands. For a node whose children
evaluate to `a` and `b` with truncations toward zero `x` and `y` that fit in an `int`,
`&`, `|` and `xor` evaluate to the `double` of the bitwise AND, OR and XOR of `x` and
`y` (bit by bit in two's complement); `6.9` truncates to `6`, `3.2` to `3` and `-6.9`
to `-6`, so `evaluate("6.9&3.2")` is `2`; and `evaluate("6&3")`, `evaluate("6|1")`,
`evaluate("6 xor 3")` are `2`, `7`, `5`. -/
theorem bitwise_operators_truncate (pow : Double → Double → Double) (v : Double)
    (left right : NodePtr) (a b : Double) (x y : Int)
    (hl : (ExpressionEvaluator.new pow).evaluateNode left = Except.ok a)
    (hr : (ExpressionEvaluator.new pow).evaluateNode right = Except.ok b)
    (hx : a.toInt = some x) (hy : b.toInt = some y) :
    (ExpressionEvaluator.new pow).evaluateNode (NodePtr.node NodeType.OPERATOR v "&" left right) =
      Except.ok (Double.ofInt (Int.land x y)) ∧
    (ExpressionEvaluator.new pow).evaluateNode (NodePtr.node NodeType.OPERATOR v "|" left right) =
      Except.ok (Double.ofInt (Int.lor x y)) ∧
    (ExpressionEvaluator.new pow).evaluateNode
        (NodePtr.node NodeType.OPERATOR v "xor" left right) =
      Except.ok (Double.ofInt (Int.xor x y)) ∧
    (∀ k, (Int.land x y).testBit k = (x.testBit k && y.testBit k)) ∧
    (∀ k, (Int.lor x y).testBit k = (x.testBit k || y.testBit k)) ∧
    (∀ k, (Int.xor x y).testBit k = xor (x.testBit k) (y.testBit k)) ∧
    (literalValue "6.9").toInt = some 6 ∧ (literalValue "3.2").toInt = some 3 ∧
    (Double.neg (literalValue "6.9")).toInt = some (-6) ∧
    (ExpressionEvaluator.new pow).evaluate "6.9&3.2" = Except.ok (Double.ofNat 2) ∧
    (ExpressionEvaluator.new pow).evaluate "6&3" = Except.ok (Double.ofNat 2) ∧
    (ExpressionEvaluator.new pow).evaluate "6|1" = Except.ok (Double.ofNat 7) ∧
    (ExpressionEvaluator.new pow).evaluate "6 xor 3" = Except.ok (Double.ofNat 5) := by
  refine ⟨?_, ?_, ?_, Int.testBit_land x y, Int.testBit_lor x y, Int.testBit_lxor x y,
    by decide!, by decide!, by decide!, ?_, ?_, ?_, ?_⟩
  · rw [evaluateNode_binary _ v "&" left right a b hl hr]
    exact intBinary_some _ a b x y hx hy
  · rw [evaluateNode_binary _ v "|" left right a b hl hr]
    exact intBinary_some _ a b x y hx hy
  · rw [evaluateNode_binary _ v "xor" left right a b hl hr]
    exact intBinary_some _ a b x y hx hy
  · rfl
  · rfl
  · rfl
  · rfl

/-- The instance `6.9 & 3.2` of `bitwise_operators_truncate`. -/
theorem bitwise_operators_truncate_witness :
    (ExpressionEvaluator.new powIntegral).evaluateNode
        (Node.binaryOp "&" (Node.operand (literalValue "6.9"))
          (Node.operand (literalValue "3.2"))) =
      Except.ok (Double.ofInt (Int.land 6 3)) ∧
    Double.ofInt (Int.land 6 3) = Double.ofNat 2 :=
  ⟨(bitwise_operators_truncate powIntegral Double.zero (Node.operand (literalValue "6.9"))
      (Node.operand (literalValue "3.2")) (literalValue "6.9") (literalValue "3.2") 6 3
      rfl rfl (by decide!) (by decide!)).1,
   by decide!⟩

/-- C13: unary disambiguation in `tokenize`. When the scanning loop is at a `-`
with `tokens` emitted so far, it emits `u-` if no token has been emitted or the last
one is `(` or an operator symbol, and binary `-` otherwise; at a `+` in those same
unary positions it emits nothing, and `+` otherwise. `tokenize("+5")` is `5` and
`tokenize("2*-3")` is `2 * u- 3`. -/
theorem unary_disambiguation (fuel : Nat) (rest : List Char) (tokens : List String) :
    (unaryPosition tokens →
      tokenizeLoop (fuel + 1) ('-' :: rest) tokens = tokenizeLoop fuel rest (tokens ++ ["u-"])) ∧
    (¬ unaryPosition tokens →
      tokenizeLoop (fuel + 1) ('-' :: rest) tokens = tokenizeLoop fuel rest (tokens ++ ["-"])) ∧
    (unaryPosition tokens →
      tokenizeLoop (fuel + 1) ('+' :: rest) tokens = tokenizeLoop fuel rest tokens) ∧
    (¬ unaryPosition tokens →
      tokenizeLoop (fuel + 1) ('+' :: rest) tokens = tokenizeLoop fuel rest (tokens ++ ["+"])) ∧
    tokenize "+5" = ["5"] ∧ tokenize "2*-3" = ["2", "*", "u-", "3"] := by
  have hm := tokenizeLoop_minus fuel rest tokens
  have hp := tokenizeLoop_plus fuel rest tokens
  have hu := unaryPosition_iff tokens
  refine ⟨fun h => ?_, fun h => ?_, fun h => ?_, fun h => ?_, by decide, by decide⟩
  · rw [hm, if_pos (hu.2 h)]
  · rw [hm, if_neg (fun hc => h (hu.1 hc))]
  · rw [hp, if_pos (hu.2 h)]
  · rw [hp, if_neg (fun hc => h (hu.1 hc))]

/-- The instances `2 * -3` and `2 -3` of `unary_disambiguation`. -/
theorem unary_disambiguation_witness :
    unaryPosition ["2", "*"] ∧
    tokenizeLoop 2 ['-', '3'] ["2", "*"] = tokenizeLoop 1 ['3'] ["2", "*", "u-"] ∧
    ¬ unaryPosition ["2"] ∧
    tokenizeLoop 2 ['-', '3'] ["2"] = tokenizeLoop 1 ['3'] ["2", "-"] :=
  have h1 : unaryPosition ["2", "*"] := Or.inr ⟨"*", rfl, Or.inr (by decide)⟩
  have h2 : ¬ unaryPosition ["2"] := by
    rintro (h | ⟨t, ht, h⟩)
    · exact absurd h (by decide)
    · have : t = "2" := by simpa using ht.symm
      subst this
      rcases h with h | h
      · exact absurd h (by decide)
      · exact absurd h (by decide)
  ⟨h1, (unary_disambiguation 1 ['3'] ["2", "*"]).1 h1, h2,
    (unary_disambiguation 1 ['3'] ["2"]).2.1 h2⟩

/-- C20: greedy longest match. When the scanning loop is at a position where the
text starts with one of `==`, `!=`, `<=`, `>=`, `&&`, `||`, `<<`, `>>`, it emits that
one two-character token and goes on after both characters. `tokenize("3<=5")` is
`3 <= 5` and `tokenize("1<<2")` is `1 << 2`. -/
theorem greedy_longest_match (fuel : Nat) (rest : List Char) (tokens : List String)
    (op : String) (hop : op ∈ multiCharOps) :
    tokenizeLoop (fuel + 1) (op.data ++ rest) tokens = tokenizeLoop fuel rest (tokens ++ [op]) ∧
    tokenize "3<=5" = ["3", "<=", "5"] ∧ tokenize "1<<2" = ["1", "<<", "2"] := by
  refine ⟨?_, by decide, by decide⟩
  simp only [multiCharOps, List.mem_cons, List.mem_singleton, List.mem_nil_iff, or_false] at hop
  have e1 : "==".data = ['=', '='] := rfl
  have e2 : "!=".data = ['!', '='] := rfl
  have e3 : "<=".data = ['<', '='] := rfl
  have e4 : ">=".data = ['>', '='] := rfl
  have e5 : "&&".data = ['&', '&'] := rfl
  have e6 : "||".data = ['|', '|'] := rfl
  have e7 : "<<".data = ['<', '<'] := rfl
  have e8 : ">>".data = ['>', '>'] := rfl
  rcases hop with h | h | h | h | h | h | h | h <;> subst h <;>
    simp only [e1, e2, e3, e4, e5, e6, e7, e8, List.cons_append, List.nil_append] <;>
    rw [tokenizeLoop] <;>
    simp [multiCharOps, List.find?, List.isPrefixOf, isspace, isdigit, e1, e2, e3, e4, e5,
      e6, e7, e8] <;>
    rfl

/-- The instance `3 <= 5` of `greedy_longest_match`. -/
theorem greedy_longest_match_witness :
    tokenizeLoop 2 ['<', '=', '5'] ["3"] = tokenizeLoop 1 ['5'] ["3", "<="] :=
  (greedy_longest_match 1 ['5'] ["3"] "<=" (by decide)).1

/-- C17: pushing unary operators unconditionally is the same as treating them by
the generic comparison rule. On every token sequence the variant `infixToPostfixGeneric`,
which sends `u-`, `~` and `not` through the same pop loop as binary operators, returns
the same output or the same failure as `infixToPostfix`. -/
theorem unary_push_matches_generic_rule (tokens : List String) :
    infixToPostfixGeneric tokens = infixToPostfix tokens :=
  infixLoopGeneric_eq tokens [] []

/-- C15: every tree returned by `buildTreeFromPostfix` is well-formed: each operand
node has no children, each unary node has no left child and a present right child,
and each binary node has both children present, all the way down. -/
theorem built_tree_is_well_formed (tokens : List String) (tree : NodePtr)
    (h : buildTreeFromPostfix tokens = Except.ok tree) : WellFormed tree := by
  unfold buildTreeFromPostfix at h
  cases hb : buildLoop tokens [] with
  | error e => simp [hb] at h
  | ok st =>
    rw [hb] at h
    have hw := buildLoop_wellFormed tokens [] st (by simp) hb
    match st, h, hw with
    | [], h, _ => simp at h
    | [root], h, hw =>
      simp only [Except.ok.injEq] at h
      subst h
      exact hw _ (List.mem_cons_self _ _)
    | x :: y :: r, h, _ => simp at h

/-- The instance `2 3 u- +` of `built_tree_is_well_formed`. -/
theorem built_tree_is_well_formed_witness :
    WellFormed (Node.binaryOp "+" (Node.operand (literalValue "2"))
      (Node.unaryOp "-" (Node.operand (literalValue "3")))) :=
  built_tree_is_well_formed ["2", "3", "u-", "+"] _ (by decide)

/-- C16: `buildTreeFromPostfix` inverts the post-order listing. For every expression
tree `t` whose unary operators are among `-`, `~`, `not` and whose binary operators are
binary symbols of the table, and every way `render` of writing its operand values as
numeric tokens, building from the post-order tokens of `t` (left subtree, right subtree,
node, with unary minus written `u-`) returns exactly the nodes of `t`, which form a
well-formed tree; in particular `a b op` gives the binary node `op` with left child `a`
and right child `b`. -/
theorem build_inverts_post_order (render : Double → String) (t : Expr) (hops : t.knownOps)
    (hrender : ∀ v ∈ t.leaves, isNumber (render v) = true ∧ literalValue (render v) = v) :
    buildTreeFromPostfix (t.postOrderTokens render) = Except.ok t.toNode ∧
    WellFormed t.toNode ∧
    (∀ a b op : String, isNumber a = true → isNumber b = true → isBinaryOperator op = true →
      buildTreeFromPostfix [a, b, op] =
        Except.ok (Node.binaryOp op (Node.operand (literalValue a))
          (Node.operand (literalValue b)))) := by
  refine ⟨?_, toNode_wellFormed t, ?_⟩
  · have h := buildLoop_postOrder render t hops hrender [] []
    rw [List.append_nil] at h
    simp [buildTreeFromPostfix, h, buildLoop_nil]
  · intro a b op ha hb hop
    simp only [buildTreeFromPostfix, buildLoop_number ha, buildLoop_number hb,
      buildLoop_binary hop, buildLoop_nil]

/-- The instance `7 * (-2)` of `build_inverts_post_order`. -/
theorem build_inverts_post_order_witness :
    buildTreeFromPostfix ["7", "2", "u-", "*"] =
      Except.ok (Node.binaryOp "*" (Node.operand (Double.ofNat 7))
        (Node.unaryOp "-" (Node.operand (Double.ofNat 2)))) :=
  (build_inverts_post_order (fun v => if v = Double.ofNat 7 then "7" else "2")
    (Expr.binary "*" (Expr.num (Double.ofNat 7)) (Expr.unary "-" (Expr.num (Double.ofNat 2))))
    ⟨by decide, trivial, Or.inl rfl, trivial⟩ (by decide)).1

/-- C19 (amended): in-order rendering wraps binary operator subtrees in parentheses.
For every binary operator node with at least one child, `inOrderTraversal` returns
`(`, the rendering of the left child, the operator between two spaces, the rendering
of the right child, and `)`; the text begins with `(` and ends with `)`, and inside a
larger tree the same text is appended for the subtree. A unary operator node is
rendered without parentheses: the operator between two spaces, then its operand. -/
theorem in_order_wraps_binary_nodes (value : Double) (op : String) (left right : NodePtr)
    (h : left ≠ NodePtr.null ∨ right ≠ NodePtr.null) (result : String) :
    (ExpressionTree.mk (NodePtr.node NodeType.OPERATOR value op left right)).inOrderTraversal =
      "(" ++ (inOrderHelper left "" ++ (" " ++ op ++ " ") ++ inOrderHelper right "") ++ ")" ∧
    inOrderHelper (NodePtr.node NodeType.OPERATOR value op left right) result =
      result ++
        ("(" ++ (inOrderHelper left "" ++ (" " ++ op ++ " ") ++ inOrderHelper right "") ++ ")") ∧
    (ExpressionTree.mk
        (NodePtr.node NodeType.OPERATOR value op left right)).inOrderTraversal.data.head? =
      some '(' ∧
    (ExpressionTree.mk
        (NodePtr.node NodeType.OPERATOR value op left right)).inOrderTraversal.data.getLast? =
      some ')' ∧
    (ExpressionTree.mk (NodePtr.node NodeType.UNARY_OP value op left right)).inOrderTraversal =
      inOrderHelper left "" ++ (" " ++ op ++ " ") ++ inOrderHelper right "" := by
  have hb := inOrderHelper_binary value op left right h
  refine ⟨hb, ?_, ?_, ?_, inOrderHelper_unary value op left right⟩
  · rw [inOrderHelper_append, hb]
  · rw [ExpressionTree.inOrderTraversal, hb]
    simp [String.data_append]
  · rw [ExpressionTree.inOrderTraversal, hb, String.data_append]
    exact List.getLast?_concat _

/-- The instance `2 + 3` of `in_order_wraps_binary_nodes`. -/
theorem in_order_wraps_binary_nodes_witness :
    (ExpressionTree.mk (Node.binaryOp "+" (Node.operand (Double.ofNat 2))
      (Node.operand (Double.ofNat 3)))).inOrderTraversal =
      "(" ++ ("2" ++ (" " ++ "+" ++ " ") ++ "3") ++ ")" :=
  (in_order_wraps_binary_nodes Double.zero "+" (Node.operand (Double.ofNat 2))
    (Node.operand (Double.ofNat 3)) (Or.inl (by decide)) "").1

/-- C19 (counterexample): the well-formed tree whose root is unary minus applied to
`2` is rendered as ` - 2`, which neither begins with `(` nor ends with `)`. -/
theorem unary_root_is_not_wrapped :
    WellFormed (Node.unaryOp "-" (Node.operand (Double.ofNat 2))) ∧
    (ExpressionTree.mk (Node.unaryOp "-" (Node.operand (Double.ofNat 2)))).inOrderTraversal =
      " - 2" ∧
    (ExpressionTree.mk
      (Node.unaryOp "-" (Node.operand (Double.ofNat 2)))).inOrderTraversal.data.head? ≠
      some '(' ∧
    (ExpressionTree.mk
      (Node.unaryOp "-" (Node.operand (Double.ofNat 2)))).inOrderTraversal.data.getLast? ≠
      some ')' := by
  refine ⟨?_, by decide!, by decide!, by decide!⟩
  simp [Node.unaryOp, Node.operand, WellFormed]

/-- C18 (amended): render/re-parse round trip by value, for operands that print
exactly. For every expression string `e` on which `buildExpressionTree` succeeds, if
each operand value of the tree is printed by the stream in plain decimal notation
(digits and points only) and that text is read back by `std::stod` as the same
value, then evaluating the string returned by `inOrderTraversal` of the tree gives
the same result, a number or a failure, as `evaluate(e)`. -/
theorem round_trip_by_value (pow : Double → Double → Double) (e : String)
    (tree : ExpressionTree) (h : buildExpressionTree e = Except.ok tree)
    (hexact : ∀ v ∈ tree.root.operands, printsExactly v) :
    (ExpressionEvaluator.new pow).evaluate tree.inOrderTraversal =
      (ExpressionEvaluator.new pow).evaluate e := by
  obtain ⟨t, ht, hk⟩ := buildExpressionTree_expr e tree h
  subst ht
  have hl : ∀ v ∈ t.leaves, printsExactly v := by
    intro v hv
    apply hexact
    show v ∈ t.toNode.operands
    rw [operands_toNode]
    exact hv
  have h2 := buildExpressionTree_inOrder_symbolOf t hk hl
  unfold ExpressionEvaluator.evaluate
  rw [h, h2]
  exact evaluateNode_mapBinary pow t

/-- C18 (witness): `buildExpressionTree("2+3*4")` succeeds, the operands 2, 3, 4 of
its tree print exactly, and evaluating the rendering `(2 + (3 * 4))` gives the
result of `evaluate("2+3*4")`. -/
theorem round_trip_by_value_witness :
    buildExpressionTree "2+3*4" =
      Except.ok (ExpressionTree.mk (Node.binaryOp "+" (Node.operand (Double.ofNat 2))
        (Node.binaryOp "*" (Node.operand (Double.ofNat 3)) (Node.operand (Double.ofNat 4))))) ∧
    (ExpressionTree.mk (Node.binaryOp "+" (Node.operand (Double.ofNat 2))
      (Node.binaryOp "*" (Node.operand (Double.ofNat 3))
        (Node.operand (Double.ofNat 4))))).inOrderTraversal = "(2 + (3 * 4))" ∧
    (ExpressionEvaluator.new powIntegral).evaluate
      (ExpressionTree.mk (Node.binaryOp "+" (Node.operand (Double.ofNat 2))
        (Node.binaryOp "*" (Node.operand (Double.ofNat 3))
          (Node.operand (Double.ofNat 4))))).inOrderTraversal =
      (ExpressionEvaluator.new powIntegral).evaluate "2+3*4" :=
  ⟨by decide!, by decide!,
    round_trip_by_value powIntegral "2+3*4" _ (by decide!) (by decide!)⟩

/-- C18 (counterexample): `buildExpressionTree("1234567")` succeeds with the single
operand 1234567; the stream prints that value with six significant digits, so
`inOrderTraversal` returns `1.23457e+06`; that text is tokenized as `1.23457`, `e`,
`+`, `06` and evaluates to the value of `7.23457`, not to 1234567. -/
theorem seven_digit_operand_breaks_round_trip :
    buildExpressionTree "1234567" =
      Except.ok (ExpressionTree.mk (Node.operand (Double.ofNat 1234567))) ∧
    (ExpressionTree.mk (Node.operand (Double.ofNat 1234567))).inOrderTraversal =
      "1.23457e+06" ∧
    tokenize "1.23457e+06" = ["1.23457", "e", "+", "06"] ∧
    (ExpressionEvaluator.new powIntegral).evaluate "1234567" =
      Except.ok (Double.ofNat 1234567) ∧
    (ExpressionEvaluator.new powIntegral).evaluate "1.23457e+06" =
      (ExpressionEvaluator.new powIntegral).evaluate "7.23457" ∧
    (ExpressionEvaluator.new powIntegral).evaluate
        (ExpressionTree.mk (Node.operand (Double.ofNat 1234567))).inOrderTraversal ≠
      (ExpressionEvaluator.new powIntegral).evaluate "1234567" := by
  decide!

/-- C22 (amended): a numeric token is a maximal run of digits and decimal points,
with any number of points. For every input string, every token that `tokenize`
emits and that begins with a digit or `.` is a non-empty piece of the scanned text
(the input after keyword replacement) consisting of digits and `.` characters only,
and the character after the piece, if any, is neither a digit nor `.`. -/
theorem numeric_token_is_maximal_run (expression : String) (t : String)
    (ht : t ∈ tokenize expression)
    (hhead : ∃ x, t.data.head? = some x ∧ isNumberChar x = true) :
    ∃ before after, replaceKeywords expression.data = before ++ t.data ++ after ∧
      t.data ≠ [] ∧ (∀ x ∈ t.data, isNumberChar x = true) ∧
      ∀ y, after.head? = some y → isNumberChar y = false := by
  obtain ⟨before, after, h1, h2, h3⟩ :=
    tokenizeLoop_numeric (replaceKeywords expression.data)
      (replaceKeywords expression.data).length [] (replaceKeywords expression.data) [] rfl
      (by simp) t ht hhead
  refine ⟨before, after, h1, ?_, h2, h3⟩
  obtain ⟨x, hx, -⟩ := hhead
  intro e
  rw [e] at hx
  simp at hx

/-- The instance `12.5+3` of `numeric_token_is_maximal_run`: the token `12.5` is
followed by `+`. -/
theorem numeric_token_is_maximal_run_witness :
    "12.5" ∈ tokenize "12.5+3" ∧
    ∃ before after, replaceKeywords "12.5+3".data = before ++ "12.5".data ++ after ∧
      "12.5".data ≠ [] ∧ (∀ x ∈ "12.5".data, isNumberChar x = true) ∧
      ∀ y, after.head? = some y → isNumberChar y = false :=
  ⟨by decide, numeric_token_is_maximal_run "12.5+3" "12.5" (by decide) ⟨'1', by decide⟩⟩

/-- C22 (counterexample): the input `1.2.3` is scanned into the single token `1.2.3`,
which begins with a digit and holds two decimal points. -/
theorem two_points_in_one_token :
    tokenize "1.2.3" = ["1.2.3"] ∧ "1.2.3".data.head? = some '1' ∧ isdigit '1' = true ∧
      "1.2.3".data.count '.' = 2 := by
  decide

/-- C23: `tokenize` is total. Every iteration of the scanning loop, whichever branch
it takes, leaves strictly less text to scan; `tokenizeStep` is the body of the loop
`tokenizeLoop`; so on every input the loop reaches the end of the text within as many
iterations as the text has characters and returns the token list `tokenize` gives,
which no larger iteration bound changes. No branch raises an error. -/
theorem tokenize_is_total (expression : String) :
    (∀ (c : Char) (rest : List Char) (tokens : List String),
      (tokenizeStep c rest tokens).1.length < (c :: rest).length) ∧
    (∀ (fuel : Nat) (c : Char) (rest : List Char) (tokens : List String),
      tokenizeLoop (fuel + 1) (c :: rest) tokens =
        tokenizeLoop fuel (tokenizeStep c rest tokens).1 (tokenizeStep c rest tokens).2) ∧
    tokenizeSteps (replaceKeywords expression.data).length (replaceKeywords expression.data) [] =
      some (tokenize expression) ∧
    (∀ extra : Nat,
      tokenizeSteps ((replaceKeywords expression.data).length + extra)
        (replaceKeywords expression.data) [] = some (tokenize expression)) := by
  refine ⟨?_, tokenizeLoop_step, tokenizeSteps_eq _ _ _ (le_refl _), ?_⟩
  · intro c rest tokens
    have h := tokenizeStep_length c rest tokens
    simp only [List.length_cons]
    omega
  · intro extra
    rw [tokenizeSteps_eq _ _ _ (Nat.le_add_right _ _),
      tokenizeLoop_fuel _ _ _ (Nat.le_add_right _ _)]
    rfl

/-- C27: unrecognised characters are silently ignored. Replacing every character
that is not white space, a letter, a digit, `_`, `.`, a parenthesis or one of
`+ - * / % ^ < > = ! & | ~` by a space leaves the result of `tokenize` unchanged; the
scanning loop passes over such a character without emitting a token or raising an
error; `#`, `$`, `@` and `,` are such characters, and `evaluate("2 $ + # 3")` is 5. -/
theorem unrecognised_characters_are_ignored (pow : Double → Double → Double)
    (expression : String) :
    tokenize (String.mk (expression.data.map blankUnrecognised)) = tokenize expression ∧
    (∀ (c : Char) (fuel : Nat) (rest : List Char) (tokens : List String),
      isUnrecognised c = true →
        tokenizeLoop (fuel + 1) (c :: rest) tokens = tokenizeLoop fuel rest tokens) ∧
    ['#', '$', '@', ','].all isUnrecognised = true ∧
    tokenize "2 $ + # 3" = ["2", "+", "3"] ∧
    (ExpressionEvaluator.new pow).evaluate "2 $ + # 3" = Except.ok (Double.ofNat 5) := by
  refine ⟨tokenize_blank expression, ?_, by decide, by decide, rfl⟩
  intro c fuel rest tokens h
  rw [tokenizeLoop_step, tokenizeStep_unrecognised c rest tokens h]

/-- C24: on every string that parses, evaluation returns a number or fails with one
of the two zero-divisor errors. For every expression string on which
`buildExpressionTree` succeeds, evaluating the tree either returns a number or fails
with `Error: Division by zero` or `Error: Modulo by zero`; it fails neither with the
null-node error nor with an unknown-operator error, because the tree is made of
operand, unary and binary nodes whose operators are known, every known unary operator
is a key of `unaryOps` and every binary operator symbol is a key of `binaryOps`. -/
theorem evaluation_fails_only_on_zero_divisor (pow : Double → Double → Double)
    (expression : String) (tree : ExpressionTree)
    (h : buildExpressionTree expression = Except.ok tree) :
    ((∃ v, (ExpressionEvaluator.new pow).evaluateTree tree = Except.ok v) ∨
      (ExpressionEvaluator.new pow).evaluateTree tree =
        Except.error (Fault.ExpressionError "Error: Division by zero") ∨
      (ExpressionEvaluator.new pow).evaluateTree tree =
        Except.error (Fault.ExpressionError "Error: Modulo by zero")) ∧
    (ExpressionEvaluator.new pow).evaluateTree tree ≠
      Except.error (Fault.ExpressionError "Error: Null node encountered during evaluation") ∧
    (∀ op : String, (ExpressionEvaluator.new pow).evaluateTree tree ≠
      Except.error (Fault.ExpressionError ("Error: Unknown unary operator '" ++ op ++ "'"))) ∧
    (∀ op : String, (ExpressionEvaluator.new pow).evaluateTree tree ≠
      Except.error (Fault.ExpressionError ("Error: Unknown binary operator '" ++ op ++ "'"))) ∧
    (∃ t : Expr, tree = ExpressionTree.mk t.toNode ∧ t.knownOps) ∧
    (∀ op : String, op = "-" ∨ op = "~" ∨ op = "not" →
      ((ExpressionEvaluator.new pow).unaryOps.lookup op).isSome = true) ∧
    (∀ op : String, isBinaryOperator op = true →
      ((ExpressionEvaluator.new pow).binaryOps.lookup op).isSome = true) := by
  obtain ⟨t, ht, hk⟩ := buildExpressionTree_expr expression tree h
  subst ht
  have hout : (∃ v, (ExpressionEvaluator.new pow).evaluateTree (ExpressionTree.mk t.toNode) =
        Except.ok v) ∨
      (ExpressionEvaluator.new pow).evaluateTree (ExpressionTree.mk t.toNode) =
        Except.error (Fault.ExpressionError "Error: Division by zero") ∨
      (ExpressionEvaluator.new pow).evaluateTree (ExpressionTree.mk t.toNode) =
        Except.error (Fault.ExpressionError "Error: Modulo by zero") :=
    evaluateNode_outcomes pow t hk
  have hne : ∀ msg : String,
      (msg ≠ "Error: Division by zero" ∧ msg ≠ "Error: Modulo by zero") →
      (ExpressionEvaluator.new pow).evaluateTree (ExpressionTree.mk t.toNode) ≠
        Except.error (Fault.ExpressionError msg) := by
    intro msg hmsg e
    rcases hout with ⟨v, hv⟩ | hv | hv
    · rw [hv] at e
      exact Except.noConfusion e
    · rw [hv] at e
      exact hmsg.1 (Fault.ExpressionError.inj (Except.error.inj e)).symm
    · rw [hv] at e
      exact hmsg.2 (Fault.ExpressionError.inj (Except.error.inj e)).symm
  have hd := division_message_ne "Error: Division by zero" (Or.inl rfl)
  have hm := division_message_ne "Error: Modulo by zero" (Or.inr rfl)
  refine ⟨hout, hne _ ⟨hd.1.symm, hm.1.symm⟩,
    fun op => hne _ ⟨(hd.2.1 op).symm, (hm.2.1 op).symm⟩,
    fun op => hne _ ⟨(hd.2.2 op).symm, (hm.2.2 op).symm⟩, ⟨t, rfl, hk⟩, ?_, ?_⟩
  · intro op hop
    obtain ⟨f, hf, -⟩ := unary_lookup_outcomes pow hop Double.zero
    rw [hf]
    rfl
  · intro op hop
    obtain ⟨f, hf, -⟩ := binary_lookup_outcomes pow hop Double.zero Double.zero
    rw [hf]
    rfl

/-- The instances `6 / 0` and `~ 6 % 4` of `evaluation_fails_only_on_zero_divisor`:
both strings parse; the first evaluation fails with the division error, the second
returns a number. -/
theorem evaluation_fails_only_on_zero_divisor_witness :
    buildExpressionTree "6 / 0" =
      Except.ok (ExpressionTree.mk
        (Node.binaryOp "/" (Node.operand (Double.ofNat 6)) (Node.operand (Double.ofNat 0)))) ∧
    (ExpressionEvaluator.new powIntegral).evaluateTree (ExpressionTree.mk
        (Node.binaryOp "/" (Node.operand (Double.ofNat 6)) (Node.operand (Double.ofNat 0)))) =
      Except.error (Fault.ExpressionError "Error: Division by zero") ∧
    (ExpressionEvaluator.new powIntegral).evaluateTree (ExpressionTree.mk
        (Node.binaryOp "/" (Node.operand (Double.ofNat 6)) (Node.operand (Double.ofNat 0)))) ≠
      Except.error (Fault.ExpressionError "Error: Null node encountered during evaluation") ∧
    (ExpressionEvaluator.new powIntegral).evaluate "~ 6 % 4" = Except.ok (Double.ofInt (-3)) :=
  ⟨by decide!, by decide!,
    (evaluation_fails_only_on_zero_divisor powIntegral "6 / 0" _ (by decide!)).2.1,
    by decide!⟩

/-- C25: the output of a successful conversion rearranges the non-parenthesis
tokens. For every token sequence `ts` on which `infixToPostfix` succeeds with output
`out`: `out` holds no `(` and no `)` token; `out` is a permutation of `ts` with the
parenthesis tokens removed, so the two have the same length; and the non-operator
tokens (numbers and opaque identifiers) stand in `out` in the same order as in `ts`. -/
theorem postfix_rearranges_tokens (ts out : List String)
    (h : infixToPostfix ts = Except.ok out) :
    "(" ∉ out ∧ ")" ∉ out ∧
    out.Perm (ts.filter (fun t => !isParen t)) ∧
    out.length = (ts.filter (fun t => !isParen t)).length ∧
    out.filter (fun t => !isOperator t) =
      (ts.filter (fun t => !isParen t)).filter (fun t => !isOperator t) := by
  obtain ⟨h1, h2⟩ := infixLoop_tokens ts [] [] out (by simp) h
  have hperm : out.Perm (ts.filter (fun t => !isParen t)) := by
    rw [List.perm_iff_count]
    intro a
    rw [h1 a]
    simp
  have hmem : ∀ x ∈ out, isParen x = false := by
    intro x hx
    have := (List.mem_filter.1 (hperm.mem_iff.1 hx)).2
    simpa using this
  refine ⟨?_, ?_, hperm, hperm.length_eq, by simpa using h2⟩
  · intro hx
    exact absurd (hmem _ hx) (by decide)
  · intro hx
    exact absurd (hmem _ hx) (by decide)

/-- The instance `( 2 + x ) * 3` of `postfix_rearranges_tokens`: the output is
`2 x + 3 *`. -/
theorem postfix_rearranges_tokens_witness :
    infixToPostfix ["(", "2", "+", "x", ")", "*", "3"] = Except.ok ["2", "x", "+", "3", "*"] ∧
    "(" ∉ ["2", "x", "+", "3", "*"] ∧ ")" ∉ ["2", "x", "+", "3", "*"] ∧
    ["2", "x", "+", "3", "*"].Perm
      (["(", "2", "+", "x", ")", "*", "3"].filter (fun t => !isParen t)) ∧
    ["2", "x", "+", "3", "*"].length =
      (["(", "2", "+", "x", ")", "*", "3"].filter (fun t => !isParen t)).length ∧
    ["2", "x", "+", "3", "*"].filter (fun t => !isOperator t) =
      (["(", "2", "+", "x", ")", "*", "3"].filter (fun t => !isParen t)).filter
        (fun t => !isOperator t) :=
  ⟨by decide, postfix_rearranges_tokens ["(", "2", "+", "x", ")", "*", "3"]
    ["2", "x", "+", "3", "*"] (by decide)⟩

/-- C21 (amended): the textual keywords are synonyms of the symbolic forms where the
symbol is read as the same operator. For every text in which a word `and`, `or` or
`not` stands between white space (or the ends of the text), replacing the word by
`&&`, `||`, `!` respectively changes neither the token list nor the outcome of
`evaluate`, a value or a failure; for `not` this holds when the word stands in a
unary position, that is, when the tokens of the text before it are none or end with
`(` or an operator. -/
theorem keyword_synonyms (pow : Double → Double → Double) (pre post : List Char)
    (word symbol : String)
    (hword : (word, symbol) ∈ [("and", "&&"), ("or", "||"), ("not", "!")])
    (hpre : ∀ s, pre.getLast? = some s → isspace s = true)
    (hpost : ∀ s, post.head? = some s → isspace s = true)
    (hnot : word = "not" → unaryPosition (tokenize (String.mk pre))) :
    tokenize (String.mk (pre ++ word.data ++ post)) =
      tokenize (String.mk (pre ++ symbol.data ++ post)) ∧
    (ExpressionEvaluator.new pow).evaluate (String.mk (pre ++ word.data ++ post)) =
      (ExpressionEvaluator.new pow).evaluate (String.mk (pre ++ symbol.data ++ post)) := by
  obtain ⟨h1, h2, h3⟩ := tokenize_keyword pre post (ends_with_space pre hpre)
    (begins_with_space post hpost)
  have htok : tokenize (String.mk (pre ++ word.data ++ post)) =
      tokenize (String.mk (pre ++ symbol.data ++ post)) := by
    simp only [List.mem_cons, Prod.mk.injEq, List.mem_singleton, List.mem_nil_iff,
      or_false] at hword
    rcases hword with ⟨hw, hs⟩ | ⟨hw, hs⟩ | ⟨hw, hs⟩
    · subst hw; subst hs; exact h1
    · subst hw; subst hs; exact h2
    · subst hs; exact hw ▸ h3 (hnot hw)
  exact ⟨htok, evaluate_congr pow _ _ htok⟩

/-- The instances `1 and 0`, `1 or 0` and `not 0` of `keyword_synonyms`, with the
values of the two examples of the claim. -/
theorem keyword_synonyms_witness :
    (ExpressionEvaluator.new powIntegral).evaluate "1 and 0" =
      (ExpressionEvaluator.new powIntegral).evaluate "1 && 0" ∧
    (ExpressionEvaluator.new powIntegral).evaluate "1 or 0" =
      (ExpressionEvaluator.new powIntegral).evaluate "1 || 0" ∧
    unaryPosition (tokenize "") ∧
    (ExpressionEvaluator.new powIntegral).evaluate "not 0" =
      (ExpressionEvaluator.new powIntegral).evaluate "! 0" ∧
    (ExpressionEvaluator.new powIntegral).evaluate "1 and 0" = Except.ok (Double.ofNat 0) ∧
    (ExpressionEvaluator.new powIntegral).evaluate "not 0" = Except.ok (Double.ofNat 1) ∧
    (ExpressionEvaluator.new powIntegral).evaluate "!0" = Except.ok (Double.ofNat 1) :=
  ⟨(keyword_synonyms powIntegral ['1', ' '] [' ', '0'] "and" "&&" (by decide) (by decide)
      (by decide) (fun h => absurd h (by decide))).2,
   (keyword_synonyms powIntegral ['1', ' '] [' ', '0'] "or" "||" (by decide) (by decide)
      (by decide) (fun h => absurd h (by decide))).2,
   Or.inl rfl,
   (keyword_synonyms powIntegral [] [' ', '0'] "not" "!" (by decide) (by decide)
      (by decide) (fun _ => Or.inl rfl)).2,
   by decide!, by decide!, by decide!⟩

/-- C21 (counterexample): in `0 not` the word `not` stands between a space and the
end of the text; replacing it by `!` gives `0 !`. The tokens are `0`, `not` and `0`,
`!`, and `evaluate` returns 1 for the first text and 0 for the second. -/
theorem postfix_not_differs_from_bang :
    "0 not" = String.mk (['0', ' '] ++ "not".data ++ []) ∧
    "0 !" = String.mk (['0', ' '] ++ "!".data ++ []) ∧
    tokenize "0 not" = ["0", "not"] ∧ tokenize "0 !" = ["0", "!"] ∧
    (ExpressionEvaluator.new powIntegral).evaluate "0 not" = Except.ok (Double.ofNat 1) ∧
    (ExpressionEvaluator.new powIntegral).evaluate "0 !" = Except.ok (Double.ofNat 0) ∧
    (ExpressionEvaluator.new powIntegral).evaluate "0 not" ≠
      (ExpressionEvaluator.new powIntegral).evaluate "0 !" := by
  decide!

/-- C26: structural render/re-parse round trip. For every tree `T` made of operand,
unary and binary nodes (a well-formed tree) whose leaves are integers `n` with
`0 ≤ n < 1000000`, whose unary operators are among `-`, `~`, `not` and whose binary
operators are among `+ - * / % ^ == != < > <= >= && || & | xor << >>`,
`buildExpressionTree(inOrderTraversal(T))` succeeds and returns a tree equal to `T`;
the condition on binary operators of `symbolicOps` is membership in that list. -/
theorem structural_round_trip (t : Expr) (hops : t.symbolicOps)
    (hleaves : ∀ v ∈ t.leaves, ∃ n : Nat, n < 1000000 ∧ v = Double.ofNat n) :
    WellFormed t.toNode ∧
    buildExpressionTree (ExpressionTree.mk t.toNode).inOrderTraversal =
      Except.ok (ExpressionTree.mk t.toNode) ∧
    (∀ op : String, (isBinaryOperator op = true ∧ op ≠ "and" ∧ op ≠ "or") ↔
      op ∈ ["+", "-", "*", "/", "%", "^", "==", "!=", "<", ">", "<=", ">=",
        "&&", "||", "&", "|", "xor", "<<", ">>"]) := by
  refine ⟨toNode_wellFormed t, ?_, ?_⟩
  · apply buildExpressionTree_inOrder t hops
    intro v hv
    obtain ⟨n, hn, e⟩ := hleaves v hv
    rw [e]
    exact printsExactly_ofNat n hn
  · intro op
    constructor
    · rintro ⟨h1, h2, h3⟩
      have hc := binary_cases h1
      simp only [List.mem_cons, List.mem_singleton, List.mem_nil_iff, or_false] at hc ⊢
      rcases hc with h | h | h | h | h | h | h | h | h | h | h | h | h | h | h | h | h | h |
        h | h | h
      all_goals first
        | exact absurd h h2
        | exact absurd h h3
        | (subst h; decide)
    · intro h
      simp only [List.mem_cons, List.mem_singleton, List.mem_nil_iff, or_false] at h
      rcases h with h | h | h | h | h | h | h | h | h | h | h | h | h | h | h | h | h | h |
        h <;> subst h <;> decide

/-- The instance `(-7) * (2 + 999999)` of `structural_round_trip`: the tree is
rendered as `( - 7 * (2 + 999999))` and parsing that text gives the tree back. -/
theorem structural_round_trip_witness :
    (ExpressionTree.mk (Expr.binary "*" (Expr.unary "-" (Expr.num (Double.ofNat 7)))
      (Expr.binary "+" (Expr.num (Double.ofNat 2))
        (Expr.num (Double.ofNat 999999)))).toNode).inOrderTraversal =
      "( - 7 * (2 + 999999))" ∧
    buildExpressionTree
      (ExpressionTree.mk (Expr.binary "*" (Expr.unary "-" (Expr.num (Double.ofNat 7)))
        (Expr.binary "+" (Expr.num (Double.ofNat 2))
          (Expr.num (Double.ofNat 999999)))).toNode).inOrderTraversal =
      Except.ok (ExpressionTree.mk (Expr.binary "*" (Expr.unary "-" (Expr.num (Double.ofNat 7)))
        (Expr.binary "+" (Expr.num (Double.ofNat 2))
          (Expr.num (Double.ofNat 999999)))).toNode) :=
  ⟨by decide!,
    (structural_round_trip
      (Expr.binary "*" (Expr.unary "-" (Expr.num (Double.ofNat 7)))
        (Expr.binary "+" (Expr.num (Double.ofNat 2)) (Expr.num (Double.ofNat 999999))))
      ⟨⟨by decide, by decide, by decide⟩, ⟨Or.inl rfl, trivial⟩,
        ⟨by decide, by decide, by decide⟩, trivial, trivial⟩
      (fun v hv => by
        simp only [Expr.leaves, List.mem_append, List.mem_singleton] at hv
        rcases hv with h | h | h
        · exact ⟨7, by decide, h⟩
        · exact ⟨2, by decide, h⟩
        · exact ⟨999999, by decide, h⟩)).2.1⟩

end ParsingTree
